import Mathlib

/-! MiniGit: a shallow embedding of `src/minigit.cpp`.

The C++ program keeps its whole state in files.  The embedding models

* a `std::string` as a list of characters (`Str`);
* a `std::map<string,string>` as an association list kept in ascending key order (`Map`),
  a `std::set<string>` as an ascending list without repetition (`StrSet`);
* the directory `.minigit` as a table from the path relative to `.minigit`
  (`HEAD`, `index`, `objects/<hash>`, `refs/heads/<name>`) to the file content, and the
  working directory as a second table from file name to content;
* `std::hash<std::string>` (implementation defined) as a parameter `H : Str → Nat`;
* the clock as a parameter `now : Int`;
* an exception that escapes to `main` (`std::stoi`, `std::stol`, `create_directories`,
  `write_file`, reading the directory `objects` as a file) as `none`, `Res.err` or an outcome of
  its own; `main` catches it and ends the program, the files stay as they were at the throw;
* the two breadth-first loops of `find_lca` with a step budget (`Res.fuel` when it runs out).

File names. The tables carry no directories: the working directory is taken to hold regular
files only, next to `.minigit`, and below `.minigit` there are the directories that `init`
creates and no others (the program creates none there). A name typed on the command line for
`add`, `branch` or `checkout` is covered when it is a plain name (`plainName`: one path component
of printable ASCII characters); for such a name `fs::relative` returns the name itself and
`heads_path() / name` is an entry of `refs/heads`. For `branch` the embedding also covers the
names `.` and `..` and the names that continue a plain first component after a slash. Every other
name, and every path whose handling needs directories of the working tree, gets the outcome
`outside`: the embedding then says nothing about what the program does, and the state returned
with that outcome carries no information. The file system is the one of POSIX (`/` separates
components, a component has at most 255 bytes).
-/

namespace MiniGit

/-! ## Strings and streams -/

/-- A `std::string`. -/
abbrev Str := List Char

/-- The C locale `isspace`: space, and the control characters `\t \n \v \f \r`. -/
def isspace (c : Char) : Bool :=
  c.toNat == 32 || (9 ≤ c.toNat && c.toNat ≤ 13)

/-- The order of `std::string::compare`: lexicographic on character codes. -/
def strLt : Str → Str → Bool
  | [], [] => false
  | [], _ :: _ => true
  | _ :: _, [] => false
  | a :: as, b :: bs =>
    if a.toNat < b.toNat then true
    else if a.toNat = b.toNat then strLt as bs
    else false

/-- The test `s.rfind(p, 0) == 0`: `p` is an initial segment of `s`. -/
def startsWith : Str → Str → Bool
  | _, [] => true
  | [], _ :: _ => false
  | c :: cs, p :: ps => c == p && startsWith cs ps

/-- Skipping of leading white space done by `operator>>`. -/
def skipws : Str → Str
  | [] => []
  | c :: cs => if isspace c then skipws cs else c :: cs

/-- The maximal run of non-space characters at the front, and what follows it. -/
def readWord : Str → Str × Str
  | [] => ([], [])
  | c :: cs =>
    if isspace c then ([], c :: cs)
    else ((c :: (readWord cs).1), (readWord cs).2)

/-- One `stream >> word` on a string stream positioned at `s`: the extracted word (empty when the
extraction fails) and the new position. -/
def extract (s : Str) : Str × Str := readWord (skipws s)

/-- The statement `ls >> x >> y` on a fresh stream over `line`. A failed first extraction leaves
both words empty, which is also what two independent extractions give. -/
def extract2 (line : Str) : Str × Str :=
  ((extract line).1, (extract (extract line).2).1)

/-- The text of a stream up to the first newline, and the text after that newline. -/
def splitNL : Str → Str × Str
  | [] => ([], [])
  | c :: cs =>
    if c = '\n' then ([], cs)
    else ((c :: (splitNL cs).1), (splitNL cs).2)

/-- The call `getline(ss, line)` on a stream positioned at `s`: it fails exactly at the end of the
stream, otherwise yields the line and the new position. -/
def getline (s : Str) : Option (Str × Str) :=
  match s with
  | [] => none
  | _ :: _ => some (splitNL s)

/-! ## Numbers in text -/

/-- The decimal digit `d` as a character. -/
def digitChar (d : Nat) : Char := Char.ofNat (48 + d)

/-- Decimal digits of `n`, most significant first, in front of `acc`. -/
def showNatAux : Nat → Nat → Str → Str
  | 0, _, acc => acc
  | fuel + 1, n, acc =>
    if n < 10 then digitChar n :: acc
    else showNatAux fuel (n / 10) (digitChar (n % 10) :: acc)

/-- The text `stream << n` writes for an unsigned integer. -/
def showNat (n : Nat) : Str := showNatAux (n + 1) n []

/-- The text `stream << t` writes for a `long`. -/
def showLong (t : Int) : Str :=
  if t < 0 then '-' :: showNat t.natAbs else showNat t.natAbs

/-- Whether `c` is a decimal digit. -/
def isDigit (c : Char) : Bool := 48 ≤ c.toNat && c.toNat ≤ 57

/-- Value of the longest run of decimal digits at the front of the text, starting from `acc`,
and whether at least one digit was seen. -/
def readDigits : Str → Nat → Bool → Nat × Bool
  | [], acc, seen => (acc, seen)
  | c :: cs, acc, seen =>
    if isDigit c then readDigits cs (10 * acc + (c.toNat - 48)) true
    else (acc, seen)

/-- The conversion of `strtol(s, _, 10)` without its range check: leading white space, an optional
sign, then digits; `none` when there is no digit to convert. -/
def parseInt (s : Str) : Option Int :=
  match skipws s with
  | '-' :: r => if (readDigits r 0 false).2 then some (-((readDigits r 0 false).1 : Int)) else none
  | '+' :: r => if (readDigits r 0 false).2 then some ((readDigits r 0 false).1 : Int) else none
  | r => if (readDigits r 0 false).2 then some ((readDigits r 0 false).1 : Int) else none

/-- The function `std::stoi`: `none` stands for the exception (`invalid_argument`,
`out_of_range`). -/
def stoi (s : Str) : Option Int :=
  match parseInt s with
  | some v => if -2147483648 ≤ v ∧ v ≤ 2147483647 then some v else none
  | none => none

/-- The function `std::stol` with a 64-bit `long`. -/
def stol (s : Str) : Option Int :=
  match parseInt s with
  | some v => if -9223372036854775808 ≤ v ∧ v ≤ 9223372036854775807 then some v else none
  | none => none

/-- The hexadecimal digit `d` in lower case. -/
def hexDigit (d : Nat) : Char :=
  if d < 10 then Char.ofNat (48 + d) else Char.ofNat (87 + d)

/-- The `w` least significant hexadecimal digits of `v`, most significant first. -/
def hexN : Nat → Nat → Str
  | 0, _ => []
  | w + 1, v => hexN w (v / 16) ++ [hexDigit (v % 16)]

/-- Source `calculate_hash`: the 64-bit value of `std::hash` printed as sixteen zero-filled
hexadecimal digits, twice. -/
def calculate_hash (H : Str → Nat) (content : Str) : Str :=
  hexN 16 (H content % 18446744073709551616) ++ hexN 16 (H content % 18446744073709551616)

/-! ## Containers -/

/-- A `std::map<string,string>`: entries in ascending key order. -/
abbrev Map := List (Str × Str)

/-- A `std::set<string>`: elements in ascending order. -/
abbrev StrSet := List Str

/-- The assignment `m[k] = v`. -/
def mapAssign : Map → Str → Str → Map
  | [], k, v => [(k, v)]
  | (k0, v0) :: rest, k, v =>
    if strLt k k0 then (k, v) :: (k0, v0) :: rest
    else if k = k0 then (k, v) :: rest
    else (k0, v0) :: mapAssign rest k v

/-- The lookup `m.find(k)`: the mapped value when `k` is a key. -/
def mapFind : Map → Str → Option Str
  | [], _ => none
  | (k0, v0) :: rest, k => if k = k0 then some v0 else mapFind rest k

/-- The expression `m.count(k) ? m.at(k) : ""`. -/
def mapAtOr (m : Map) (k : Str) : Str := (mapFind m k).getD []

/-- The call `s.insert(x)` on a set. -/
def setInsert : StrSet → Str → StrSet
  | [], x => [x]
  | y :: rest, x =>
    if strLt x y then x :: y :: rest
    else if x = y then y :: rest
    else y :: setInsert rest x

/-! ## The file system -/

/-- A directory: the content of each file in it, by relative path. -/
abbrev Files := Str → Option Str

/-- The test `fs::exists(p)`. -/
def file_exists (t : Files) (p : Str) : Bool := (t p).isSome

/-- Source `read_file`: the content, or the empty string when the file does not exist. -/
def read_file (t : Files) (p : Str) : Str := (t p).getD []

/-- Source `write_file`: create or overwrite `p` with `content`. -/
def write_file (t : Files) (p content : Str) : Files :=
  fun q => if q = p then some content else t q

/-- The call `fs::remove(p)`: afterwards `p` does not exist. -/
def remove_file (t : Files) (p : Str) : Files :=
  fun q => if q = p then none else t q

/-- The whole state the program works on. -/
structure World where
  /-- does the directory `.minigit` exist -/
  dir : Bool
  /-- the files below `.minigit` -/
  repo : Files
  /-- the files of the working directory -/
  work : Files

/-- The file `.minigit/HEAD`. -/
def HEAD_FILE : Str := "HEAD".toList

/-- The file `.minigit/index`. -/
def INDEX_FILE : Str := "index".toList

/-- The path `objects_path() / hash`, relative to `.minigit`. -/
def objPath (hash : Str) : Str := "objects/".toList ++ hash

/-- The path `heads_path() / name`, relative to `.minigit`. -/
def headPath (name : Str) : Str := "refs/heads/".toList ++ name

/-- The last component of a path: `fs::path(p).filename()`. -/
def filename (p : Str) : Str := (p.reverse.takeWhile (fun c => c != '/')).reverse

/-! ## File names covered by the embedding -/

/-- A character of a plain name: printable ASCII other than the slash and the backslash. -/
def plainChar (c : Char) : Bool :=
  decide (33 ≤ c.toNat) && decide (c.toNat ≤ 126) && c != '/' && c != '\\'

/-- A plain name: a single path component that names a regular file (or nothing) in the
directory it is looked up in. It is not empty, has at most 255 characters, all of them plain, and
is none of `.`, `..` and `.minigit`, which name directories. -/
def plainName (s : Str) : Bool :=
  s != [] && decide (s.length ≤ 255) && s.all plainChar && s != ".".toList &&
    s != "..".toList && s != ".minigit".toList

/-- The first component of a relative path: what precedes the first slash. -/
def firstComponent (s : Str) : Str := s.takeWhile (fun c => c != '/')

/-! ## Index -/

/-- The lines `getline` yields one after the other until it fails. -/
def lines : Str → List Str
  | [] => []
  | c :: cs =>
    if c = '\n' then [] :: lines cs
    else
      match lines cs with
      | [] => [[c]]
      | l :: ls => (c :: l) :: ls

/-- Body of the loop of `Index::load` for one line: `ls >> hash >> file`, then the guarded
assignment. -/
def Index.loadLine (entries : Map) (line : Str) : Map :=
  if (extract2 line).1 ≠ [] ∧ (extract2 line).2 ≠ [] then
    mapAssign entries (extract2 line).2 (extract2 line).1
  else entries

/-- Source `Index::load`, applied to the text of the index file. -/
def Index.load (text : Str) : Map := (lines text).foldl Index.loadLine []

/-- Source `Index::save`: the text written to the index file. -/
def Index.save : Map → Str
  | [] => []
  | (f, h) :: rest => h ++ ' ' :: f ++ '\n' :: Index.save rest

/-! ## Commit -/

/-- The data members of `class Commit` that the program reads. -/
structure Commit where
  message : Str := []
  parents : List Str := []
  files : Map := []
  timestamp : Int := 0
  deriving DecidableEq

/-- The lines `f h` of the snapshot, as `Commit::serialize` writes them. -/
def serializeFiles : Map → Str
  | [] => []
  | (f, h) :: rest => f ++ ' ' :: h ++ '\n' :: serializeFiles rest

/-- The lines `parent p`, as `Commit::serialize` writes them. -/
def serializeParents : List Str → Str
  | [] => []
  | p :: rest => "parent ".toList ++ p ++ '\n' :: serializeParents rest

/-- Source `Commit::serialize`. -/
def Commit.serialize (c : Commit) : Str :=
  "tree ".toList ++ showNat c.files.length ++ '\n' :: (serializeFiles c.files ++
    (serializeParents c.parents ++
      ("timestamp ".toList ++ showLong c.timestamp ++ '\n' :: '\n' :: c.message)))

/-- Body of the inner loop of `Commit::deserialize` for one line: `ls >> f >> h`, then the
guarded assignment. -/
def Commit.treeLine (files : Map) (line : Str) : Map :=
  if (extract2 line).1 ≠ [] ∧ (extract2 line).2 ≠ [] then
    mapAssign files (extract2 line).1 (extract2 line).2
  else files

/-- The inner loop `while (count-- > 0 && getline(ss, line))` of `Commit::deserialize`: the
snapshot and the stream position after it. -/
def Commit.treeLoop : Nat → Str → Map → Map × Str
  | 0, s, files => (files, s)
  | count + 1, s, files =>
    match getline s with
    | none => (files, s)
    | some (line, rest) => Commit.treeLoop count rest (Commit.treeLine files line)

/-- The outer loop of `Commit::deserialize` from stream position `s`: the commit read so far and
the position where the message starts; `none` when `stoi` or `stol` throws. The first argument
bounds the number of iterations; one line is consumed per iteration, so the length of the stream
is enough. -/
def Commit.headerLoop : Nat → Str → Commit → Option (Commit × Str)
  | 0, s, c => some (c, s)
  | n + 1, s, c =>
    match getline s with
    | none => some (c, s)
    | some (line, rest) =>
      if line = [] then some (c, rest)
      else if startsWith line "tree ".toList then
        match stoi (line.drop 5) with
        | none => none
        | some count =>
          Commit.headerLoop n (Commit.treeLoop count.toNat rest c.files).2
            { c with files := (Commit.treeLoop count.toNat rest c.files).1 }
      else if startsWith line "parent ".toList then
        Commit.headerLoop n rest { c with parents := c.parents ++ [line.drop 7] }
      else if startsWith line "timestamp ".toList then
        match stol (line.drop 10) with
        | none => none
        | some t => Commit.headerLoop n rest { c with timestamp := t }
      else Commit.headerLoop n rest c

/-- Source `Commit::deserialize`; `none` when it throws. The member `timestamp`, which the source
leaves uninitialised when no `timestamp` line is read, starts at `0`. -/
def Commit.deserialize (data : Str) : Option Commit :=
  match Commit.headerLoop data.length data {} with
  | none => none
  | some (c, rest) => some { c with message := rest }

/-! ## Repository -/

/-- Source `Repository::get_head_hash`. -/
def get_head_hash (repo : Files) : Str :=
  if startsWith (read_file repo HEAD_FILE) "ref: ".toList then
    read_file repo ((read_file repo HEAD_FILE).drop 5)
  else read_file repo HEAD_FILE

/-- Source `Repository::current_branch`. -/
def current_branch (repo : Files) : Str :=
  if startsWith (read_file repo HEAD_FILE) "ref: ".toList then
    filename ((read_file repo HEAD_FILE).drop 5)
  else []

/-- Source `Repository::update_head`. -/
def update_head (repo : Files) (ref : Str) : Files := write_file repo HEAD_FILE ref

/-- Source `Repository::update_branch`. -/
def update_branch (repo : Files) (b h : Str) : Files := write_file repo (headPath b) h

/-! ## Commands -/

/-- How a loop that may throw or run forever ends. -/
inductive Res (α : Type) where
  /-- normal completion with a value -/
  | ok (a : α)
  /-- an exception escaped (`read_file` or `Commit::deserialize` threw) -/
  | err
  /-- the step budget ran out -/
  | fuel
  deriving DecidableEq

/-- What `checkout` reports. -/
inductive CheckoutOut where
  /-- "Error: No such branch or commit." -/
  | notFound
  /-- "Switched to new branch": the branch has no commit, only HEAD moved -/
  | newBranch
  /-- "Switched to branch" (`true`) or "Switched to commit" (`false`) -/
  | switched (is_branch : Bool)
  /-- an exception escaped after HEAD was written -/
  | crashed
  /-- the name, or a path of the index or of the snapshot, is not covered by the embedding -/
  | outside
  deriving DecidableEq

/-- What `merge` reports. -/
inductive MergeOut where
  /-- "Error: Branch doesn't exist." -/
  | notFound
  /-- "Already up to date." -/
  | upToDate
  /-- "Fast-forward merge." followed by the report of `checkout` -/
  | fastForward (c : CheckoutOut)
  /-- one "CONFLICT" line per listed path, then "Merge conflicts detected." -/
  | conflicts (paths : List Str)
  /-- "Merge successful. New commit:" with the digest of the merge commit -/
  | merged (hash : Str)
  /-- an exception escaped -/
  | crashed
  /-- the search for the common ancestor did not finish within the step budget -/
  | outOfFuel
  deriving DecidableEq

/-- What `commit` reports. -/
inductive CommitOut where
  /-- "Nothing to commit." -/
  | nothingToCommit
  /-- "Committed to <branch> as <hash>" or "Committed in detached HEAD as <hash>" -/
  | committed (hash : Str)
  deriving DecidableEq

/-- What `branch` reports. -/
inductive BranchOut where
  /-- "Error: Branch already exists." -/
  | alreadyExists
  /-- "Error: No commits yet." -/
  | noCommitsYet
  /-- "Created branch" -/
  | created
  /-- the exception "Failed to write" of `write_file` escaped -/
  | failedToWrite
  /-- the name is not covered by the embedding -/
  | outside
  deriving DecidableEq

/-- What `add` reports. -/
inductive AddOut where
  /-- "Error: Not a MiniGit repository." -/
  | notARepository
  /-- "Error: File does not exist." -/
  | noSuchFile
  /-- "Staged:" with the relative path -/
  | staged (rel_path : Str)
  /-- the name is not covered by the embedding -/
  | outside
  deriving DecidableEq

/-- How a loop over working files ends. -/
inductive Step (α : Type) where
  /-- the loop ran to its end -/
  | done (a : α)
  /-- an exception escaped; the files are as the loop left them -/
  | throws (a : α)
  /-- a path needs directories of the working tree, which the tables do not carry -/
  | outside
  deriving DecidableEq

/-- Source `Command::init`. -/
def Command.init (w : World) : World :=
  if w.dir then w
  else
    { w with
      dir := true
      repo := write_file (write_file (write_file w.repo HEAD_FILE "ref: refs/heads/main".toList)
        (headPath "main".toList) []) INDEX_FILE [] }

/-- The call `replace(rel_path.begin(), rel_path.end(), '\\', '/')`. -/
def slashes (p : Str) : Str := p.map (fun c => if c = '\\' then '/' else c)

/-- Source `Command::add`. For a plain name `fs::exists(file_path)` is a lookup in the working
table and `fs::relative(file_path)` is the name itself. -/
def Command.add (H : Str → Nat) (file : Str) (w : World) : World × AddOut :=
  if !file_exists w.repo HEAD_FILE then (w, AddOut.notARepository)
  else if !plainName file then (w, AddOut.outside)
  else if !file_exists w.work file then (w, AddOut.noSuchFile)
  else
    let content := read_file w.work file
    let hash := calculate_hash H content
    let rel_path := slashes file
    let repo1 :=
      if !file_exists w.repo (objPath hash) then write_file w.repo (objPath hash) content
      else w.repo
    let index := mapAssign (Index.load (read_file repo1 INDEX_FILE)) rel_path hash
    ({ w with repo := write_file repo1 INDEX_FILE (Index.save index) }, AddOut.staged rel_path)

/-- Source `Command::commit`, with the clock reading `now`. -/
def Command.commit (H : Str → Nat) (now : Int) (message : Str) (w : World) : World × CommitOut :=
  let index := Index.load (read_file w.repo INDEX_FILE)
  if index = [] then (w, CommitOut.nothingToCommit)
  else
    let commit : Commit :=
      { message := message
        timestamp := now
        files := index
        parents := if get_head_hash w.repo = [] then [] else [get_head_hash w.repo] }
    let data := commit.serialize
    let hash := calculate_hash H data
    let repo1 := write_file w.repo (objPath hash) data
    let repo2 :=
      if current_branch repo1 ≠ [] then update_branch repo1 (current_branch repo1) hash
      else update_head repo1 hash
    ({ w with repo := write_file repo2 INDEX_FILE (Index.save []) }, CommitOut.committed hash)

/-- Source `Command::branch`. For a plain name `heads_path() / name` is an entry of `refs/heads`.
The names `.` and `..` denote the directories `refs/heads` and `refs`, which exist. A name that
continues a plain first component after a slash leads through a regular file or through nothing
(`refs/heads` has no subdirectory): `fs::exists` is false for it and `write_file` cannot open
it. -/
def Command.branch (name : Str) (w : World) : World × BranchOut :=
  if plainName name then
    if file_exists w.repo (headPath name) then (w, BranchOut.alreadyExists)
    else if get_head_hash w.repo = [] then (w, BranchOut.noCommitsYet)
    else ({ w with repo := write_file w.repo (headPath name) (get_head_hash w.repo) },
      BranchOut.created)
  else if name = ".".toList ∨ name = "..".toList then (w, BranchOut.alreadyExists)
  else if '/' ∈ name ∧ plainName (firstComponent name) = true then
    if get_head_hash w.repo = [] then (w, BranchOut.noCommitsYet)
    else (w, BranchOut.failedToWrite)
  else (w, BranchOut.outside)

/-- The first loop of `checkout`: `fs::remove(f)` for every path of the index. For a plain name
the call removes the regular file of that name if there is one; `none` when a path is not a plain
name. -/
def checkoutRemove : Map → Files → Option Files
  | [], t => some t
  | (f, _) :: rest, t =>
    if plainName f then checkoutRemove rest (remove_file t f) else none

/-- The call `fs::create_directories(fs::path(f).parent_path())`: `true` stands for the
exception. A path without a slash has the empty parent path, and `create_directories` throws for
the empty path. For a path with a slash the outcome depends on the directories of the working
tree (`none`). -/
def create_directories_parent (f : Str) : Option Bool :=
  if '/' ∈ f then none else some true

/-- The second loop of `checkout`: for every path of the snapshot, in ascending order,
`create_directories` of its parent path and then `write_file` with the content of the blob. -/
def checkoutWrite (repo : Files) : Map → Files → Step Files
  | [], t => Step.done t
  | (f, h) :: rest, t =>
    match create_directories_parent f with
    | none => Step.outside
    | some true => Step.throws t
    | some false => checkoutWrite repo rest (write_file t f (read_file repo (objPath h)))

/-- The second half of `Command::checkout` (from the test `target_hash.empty()` on), entered with
HEAD already written. -/
def Command.checkoutTarget (target_hash : Str) (is_branch : Bool) (w : World) :
    World × CheckoutOut :=
  if target_hash = [] then (w, CheckoutOut.newBranch)
  else
    match Commit.deserialize (read_file w.repo (objPath target_hash)) with
    | none => (w, CheckoutOut.crashed)
    | some target =>
      match checkoutRemove (Index.load (read_file w.repo INDEX_FILE)) w.work with
      | none => (w, CheckoutOut.outside)
      | some work1 =>
        match checkoutWrite w.repo target.files work1 with
        | Step.outside => (w, CheckoutOut.outside)
        | Step.throws work2 => ({ w with work := work2 }, CheckoutOut.crashed)
        | Step.done work2 =>
          ({ w with
              repo := write_file w.repo INDEX_FILE (Index.save target.files)
              work := work2 },
            CheckoutOut.switched is_branch)

/-- Source `Command::checkout`. For a plain name `heads_path() / name` and
`objects_path() / name` are entries of `refs/heads` and of `objects`. -/
def Command.checkout (name : Str) (w : World) : World × CheckoutOut :=
  if !plainName name then (w, CheckoutOut.outside)
  else if file_exists w.repo (headPath name) then
    Command.checkoutTarget (read_file w.repo (headPath name)) true
      { w with repo := update_head w.repo ("ref: refs/heads/".toList ++ name) }
  else if file_exists w.repo (objPath name) then
    Command.checkoutTarget name false { w with repo := update_head w.repo name }
  else (w, CheckoutOut.notFound)

/-- The expression `Commit::deserialize(read_file(repo.objects_path() / h))`; `none` when it
throws. For the empty hash the path is the directory `objects` itself: `fs::exists` holds for it
and it cannot be read as a file, so `read_file` throws (the stream does not open, or the first
read fails). -/
def loadCommit (repo : Files) (h : Str) : Option Commit :=
  if h = [] then none else Commit.deserialize (read_file repo (objPath h))

/-- Body of the inner loop of the first traversal of `find_lca`:
`if (ancestors.insert(p).second) queue.push_back(p)`, on the set and the newly queued hashes. -/
def ancestorsPush (acc : StrSet × List Str) (p : Str) : StrSet × List Str :=
  if p ∈ acc.1 then acc else (setInsert acc.1 p, acc.2 ++ [p])

/-- The first loop of `find_lca`, on the set built so far and the part of the queue not yet
visited. -/
def ancestorsLoop (repo : Files) : Nat → StrSet → List Str → Res StrSet
  | _, ancestors, [] => Res.ok ancestors
  | 0, _, _ :: _ => Res.fuel
  | n + 1, ancestors, h :: queue =>
    match loadCommit repo h with
    | none => Res.err
    | some c =>
      ancestorsLoop repo n (c.parents.foldl ancestorsPush (ancestors, [])).1
        (queue ++ (c.parents.foldl ancestorsPush (ancestors, [])).2)

/-- The second loop of `find_lca`, on the part of the queue not yet visited. -/
def searchLoop (repo : Files) (ancestors : StrSet) : Nat → List Str → Res Str
  | _, [] => Res.ok []
  | 0, _ :: _ => Res.fuel
  | n + 1, h :: queue =>
    if h ∈ ancestors then Res.ok h
    else
      match loadCommit repo h with
      | none => Res.err
      | some c => searchLoop repo ancestors n (queue ++ c.parents)

/-- Source `Command::find_lca`, each loop running for at most `fuel` iterations. -/
def Command.find_lca (fuel : Nat) (repo : Files) (a b : Str) : Res Str :=
  match ancestorsLoop repo fuel [] [a] with
  | Res.ok ancestors => searchLoop repo ancestors fuel [b]
  | Res.err => Res.err
  | Res.fuel => Res.fuel

/-- The set `all_files` of `merge`: the keys of the three snapshots. -/
def allFiles (lca current other : Map) : StrSet :=
  other.foldl (fun s e => setInsert s e.1)
    (current.foldl (fun s e => setInsert s e.1)
      (lca.foldl (fun s e => setInsert s e.1) []))

/-- Body of the three-way loop of `merge` for one path, on the pair of `merged` and the paths
reported as conflicting so far. -/
def mergeStep (lca current other : Map) (acc : Map × List Str) (file : Str) : Map × List Str :=
  if mapAtOr current file = mapAtOr other file then acc
  else if mapAtOr current file ≠ mapAtOr lca file ∧ mapAtOr other file ≠ mapAtOr lca file then
    (acc.1, acc.2 ++ [file])
  else if mapAtOr other file ≠ mapAtOr lca file then
    (mapAssign acc.1 file (mapAtOr other file), acc.2)
  else acc

/-- The three-way loop of `merge`: the map `merged` and the paths reported as conflicting, in the
order of the report. -/
def mergeFiles (lca current other : Map) : Map × List Str :=
  (allFiles lca current other).foldl (mergeStep lca current other) (current, [])

/-- The commit object `merge` builds. -/
def mergeCommit (now : Int) (branch_name current_hash other_hash : Str) (merged : Map) : Commit :=
  { message := "Merge branch '".toList ++ branch_name ++ "'".toList
    timestamp := now
    files := merged
    parents := [current_hash, other_hash] }

/-- Source `Command::merge`, with the clock reading `now` and `fuel` iterations for each loop of
`find_lca`. -/
def Command.merge (H : Str → Nat) (now : Int) (fuel : Nat) (branch_name : Str) (w : World) :
    World × MergeOut :=
  if !file_exists w.repo (headPath branch_name) then (w, MergeOut.notFound)
  else
    let current_hash := get_head_hash w.repo
    let other_hash := read_file w.repo (headPath branch_name)
    if current_hash = other_hash then (w, MergeOut.upToDate)
    else
      match Command.find_lca fuel w.repo current_hash other_hash with
      | Res.fuel => (w, MergeOut.outOfFuel)
      | Res.err => (w, MergeOut.crashed)
      | Res.ok lca_hash =>
        if lca_hash = current_hash then
          ((Command.checkout branch_name w).1,
            MergeOut.fastForward (Command.checkout branch_name w).2)
        else if lca_hash = other_hash then (w, MergeOut.upToDate)
        else
          match loadCommit w.repo lca_hash, loadCommit w.repo current_hash,
            loadCommit w.repo other_hash with
          | some lca, some current, some other =>
            let merged := (mergeFiles lca.files current.files other.files).1
            let conflicts := (mergeFiles lca.files current.files other.files).2
            if conflicts ≠ [] then (w, MergeOut.conflicts conflicts)
            else
              let data := (mergeCommit now branch_name current_hash other_hash merged).serialize
              let hash := calculate_hash H data
              let repo1 := write_file w.repo (objPath hash) data
              let repo2 :=
                if current_branch repo1 ≠ [] then update_branch repo1 (current_branch repo1) hash
                else update_head repo1 hash
              ({ w with repo := repo2 }, MergeOut.merged hash)
          | _, _, _ => (w, MergeOut.crashed)

/-- The kind of change `diff` prints for a path. -/
inductive ChangeKind where
  /-- "+++ Added:" -/
  | added
  /-- "--- Removed:" -/
  | removed
  /-- "*** Modified:" -/
  | modified
  deriving DecidableEq

/-- The set `all_files` of `diff`: the keys of the two snapshots. -/
def diffFiles (files1 files2 : Map) : StrSet :=
  files2.foldl (fun s e => setInsert s e.1) (files1.foldl (fun s e => setInsert s e.1) [])

/-- Body of the loop of `diff` for one path: the line it prints, if any. -/
def diffLine (files1 files2 : Map) (file : Str) : Option (Str × ChangeKind) :=
  if mapFind files1 file = none then some (file, ChangeKind.added)
  else if mapFind files2 file = none then some (file, ChangeKind.removed)
  else if mapFind files1 file ≠ mapFind files2 file then some (file, ChangeKind.modified)
  else none

/-- Source `Command::diff`: the lines printed after the heading, in order; `none` when loading a
commit throws. -/
def Command.diff (repo : Files) (commit1 commit2 : Str) : Option (List (Str × ChangeKind)) :=
  match loadCommit repo commit1, loadCommit repo commit2 with
  | some c1, some c2 =>
    some ((diffFiles c1.files c2.files).filterMap (diffLine c1.files c2.files))
  | _, _ => none

/-- The loop of `log` from the hash `current`: the commits printed, each with its hash, in
order. -/
def logLoop (repo : Files) : Nat → Str → Res (List (Str × Commit))
  | _, [] => Res.ok []
  | 0, _ :: _ => Res.fuel
  | n + 1, c0 :: cs =>
    match loadCommit repo (c0 :: cs) with
    | none => Res.err
    | some c =>
      match logLoop repo n (c.parents.head?.getD []) with
      | Res.ok l => Res.ok ((c0 :: cs, c) :: l)
      | Res.err => Res.err
      | Res.fuel => Res.fuel

/-- Source `Command::log`, the loop running for at most `fuel` iterations; the empty list stands
for "No commits yet.". -/
def Command.log (fuel : Nat) (repo : Files) : Res (List (Str × Commit)) :=
  logLoop repo fuel (get_head_hash repo)

/-! ## Predicates used in the statements -/

/-- Keys strictly ascending: the class invariant of `std::map`. -/
def MapSorted (m : Map) : Prop := m.Pairwise (fun a b => strLt a.1 b.1 = true)

/-- Elements strictly ascending: the class invariant of `std::set`. -/
def SetSorted (s : StrSet) : Prop := s.Pairwise (fun a b => strLt a b = true)

/-- A word as `operator>>` reads it: not empty and free of white space. -/
def IsToken (s : Str) : Prop := s ≠ [] ∧ ∀ c ∈ s, isspace c = false

instance (s : Str) : Decidable (IsToken s) := by
  unfold IsToken
  infer_instance

/-- All keys and values are words. -/
def TokenMap (m : Map) : Prop := ∀ e ∈ m, IsToken e.1 ∧ IsToken e.2

instance (m : Map) : Decidable (MapSorted m) := by
  unfold MapSorted
  infer_instance

instance (m : Map) : Decidable (TokenMap m) := by
  unfold TokenMap
  infer_instance

/-- The control flow of `merge branch_name` in state `w` reaches the three-way loop: the branch
exists, its tip differs from the current commit, `find_lca` returns `lca_hash`, which is neither
of the two, and the three commit objects load as `lca`, `current` and `other`. -/
def ThreeWay (fuel : Nat) (w : World) (branch_name lca_hash : Str) (lca current other : Commit) :
    Prop :=
  file_exists w.repo (headPath branch_name) = true ∧
  get_head_hash w.repo ≠ read_file w.repo (headPath branch_name) ∧
  Command.find_lca fuel w.repo (get_head_hash w.repo) (read_file w.repo (headPath branch_name))
    = Res.ok lca_hash ∧
  lca_hash ≠ get_head_hash w.repo ∧
  lca_hash ≠ read_file w.repo (headPath branch_name) ∧
  loadCommit w.repo lca_hash = some lca ∧
  loadCommit w.repo (get_head_hash w.repo) = some current ∧
  loadCommit w.repo (read_file w.repo (headPath branch_name)) = some other

instance (fuel : Nat) (w : World) (branch_name lca_hash : Str) (lca current other : Commit) :
    Decidable (ThreeWay fuel w branch_name lca_hash lca current other) := by
  unfold ThreeWay
  infer_instance

/-- The condition under which the three-way loop reports a path: the three hashes, with the empty
string for a missing entry, are pairwise different as the source compares them. -/
def conflictAt (lca current other : Map) (file : Str) : Bool :=
  decide (mapAtOr current file ≠ mapAtOr other file ∧ mapAtOr current file ≠ mapAtOr lca file ∧
    mapAtOr other file ≠ mapAtOr lca file)

/-- The state `merge` leaves after writing the merge commit `data` under `hash`. -/
def mergeWrite (w : World) (hash data : Str) : World :=
  { w with
    repo :=
      if current_branch (write_file w.repo (objPath hash) data) ≠ [] then
        update_branch (write_file w.repo (objPath hash) data)
          (current_branch (write_file w.repo (objPath hash) data)) hash
      else update_head (write_file w.repo (objPath hash) data) hash }

/-! ## Example histories -/

/-- A hash function for the examples: the length of the text. -/
def Hlen : Str → Nat := fun s => s.length

/-- A working directory without files and without `.minigit`. -/
def fresh : World := { dir := false, repo := fun _ => none, work := fun _ => none }

/-- The user writes `content` to the file `p` of the working directory. -/
def edit (p content : Str) (w : World) : World := { w with work := write_file w.work p content }

/-- Stage the file `p` with `content` and commit. -/
def stageAndCommit (now : Int) (message p content : Str) (w : World) : World :=
  (Command.commit Hlen now message (Command.add Hlen p (edit p content w)).1).1

/-- After `init`: a first commit of `f` with content `a` on `main`, then the branch `feat`. -/
def exBase (a : Str) : World :=
  (Command.branch "feat".toList
    (stageAndCommit 1 "first".toList "f".toList a (Command.init fresh))).1

/-- Two branches that both committed `f` after the common commit: `main` with content `b`,
`feat` with content `c`; HEAD is back on `main`. Each `checkout` moves HEAD and then ends with the
exception of `create_directories`, the snapshot path `f` having no directory part; after the
second one the user writes `b` to `f` and stages it, so that working file and index agree with the
tip of `main`. -/
def exDiverged (a b c : Str) : World :=
  (Command.add Hlen "f".toList
    (edit "f".toList b
      (Command.checkout "main".toList
        (stageAndCommit 3 "theirs".toList "f".toList c
          (Command.checkout "feat".toList
            (stageAndCommit 2 "ours".toList "f".toList b (exBase a))).1)).1)).1

/-- As `exDiverged`, but `feat` ends with a commit that holds only the new file `g`: the path `f`
is deleted on `feat` and unchanged on `main`. On `feat` the file `f` is staged again before the
commit `more`, which so holds `f` and `g`. -/
def exDeleted : World :=
  (Command.checkout "main".toList
    (stageAndCommit 4 "theirs".toList "g".toList "GG".toList
      (stageAndCommit 3 "more".toList "g".toList "GG".toList
        (Command.add Hlen "f".toList
          (Command.checkout "feat".toList
            (stageAndCommit 2 "ours".toList "f".toList "A".toList
              (exBase "A".toList))).1).1))).1

/-- The branch `feat` is one commit ahead of `main`, which is checked out: the fast-forward
situation. -/
def exAhead : World :=
  (Command.checkout "main".toList
    (stageAndCommit 2 "second".toList "f".toList "BB".toList
      (Command.checkout "feat".toList (exBase "A".toList)).1)).1

/-- The example commit with snapshot `f ↦ h`. -/
def exCommit (message : Str) (now : Int) (parents : List Str) (files : Map) : Commit :=
  { message := message, timestamp := now, parents := parents, files := files }

/-- Digest of a text of length `n` under `Hlen`. -/
def hx (n : Nat) : Str := hexN 16 n ++ hexN 16 n

/-! ## The commit graph -/

/-- The parent hashes recorded in the object stored under `h`; none when the object does not
load. -/
def parentsOf (repo : Files) (h : Str) : List Str :=
  match loadCommit repo h with
  | some c => c.parents
  | none => []

/-- The hash `h` is reached from `a` by zero or more parent edges. -/
def Reaches (repo : Files) (a h : Str) : Prop :=
  Relation.ReflTransGen (fun x y => y ∈ parentsOf repo x) a h

/-- The hash `h` is a proper ancestor of `a`: reached by one or more parent edges. -/
def ProperAncestor (repo : Files) (a h : Str) : Prop :=
  Relation.TransGen (fun x y => y ∈ parentsOf repo x) a h

/-- Acyclic history: some rank strictly decreases along every parent edge. On a store with
finitely many objects this is the absence of a cycle. -/
def Acyclic (repo : Files) : Prop :=
  ∃ rank : Str → Nat, ∀ h p, p ∈ parentsOf repo h → rank p < rank h

/-- Every object reached from `a` loads without an exception. -/
def Loads (repo : Files) (a : Str) : Prop :=
  ∀ h, Reaches repo a h → loadCommit repo h ≠ none

/-- Number of paths that start at `h` and follow at most `n` parent edges: the number of visits a
traversal without a visited set can make below `h`. -/
def pathCount (repo : Files) : Nat → Str → Nat
  | 0, _ => 1
  | n + 1, h => 1 + ((parentsOf repo h).map (pathCount repo n)).sum

/-- A repository with two commits, written out file by file: `main` (checked out) is at the
commit `hx 99`, whose parent `hx 60` is the tip of `feat`. These are the files that `init`, two
commits of `f` on `main` and `branch feat` in between leave under `Hlen`. -/
def exBehind : World :=
  { dir := true
    work := fun p => if p = "f".toList then some "BB".toList else none
    repo := fun p =>
      if p = HEAD_FILE then some "ref: refs/heads/main".toList
      else if p = INDEX_FILE then some []
      else if p = headPath "main".toList then some (hx 99)
      else if p = headPath "feat".toList then some (hx 60)
      else if p = objPath (hx 99) then
        some ("tree 1\nf ".toList ++ hx 2 ++ "\nparent ".toList ++ hx 60 ++
          "\ntimestamp 2\n\nours".toList)
      else if p = objPath (hx 60) then
        some ("tree 1\nf ".toList ++ hx 1 ++ "\ntimestamp 1\n\nfirst".toList)
      else if p = objPath (hx 1) then some "A".toList
      else if p = objPath (hx 2) then some "BB".toList
      else none }

/-- The first step of `checkout name`: the hash the name resolves to and whether it names a
branch; `none` for "No such branch or commit". -/
def resolveTarget (repo : Files) (name : Str) : Option (Str × Bool) :=
  if file_exists repo (headPath name) then some (read_file repo (headPath name), true)
  else if file_exists repo (objPath name) then some (name, false)
  else none

/-! ## Reachable states -/

/-- The states the program can be in when the names typed for `add`, `branch`, `checkout` and
`merge` are plain names: `init` in a directory without `.minigit`, then any sequence of these
commands and `commit`, with arbitrary changes of the working files by the user in between. A
command that ends with an exception ends the program and leaves the files as they were at the
throw; the next command starts from there. A step of `checkout` counts when the embedding covers
it. -/
inductive Reachable (H : Str → Nat) : World → Prop where
  | init (w : World) (hd : w.dir = false) (he : ∀ p, w.repo p = none) :
      Reachable H (Command.init w)
  | edit (w : World) (work : Files) (h : Reachable H w) : Reachable H { w with work := work }
  | add (w : World) (file : Str) (h : Reachable H w) (hn : plainName file = true) :
      Reachable H (Command.add H file w).1
  | commit (w : World) (now : Int) (message : Str) (h : Reachable H w) :
      Reachable H (Command.commit H now message w).1
  | branch (w : World) (name : Str) (h : Reachable H w) (hn : plainName name = true) :
      Reachable H (Command.branch name w).1
  | checkout (w : World) (name : Str) (h : Reachable H w) (hn : plainName name = true)
      (ho : (Command.checkout name w).2 ≠ CheckoutOut.outside) :
      Reachable H (Command.checkout name w).1
  | merge (w : World) (now : Int) (fuel : Nat) (name : Str) (h : Reachable H w)
      (hn : plainName name = true)
      (ho : (Command.merge H now fuel name w).2 ≠ MergeOut.fastForward CheckoutOut.outside) :
      Reachable H (Command.merge H now fuel name w).1

/-- Every object is stored under the digest of its content. -/
def StoreOK (H : Str → Nat) (repo : Files) : Prop :=
  ∀ k d, repo (objPath k) = some d → k = calculate_hash H d

/-- The commit object `commit` builds from the index. -/
def commitOf (now : Int) (message : Str) (repo : Files) : Commit :=
  { message := message
    timestamp := now
    files := Index.load (read_file repo INDEX_FILE)
    parents := if get_head_hash repo = [] then [] else [get_head_hash repo] }

/-! ## The checkout round trip -/

/-- The state after staging the files `a` and `b`. -/
def rtStaged (H : Str → Nat) (a b : Str) (w : World) : World :=
  (Command.add H b (Command.add H a w).1).1

/-- The digest of the commit `C` made from the staged state. -/
def rtHash (H : Str → Nat) (now : Int) (message a b : Str) (w : World) : Str :=
  calculate_hash H (commitOf now message (rtStaged H a b w).repo).serialize

/-- The state after committing the staged files as `C`. -/
def rtCommitted (H : Str → Nat) (now : Int) (message a b : Str) (w : World) : World :=
  (Command.commit H now message (rtStaged H a b w)).1

/-- The state after checking out `nameE` and then `nameC` from the committed state. -/
def rtFinal (H : Str → Nat) (now : Int) (message a b nameE nameC : Str) (w : World) : World :=
  (Command.checkout nameC (Command.checkout nameE (rtCommitted H now message a b w)).1).1

/-- The repository `exBase` with two more working files, `a` with the content `xx` and `b` with
the content `yyy`; the index is empty, as `commit` left it. -/
def exClean : World :=
  edit "b".toList "yyy".toList (edit "a".toList "xx".toList (exBase "A".toList))

/-- A chain of three commits: `hx 60`, its child `hx 99` on `main` (checked out) and the child
`hx 101` of that on the branch `ahead`; each commit changes `f`. Back on `main` the user writes
the content `BB` of the current commit to `f` and stages it, so that the working file and the
index hold the snapshot of `hx 99`. -/
def exChain : World :=
  (Command.add Hlen "f".toList
    (edit "f".toList "BB".toList
      (Command.checkout "main".toList
        (stageAndCommit 3 "theirs".toList "f".toList "CCC".toList
          (Command.checkout "ahead".toList
            (Command.branch "ahead".toList
              (stageAndCommit 2 "ours".toList "f".toList "BB".toList
                (exBase "A".toList))).1).1)).1)).1

/-! ## Histories without a collision of digests -/

/-- Storing `data` under the digest `k` does not replace a different text: no object is stored
under `k`, or the object stored there is `data`. This is what a collision-free digest
guarantees for an object store in which every object sits under its digest. -/
def NoClash (repo : Files) (k data : Str) : Prop :=
  repo (objPath k) = none ∨ repo (objPath k) = some data

instance (repo : Files) (k data : Str) : Decidable (NoClash repo k data) := by
  unfold NoClash
  infer_instance

/-- The states reached from `init` by `add`, `commit`, `branch`, `checkout` of an existing branch
and `merge`, all with plain names and with arbitrary changes of the working files in between,
when no commit or merge commit is stored over a different text that has the same digest. A
command that ends with an exception leaves the files as they were at the throw. A step of
`checkout` counts when the embedding covers it. -/
inductive ReachableByName (H : Str → Nat) : World → Prop where
  | init (w : World) (hd : w.dir = false) (he : ∀ p, w.repo p = none) :
      ReachableByName H (Command.init w)
  | edit (w : World) (work : Files) (h : ReachableByName H w) :
      ReachableByName H { w with work := work }
  | add (w : World) (file : Str) (h : ReachableByName H w) (hn : plainName file = true) :
      ReachableByName H (Command.add H file w).1
  | commit (w : World) (now : Int) (message : Str) (h : ReachableByName H w)
      (hc : NoClash w.repo (calculate_hash H (commitOf now message w.repo).serialize)
        (commitOf now message w.repo).serialize) :
      ReachableByName H (Command.commit H now message w).1
  | branch (w : World) (name : Str) (h : ReachableByName H w) (hn : plainName name = true) :
      ReachableByName H (Command.branch name w).1
  | checkout (w : World) (name : Str) (h : ReachableByName H w) (hn : plainName name = true)
      (hb : file_exists w.repo (headPath name) = true)
      (ho : (Command.checkout name w).2 ≠ CheckoutOut.outside) :
      ReachableByName H (Command.checkout name w).1
  | merge (w : World) (now : Int) (fuel : Nat) (name : Str) (h : ReachableByName H w)
      (hn : plainName name = true)
      (ho : (Command.merge H now fuel name w).2 ≠ MergeOut.fastForward CheckoutOut.outside)
      (hc : ∀ hash, (Command.merge H now fuel name w).2 = MergeOut.merged hash →
        NoClash w.repo hash
          (read_file (Command.merge H now fuel name w).1.repo (objPath hash))) :
      ReachableByName H (Command.merge H now fuel name w).1

/-- The commits `S` made so far form a graph ranked by `rank`: each is a digest, has its object
in the store and has its parents among them with a smaller rank; every branch file is empty or
holds one of them; and `HEAD` names a branch file or holds one of them. -/
def GraphInv (H : Str → Nat) (repo : Files) (S : Str → Prop) (rank : Str → Nat) : Prop :=
  (∀ h, S h → (∃ d, h = calculate_hash H d) ∧ repo (objPath h) ≠ none ∧
    ∀ p ∈ parentsOf repo h, S p ∧ rank p < rank h) ∧
  (∀ name v, repo (headPath name) = some v → v = [] ∨ S v) ∧
  ((∃ name, read_file repo HEAD_FILE = "ref: refs/heads/".toList ++ name) ∨
    S (read_file repo HEAD_FILE))

/-! # Lemmas and theorems -/

/-! ## The string order -/

theorem char_eq_of_toNat_eq {a b : Char} (h : a.toNat = b.toNat) : a = b := by
  apply Char.ext
  apply UInt32.ext
  exact h

theorem strLt_irrefl (s : Str) : strLt s s = false := by
  induction s with
  | nil => rfl
  | cons a as ih => simp [strLt, ih]

theorem strLt_ne {a b : Str} (h : strLt a b = true) : a ≠ b := by
  intro e
  subst e
  rw [strLt_irrefl] at h
  exact Bool.noConfusion h

theorem strLt_trans : ∀ {a b c : Str}, strLt a b = true → strLt b c = true → strLt a c = true
  | [], [], _, h, _ => by simp [strLt] at h
  | [], _ :: _, [], _, h => by simp [strLt] at h
  | [], _ :: _, _ :: _, _, _ => by simp [strLt]
  | _ :: _, [], _, h, _ => by simp [strLt] at h
  | _ :: _, _ :: _, [], _, h => by simp [strLt] at h
  | x :: xs, y :: ys, z :: zs, h1, h2 => by
    simp only [strLt] at h1 h2 ⊢
    split_ifs at h1 h2 ⊢ <;> first | rfl | omega | exact strLt_trans h1 h2

theorem strLt_total : ∀ {a b : Str}, strLt a b = false → a ≠ b → strLt b a = true
  | [], [], _, h => absurd rfl h
  | [], _ :: _, h, _ => by simp [strLt] at h
  | _ :: _, [], _, _ => by simp [strLt]
  | x :: xs, y :: ys, h1, h2 => by
    simp only [strLt] at h1 ⊢
    by_cases c1 : x.toNat < y.toNat
    · simp [c1] at h1
    · by_cases c2 : x.toNat = y.toNat
      · have e : x = y := char_eq_of_toNat_eq c2
        subst e
        simp only [c1, if_false, if_true] at h1 ⊢
        exact strLt_total h1 (fun e => h2 (by rw [e]))
      · have c3 : y.toNat < x.toNat := by omega
        simp [c3]

/-! ## Maps and sets -/

theorem mapFind_mapAssign (m : Map) (k v q : Str) :
    mapFind (mapAssign m k v) q = if q = k then some v else mapFind m q := by
  induction m with
  | nil => simp [mapAssign, mapFind]
  | cons e rest ih =>
    obtain ⟨k0, v0⟩ := e
    simp only [mapAssign]
    by_cases c1 : strLt k k0 = true
    · simp [c1, mapFind]
    · by_cases c2 : k = k0
      · subst c2
        simp only [c1, if_true, mapFind]
        by_cases c3 : q = k <;> simp [c3]
      · simp only [c1, c2, if_false, mapFind, ih]
        by_cases c3 : q = k0
        · have h1 : ¬ k0 = k := fun e => c2 e.symm
          simp [c3, h1]
        · simp [c3]

theorem mem_mapAssign {m : Map} {k v : Str} {e : Str × Str} (h : e ∈ mapAssign m k v) :
    e = (k, v) ∨ e ∈ m := by
  induction m with
  | nil => simpa [mapAssign] using h
  | cons e0 rest ih =>
    obtain ⟨k0, v0⟩ := e0
    simp only [mapAssign] at h
    split_ifs at h with c1 c2
    · simpa using h
    · rcases List.mem_cons.1 h with h | h
      · exact Or.inl h
      · exact Or.inr (List.mem_cons_of_mem _ h)
    · rcases List.mem_cons.1 h with h | h
      · exact Or.inr (h ▸ List.mem_cons_self _ _)
      · rcases ih h with h | h
        · exact Or.inl h
        · exact Or.inr (List.mem_cons_of_mem _ h)

theorem mapAssign_sorted {m : Map} (k v : Str) (h : MapSorted m) : MapSorted (mapAssign m k v) := by
  induction m with
  | nil => simp [mapAssign, MapSorted]
  | cons e0 rest ih =>
    obtain ⟨k0, v0⟩ := e0
    unfold MapSorted at h ih ⊢
    rw [List.pairwise_cons] at h
    simp only [mapAssign]
    split_ifs with c1 c2
    · refine List.pairwise_cons.2 ⟨?_, List.pairwise_cons.2 h⟩
      intro e he
      rcases List.mem_cons.1 he with he | he
      · rw [he]; exact c1
      · exact strLt_trans c1 (h.1 e he)
    · subst c2
      exact List.pairwise_cons.2 h
    · refine List.pairwise_cons.2 ⟨?_, ih h.2⟩
      intro e he
      rcases mem_mapAssign he with he | he
      · rw [he]
        exact strLt_total (by simpa using c1) c2
      · exact h.1 e he

theorem mapFind_some_mem {m : Map} {k v : Str} (h : mapFind m k = some v) : (k, v) ∈ m := by
  induction m with
  | nil => simp [mapFind] at h
  | cons e0 rest ih =>
    obtain ⟨k0, v0⟩ := e0
    simp only [mapFind] at h
    split_ifs at h with c
    · simp only [Option.some.injEq] at h
      rw [c, h]
      exact List.mem_cons_self _ _
    · exact List.mem_cons_of_mem _ (ih h)

theorem mapFind_none_iff {m : Map} {k : Str} : mapFind m k = none ↔ ∀ e ∈ m, e.1 ≠ k := by
  induction m with
  | nil => simp [mapFind]
  | cons e0 rest ih =>
    obtain ⟨k0, v0⟩ := e0
    simp only [mapFind]
    split_ifs with c
    · simp [c]
    · rw [ih]
      have h1 : ¬ k0 = k := fun e => c e.symm
      simp [h1]

theorem mapFind_of_mem {m : Map} {k v : Str} (hs : MapSorted m) (h : (k, v) ∈ m) :
    mapFind m k = some v := by
  induction m with
  | nil => simp at h
  | cons e0 rest ih =>
    obtain ⟨k0, v0⟩ := e0
    unfold MapSorted at hs ih
    rw [List.pairwise_cons] at hs
    simp only [mapFind]
    rcases List.mem_cons.1 h with h | h
    · simp only [Prod.mk.injEq] at h
      simp [h.1, h.2]
    · have : k ≠ k0 := fun e => strLt_ne (hs.1 _ h) e.symm
      simp only [this, if_false]
      exact ih hs.2 h

theorem mem_setInsert {s : StrSet} {a x : Str} : x ∈ setInsert s a ↔ x = a ∨ x ∈ s := by
  induction s with
  | nil => simp [setInsert]
  | cons y rest ih =>
    simp only [setInsert]
    split_ifs with c1 c2
    · simp
    · subst c2
      simp
    · simp only [List.mem_cons, ih]
      tauto

theorem setInsert_sorted {s : StrSet} (a : Str) (h : SetSorted s) : SetSorted (setInsert s a) := by
  induction s with
  | nil => simp [setInsert, SetSorted]
  | cons y rest ih =>
    unfold SetSorted at h ih ⊢
    rw [List.pairwise_cons] at h
    simp only [setInsert]
    split_ifs with c1 c2
    · refine List.pairwise_cons.2 ⟨?_, List.pairwise_cons.2 h⟩
      intro e he
      rcases List.mem_cons.1 he with he | he
      · rw [he]; exact c1
      · exact strLt_trans c1 (h.1 e he)
    · exact List.pairwise_cons.2 h
    · refine List.pairwise_cons.2 ⟨?_, ih h.2⟩
      intro e he
      rcases mem_setInsert.1 he with he | he
      · rw [he]
        exact strLt_total (by simpa using c1) c2
      · exact h.1 e he

theorem SetSorted.nodup {s : StrSet} (h : SetSorted s) : s.Nodup := by
  unfold SetSorted at h
  exact h.imp (fun hab => strLt_ne hab)

/-! ## Words read by `operator>>` -/

theorem readWord_no_space (s : Str) : ∀ c ∈ (readWord s).1, isspace c = false := by
  induction s with
  | nil => simp [readWord]
  | cons a as ih =>
    simp only [readWord]
    split_ifs with h
    · simp
    · intro c hc
      rcases List.mem_cons.1 hc with hc | hc
      · rw [hc]; simpa using h
      · exact ih c hc

theorem extract_token {s : Str} (h : (extract s).1 ≠ []) : IsToken (extract s).1 :=
  ⟨h, readWord_no_space _⟩

theorem extract2_token {line : Str} (h : (extract2 line).1 ≠ [] ∧ (extract2 line).2 ≠ []) :
    IsToken (extract2 line).1 ∧ IsToken (extract2 line).2 :=
  ⟨⟨h.1, readWord_no_space _⟩, ⟨h.2, readWord_no_space _⟩⟩

/-! ## Invariants of `Commit::deserialize` -/

theorem treeLine_inv {files : Map} (line : Str) (h : MapSorted files ∧ TokenMap files) :
    MapSorted (Commit.treeLine files line) ∧ TokenMap (Commit.treeLine files line) := by
  unfold Commit.treeLine
  split_ifs with c
  · refine ⟨mapAssign_sorted _ _ h.1, ?_⟩
    intro e he
    rcases mem_mapAssign he with he | he
    · rw [he]; exact extract2_token c
    · exact h.2 e he
  · exact h

theorem treeLoop_inv (count : Nat) : ∀ (s : Str) (files : Map), MapSorted files ∧ TokenMap files →
    MapSorted (Commit.treeLoop count s files).1 ∧ TokenMap (Commit.treeLoop count s files).1 := by
  induction count with
  | zero => intro s files h; simpa [Commit.treeLoop] using h
  | succ n ih =>
    intro s files h
    simp only [Commit.treeLoop]
    cases hg : getline s with
    | none => simpa using h
    | some lr => exact ih _ _ (treeLine_inv _ h)

theorem headerLoop_inv (n : Nat) : ∀ (s : Str) (c : Commit) (r : Commit × Str),
    MapSorted c.files ∧ TokenMap c.files → Commit.headerLoop n s c = some r →
    MapSorted r.1.files ∧ TokenMap r.1.files := by
  induction n with
  | zero =>
    intro s c r h hr
    simp only [Commit.headerLoop, Option.some.injEq] at hr
    rw [← hr]; exact h
  | succ n ih =>
    intro s c r h hr
    simp only [Commit.headerLoop] at hr
    cases hg : getline s with
    | none =>
      simp only [hg, Option.some.injEq] at hr
      rw [← hr]; exact h
    | some lr =>
      simp only [hg] at hr
      split_ifs at hr with c1 c2 c3 c4
      · simp only [Option.some.injEq] at hr
        rw [← hr]; exact h
      · cases hs : stoi (List.drop 5 lr.1) with
        | none => simp [hs] at hr
        | some count =>
          simp only [hs] at hr
          exact ih _ _ r (treeLoop_inv _ _ _ h) hr
      · exact ih _ _ r (by exact h) hr
      · cases hs : stol (List.drop 10 lr.1) with
        | none => simp [hs] at hr
        | some t =>
          simp only [hs] at hr
          exact ih _ _ r (by exact h) hr
      · exact ih _ _ r h hr

theorem deserialize_inv {data : Str} {c : Commit} (h : Commit.deserialize data = some c) :
    MapSorted c.files ∧ TokenMap c.files := by
  unfold Commit.deserialize at h
  cases hl : Commit.headerLoop data.length data {} with
  | none => simp [hl] at h
  | some r =>
    simp only [hl, Option.some.injEq] at h
    rw [← h]
    have h0 : MapSorted ({} : Commit).files ∧ TokenMap ({} : Commit).files :=
      ⟨List.Pairwise.nil, fun e he => by simp at he⟩
    exact headerLoop_inv _ _ _ r h0 hl

theorem loadCommit_some {repo : Files} {h : Str} {c : Commit} (hc : loadCommit repo h = some c) :
    h ≠ [] ∧ Commit.deserialize (read_file repo (objPath h)) = some c := by
  unfold loadCommit at hc
  split_ifs at hc with e
  exact ⟨e, hc⟩

theorem loadCommit_inv {repo : Files} {h : Str} {c : Commit} (hc : loadCommit repo h = some c) :
    MapSorted c.files ∧ TokenMap c.files :=
  deserialize_inv (loadCommit_some hc).2

/-! ## The three-way loop -/

theorem mapFind_ne_none_iff {m : Map} {k : Str} : mapFind m k ≠ none ↔ ∃ e ∈ m, e.1 = k := by
  rw [Ne, mapFind_none_iff]
  push_neg
  rfl

theorem mem_foldl_setInsert (m : Map) : ∀ (s0 : StrSet) (x : Str),
    x ∈ m.foldl (fun s e => setInsert s e.1) s0 ↔ x ∈ s0 ∨ ∃ e ∈ m, e.1 = x := by
  induction m with
  | nil => intro s0 x; simp
  | cons e rest ih =>
    intro s0 x
    simp only [List.foldl_cons, ih, mem_setInsert, List.mem_cons, exists_eq_or_imp]
    constructor
    · rintro ((h | h) | h)
      · exact Or.inr (Or.inl h.symm)
      · exact Or.inl h
      · exact Or.inr (Or.inr h)
    · rintro (h | h | h)
      · exact Or.inl (Or.inr h)
      · exact Or.inl (Or.inl h.symm)
      · exact Or.inr h

theorem foldl_setInsert_sorted (m : Map) : ∀ (s0 : StrSet), SetSorted s0 →
    SetSorted (m.foldl (fun s e => setInsert s e.1) s0) := by
  induction m with
  | nil => intro s0 h; simpa using h
  | cons e rest ih => intro s0 h; exact ih _ (setInsert_sorted _ h)

theorem mem_allFiles {lca current other : Map} {p : Str} :
    p ∈ allFiles lca current other ↔
      mapFind lca p ≠ none ∨ mapFind current p ≠ none ∨ mapFind other p ≠ none := by
  unfold allFiles
  rw [mem_foldl_setInsert, mem_foldl_setInsert, mem_foldl_setInsert, mapFind_ne_none_iff,
    mapFind_ne_none_iff, mapFind_ne_none_iff]
  simp only [List.not_mem_nil, false_or]
  constructor
  · rintro ((h | h) | h)
    · exact Or.inl h
    · exact Or.inr (Or.inl h)
    · exact Or.inr (Or.inr h)
  · rintro (h | h | h)
    · exact Or.inl (Or.inl h)
    · exact Or.inl (Or.inr h)
    · exact Or.inr h

theorem allFiles_nodup (lca current other : Map) : (allFiles lca current other).Nodup := by
  apply SetSorted.nodup
  unfold allFiles
  exact foldl_setInsert_sorted _ _ (foldl_setInsert_sorted _ _
    (foldl_setInsert_sorted _ _ List.Pairwise.nil))

theorem mergeStep_snd (lca current other : Map) (acc : Map × List Str) (p : Str) :
    (mergeStep lca current other acc p).2 =
      if conflictAt lca current other p = true then acc.2 ++ [p] else acc.2 := by
  unfold mergeStep
  by_cases c1 : mapAtOr current p = mapAtOr other p
  · have hc : ¬ (conflictAt lca current other p = true) := by
      unfold conflictAt
      simp only [decide_eq_true_eq]
      exact fun h => h.1 c1
    rw [if_pos c1, if_neg hc]
  · rw [if_neg c1]
    by_cases c2 : mapAtOr current p ≠ mapAtOr lca p ∧ mapAtOr other p ≠ mapAtOr lca p
    · have hc : conflictAt lca current other p = true := by
        unfold conflictAt
        simp only [decide_eq_true_eq]
        exact ⟨c1, c2⟩
      rw [if_pos c2, if_pos hc]
    · have hc : ¬ (conflictAt lca current other p = true) := by
        unfold conflictAt
        simp only [decide_eq_true_eq]
        exact fun h => c2 h.2
      rw [if_neg c2, if_neg hc]
      split_ifs <;> rfl

theorem mergeStep_fst (lca current other : Map) (acc : Map × List Str) (p : Str) :
    (mergeStep lca current other acc p).1 =
      if mapAtOr current p ≠ mapAtOr other p ∧ mapAtOr current p = mapAtOr lca p then
        mapAssign acc.1 p (mapAtOr other p)
      else acc.1 := by
  unfold mergeStep
  by_cases c1 : mapAtOr current p = mapAtOr other p
  · have hn : ¬ (mapAtOr current p ≠ mapAtOr other p ∧ mapAtOr current p = mapAtOr lca p) :=
      fun h => h.1 c1
    rw [if_pos c1, if_neg hn]
  · rw [if_neg c1]
    by_cases c2 : mapAtOr current p = mapAtOr lca p
    · have h1 : ¬ (mapAtOr current p ≠ mapAtOr lca p ∧ mapAtOr other p ≠ mapAtOr lca p) :=
        fun h => h.1 c2
      have h2 : mapAtOr other p ≠ mapAtOr lca p := fun h => c1 (c2.trans h.symm)
      rw [if_neg h1, if_pos h2, if_pos ⟨c1, c2⟩]
    · have hn : ¬ (mapAtOr current p ≠ mapAtOr other p ∧ mapAtOr current p = mapAtOr lca p) :=
        fun h => c2 h.2
      rw [if_neg hn]
      by_cases c3 : mapAtOr other p = mapAtOr lca p
      · have h1 : ¬ (mapAtOr current p ≠ mapAtOr lca p ∧ mapAtOr other p ≠ mapAtOr lca p) :=
          fun h => h.2 c3
        have h2 : ¬ (mapAtOr other p ≠ mapAtOr lca p) := fun h => h c3
        rw [if_neg h1, if_neg h2]
      · have h1 : mapAtOr current p ≠ mapAtOr lca p ∧ mapAtOr other p ≠ mapAtOr lca p :=
          ⟨c2, c3⟩
        rw [if_pos h1]

theorem foldl_mergeStep_snd (lca current other : Map) (l : List Str) : ∀ (acc : Map × List Str),
    (l.foldl (mergeStep lca current other) acc).2 =
      acc.2 ++ l.filter (conflictAt lca current other) := by
  induction l with
  | nil => intro acc; simp
  | cons p rest ih =>
    intro acc
    rw [List.foldl_cons, ih, mergeStep_snd, List.filter_cons]
    split_ifs <;> simp

theorem foldl_mergeStep_fst (lca current other : Map) (p : Str) (l : List Str) :
    ∀ (acc : Map × List Str),
    mapFind (l.foldl (mergeStep lca current other) acc).1 p =
      if p ∈ l ∧ mapAtOr current p ≠ mapAtOr other p ∧ mapAtOr current p = mapAtOr lca p then
        some (mapAtOr other p)
      else mapFind acc.1 p := by
  induction l with
  | nil => intro acc; simp
  | cons q rest ih =>
    intro acc
    rw [List.foldl_cons, ih, mergeStep_fst]
    by_cases c0 : mapAtOr current p ≠ mapAtOr other p ∧ mapAtOr current p = mapAtOr lca p
    · by_cases c1 : p ∈ rest
      · rw [if_pos ⟨c1, c0⟩, if_pos ⟨List.mem_cons_of_mem _ c1, c0⟩]
      · rw [if_neg (fun h => c1 h.1)]
        by_cases c2 : p = q
        · subst c2
          rw [if_pos c0, mapFind_mapAssign, if_pos rfl, if_pos ⟨List.mem_cons_self _ _, c0⟩]
        · have hn : ¬ (p ∈ q :: rest ∧ mapAtOr current p ≠ mapAtOr other p ∧
              mapAtOr current p = mapAtOr lca p) := by
            rintro ⟨h, -⟩
            rcases List.mem_cons.1 h with h | h
            · exact c2 h
            · exact c1 h
          rw [if_neg hn]
          split_ifs
          · rw [mapFind_mapAssign, if_neg c2]
          · rfl
    · have h1 : ¬ (p ∈ rest ∧ mapAtOr current p ≠ mapAtOr other p ∧
          mapAtOr current p = mapAtOr lca p) := fun h => c0 h.2
      have h2 : ¬ (p ∈ q :: rest ∧ mapAtOr current p ≠ mapAtOr other p ∧
          mapAtOr current p = mapAtOr lca p) := fun h => c0 h.2
      rw [if_neg h1, if_neg h2]
      split_ifs with c3
      · rw [mapFind_mapAssign, if_neg]
        rintro rfl
        exact c0 c3
      · rfl

theorem mapFind_some_ne_nil {m : Map} (hm : TokenMap m) {p v : Str} (h : mapFind m p = some v) :
    v ≠ [] :=
  (hm _ (mapFind_some_mem h)).2.1

theorem mapAtOr_eq_iff {a b : Map} (ha : TokenMap a) (hb : TokenMap b) (p : Str) :
    mapAtOr a p = mapAtOr b p ↔ mapFind a p = mapFind b p := by
  unfold mapAtOr
  cases h1 : mapFind a p with
  | none =>
    cases h2 : mapFind b p with
    | none => simp
    | some v =>
      have := mapFind_some_ne_nil hb h2
      simp only [Option.getD_none, Option.getD_some]
      constructor
      · intro e; exact absurd e.symm this
      · intro e; exact absurd e (by simp)
  | some u =>
    cases h2 : mapFind b p with
    | none =>
      have := mapFind_some_ne_nil ha h1
      simp only [Option.getD_none, Option.getD_some]
      constructor
      · intro e; exact absurd e this
      · intro e; exact absurd e (by simp)
    | some v => simp

theorem merge_threeWay (H : Str → Nat) (now : Int) {fuel : Nat} {w : World}
    {branch_name lca_hash : Str} {lca current other : Commit}
    (h : ThreeWay fuel w branch_name lca_hash lca current other) :
    Command.merge H now fuel branch_name w =
      if (mergeFiles lca.files current.files other.files).2 ≠ [] then
        (w, MergeOut.conflicts (mergeFiles lca.files current.files other.files).2)
      else
        (mergeWrite w
          (calculate_hash H (mergeCommit now branch_name (get_head_hash w.repo)
            (read_file w.repo (headPath branch_name))
            (mergeFiles lca.files current.files other.files).1).serialize)
          (mergeCommit now branch_name (get_head_hash w.repo)
            (read_file w.repo (headPath branch_name))
            (mergeFiles lca.files current.files other.files).1).serialize,
        MergeOut.merged
          (calculate_hash H (mergeCommit now branch_name (get_head_hash w.repo)
            (read_file w.repo (headPath branch_name))
            (mergeFiles lca.files current.files other.files).1).serialize)) := by
  obtain ⟨h1, h2, h3, h4, h5, h6, h7, h8⟩ := h
  unfold Command.merge
  simp only [h1, Bool.not_true, Bool.false_eq_true, if_false, h2, h3, h4, h5, h6, h7, h8]
  rfl

/-- C3. When `merge` reaches the three-way loop with snapshots `lca` (base), `current` (ours) and
`other` (theirs), the paths it reports are exactly the paths whose three entries (a missing entry
counting as a value) are pairwise different, each path once; and if there is such a path, `merge`
returns the state it was given (object store, branch files, HEAD, index and working directory
untouched), reporting that list and creating no commit. -/
theorem merge_conflict_detection (H : Str → Nat) (now : Int) (fuel : Nat) (w : World)
    (branch_name lca_hash : Str) (lca current other : Commit)
    (h : ThreeWay fuel w branch_name lca_hash lca current other) :
    (∀ p, p ∈ (mergeFiles lca.files current.files other.files).2 ↔
      ((mapFind lca.files p ≠ none ∨ mapFind current.files p ≠ none ∨
          mapFind other.files p ≠ none) ∧
        mapFind current.files p ≠ mapFind other.files p ∧
        mapFind current.files p ≠ mapFind lca.files p ∧
        mapFind other.files p ≠ mapFind lca.files p)) ∧
    (mergeFiles lca.files current.files other.files).2.Nodup ∧
    ((mergeFiles lca.files current.files other.files).2 ≠ [] →
      Command.merge H now fuel branch_name w =
        (w, MergeOut.conflicts (mergeFiles lca.files current.files other.files).2)) := by
  have tl := (loadCommit_inv h.2.2.2.2.2.1).2
  have tc := (loadCommit_inv h.2.2.2.2.2.2.1).2
  have tt := (loadCommit_inv h.2.2.2.2.2.2.2).2
  have hcs : (mergeFiles lca.files current.files other.files).2 =
      (allFiles lca.files current.files other.files).filter
        (conflictAt lca.files current.files other.files) := by
    unfold mergeFiles
    rw [foldl_mergeStep_snd]
    rfl
  refine ⟨?_, ?_, ?_⟩
  · intro p
    rw [hcs, List.mem_filter, mem_allFiles]
    unfold conflictAt
    simp only [decide_eq_true_eq, Ne, mapAtOr_eq_iff tc tt, mapAtOr_eq_iff tc tl,
      mapAtOr_eq_iff tt tl]
  · rw [hcs]
    exact (allFiles_nodup _ _ _).filter _
  · intro hne
    rw [merge_threeWay H now h, if_pos hne]

/-! ## Numbers written and read back -/

theorem digitChar_spec : ∀ n, n < 10 → isDigit (digitChar n) = true ∧ (digitChar n).toNat = 48 + n := by
  decide

theorem isDigit_not_space {c : Char} (h : isDigit c = true) : isspace c = false := by
  unfold isDigit at h
  unfold isspace
  simp only [Bool.and_eq_true, decide_eq_true_eq] at h
  simp only [Bool.or_eq_false_iff, beq_eq_false_iff_ne, ne_eq, Bool.and_eq_false_imp,
    decide_eq_true_eq, decide_eq_false_iff_not, not_le]
  omega

theorem isDigit_ne_newline {c : Char} (h : isDigit c = true) : c ≠ '\n' := by
  rintro rfl
  exact absurd h (by decide)

theorem readDigits_cons_digit {c : Char} (h : isDigit c = true) (cs : Str) (k : Nat) (seen : Bool) :
    readDigits (c :: cs) k seen = readDigits cs (10 * k + (c.toNat - 48)) true := by
  simp [readDigits, h]

theorem showNatAux_spec (fuel : Nat) : ∀ n, n < fuel →
    ∃ ds : Str, ds ≠ [] ∧ (∀ c ∈ ds, isDigit c = true) ∧
      (∀ acc, showNatAux fuel n acc = ds ++ acc) ∧
      (∀ rest k seen, readDigits (ds ++ rest) k seen =
        readDigits rest (k * 10 ^ ds.length + n) true) := by
  induction fuel with
  | zero => intro n h; omega
  | succ f ih =>
    intro n hn
    by_cases c : n < 10
    · refine ⟨[digitChar n], by simp, ?_, ?_, ?_⟩
      · intro d hd
        rw [List.mem_singleton.1 hd]
        exact (digitChar_spec n c).1
      · intro acc
        simp [showNatAux, c]
      · intro rest k seen
        rw [List.singleton_append, readDigits_cons_digit (digitChar_spec n c).1,
          (digitChar_spec n c).2]
        congr 1
        simp
        omega
    · obtain ⟨ds, h1, h2, h3, h4⟩ := ih (n / 10) (by omega)
      refine ⟨ds ++ [digitChar (n % 10)], by simp, ?_, ?_, ?_⟩
      · intro d hd
        rcases List.mem_append.1 hd with hd | hd
        · exact h2 d hd
        · rw [List.mem_singleton.1 hd]
          exact (digitChar_spec _ (Nat.mod_lt _ (by decide))).1
      · intro acc
        simp [showNatAux, c, h3]
      · intro rest k seen
        have hm := digitChar_spec (n % 10) (Nat.mod_lt _ (by decide))
        rw [List.append_assoc, h4, List.singleton_append, readDigits_cons_digit hm.1, hm.2]
        congr 1
        rw [List.length_append, List.length_singleton, pow_succ]
        have := Nat.div_add_mod n 10
        have e : 48 + n % 10 - 48 = n % 10 := by omega
        rw [e]
        nlinarith [this]

theorem showNat_spec (n : Nat) :
    showNat n ≠ [] ∧ (∀ c ∈ showNat n, isDigit c = true) ∧
      readDigits (showNat n) 0 false = (n, true) := by
  obtain ⟨ds, h1, h2, h3, h4⟩ := showNatAux_spec (n + 1) n (Nat.lt_succ_self n)
  have e : showNat n = ds := by
    unfold showNat
    rw [h3, List.append_nil]
  rw [e]
  refine ⟨h1, h2, ?_⟩
  have := h4 [] 0 false
  rw [List.append_nil] at this
  rw [this]
  simp [readDigits]

theorem parseInt_digits {c : Char} {cs : Str} (h : isDigit c = true) :
    parseInt (c :: cs) =
      if (readDigits (c :: cs) 0 false).2 then some ((readDigits (c :: cs) 0 false).1 : Int)
      else none := by
  unfold parseInt
  have hs : skipws (c :: cs) = c :: cs := by
    simp [skipws, isDigit_not_space h]
  rw [hs]
  split
  · rename_i r e
    simp only [List.cons.injEq] at e
    rw [e.1] at h
    exact absurd h (by decide)
  · rename_i r e
    simp only [List.cons.injEq] at e
    rw [e.1] at h
    exact absurd h (by decide)
  · rfl

theorem parseInt_showNat (n : Nat) : parseInt (showNat n) = some (n : Int) := by
  obtain ⟨h1, h2, h3⟩ := showNat_spec n
  cases e : showNat n with
  | nil => exact absurd e h1
  | cons c cs =>
    rw [e] at h2 h3
    rw [parseInt_digits (h2 c (List.mem_cons_self _ _)), h3]
    rfl

theorem parseInt_showLong (t : Int) : parseInt (showLong t) = some t := by
  unfold showLong
  split_ifs with c
  · obtain ⟨h1, h2, h3⟩ := showNat_spec t.natAbs
    unfold parseInt
    have hs : skipws ('-' :: showNat t.natAbs) = '-' :: showNat t.natAbs := by
      simp [skipws, isspace]
    rw [hs]
    simp only [h3, if_true]
    congr 1
    omega
  · rw [parseInt_showNat]
    congr 1
    omega

theorem stoi_showNat {n : Nat} (h : n ≤ 2147483647) : stoi (showNat n) = some (n : Int) := by
  unfold stoi
  rw [parseInt_showNat]
  simp only
  rw [if_pos]
  constructor <;> omega

theorem stol_showLong {t : Int} (h : -9223372036854775808 ≤ t ∧ t ≤ 9223372036854775807) :
    stol (showLong t) = some t := by
  unfold stol
  rw [parseInt_showLong]
  simp only
  rw [if_pos h]

theorem showNat_no_newline (n : Nat) : '\n' ∉ showNat n :=
  fun h => isDigit_ne_newline ((showNat_spec n).2.1 _ h) rfl

theorem showLong_no_newline (t : Int) : '\n' ∉ showLong t := by
  unfold showLong
  split_ifs
  · intro h
    rcases List.mem_cons.1 h with h | h
    · exact absurd h (by decide)
    · exact showNat_no_newline _ h
  · exact showNat_no_newline _

/-! ## Lines and words of a serialized text -/

theorem splitNL_append {l : Str} (h : '\n' ∉ l) (r : Str) : splitNL (l ++ '\n' :: r) = (l, r) := by
  induction l with
  | nil => simp [splitNL]
  | cons a as ih =>
    have h1 : a ≠ '\n' := fun e => h (e ▸ List.mem_cons_self _ _)
    have h2 : '\n' ∉ as := fun e => h (List.mem_cons_of_mem _ e)
    simp [splitNL, h1, ih h2]

theorem getline_append {l : Str} (h : '\n' ∉ l) (r : Str) :
    getline (l ++ '\n' :: r) = some (l, r) := by
  cases l with
  | nil => simp [getline, splitNL]
  | cons a as =>
    have := splitNL_append h r
    simp only [List.cons_append] at this ⊢
    simp [getline, this]

theorem no_space_no_newline {s : Str} (h : ∀ c ∈ s, isspace c = false) : '\n' ∉ s := by
  intro hm
  exact absurd (h _ hm) (by decide)

theorem readWord_append_space {f : Str} (hf : ∀ c ∈ f, isspace c = false) (r : Str) :
    readWord (f ++ ' ' :: r) = (f, ' ' :: r) := by
  induction f with
  | nil =>
    have : isspace ' ' = true := by decide
    simp [readWord, this]
  | cons a as ih =>
    have h1 : isspace a = false := hf a (List.mem_cons_self _ _)
    have h2 := ih (fun c hc => hf c (List.mem_cons_of_mem _ hc))
    simp [readWord, h1, h2]

theorem readWord_all {h : Str} (hh : ∀ c ∈ h, isspace c = false) : readWord h = (h, []) := by
  induction h with
  | nil => simp [readWord]
  | cons a as ih =>
    have h1 : isspace a = false := hh a (List.mem_cons_self _ _)
    have h2 := ih (fun c hc => hh c (List.mem_cons_of_mem _ hc))
    simp [readWord, h1, h2]

theorem skipws_no_space {s : Str} (hs : ∀ c ∈ s, isspace c = false) : skipws s = s := by
  cases s with
  | nil => rfl
  | cons a as => simp [skipws, hs a (List.mem_cons_self _ _)]

theorem extract2_pair {f h : Str} (hf : IsToken f)
    (hh : ∀ c ∈ h, isspace c = false) : extract2 (f ++ ' ' :: h) = (f, h) := by
  have hsp : isspace ' ' = true := by decide
  have e1 : extract (f ++ ' ' :: h) = (f, ' ' :: h) := by
    unfold extract
    cases f with
    | nil => exact absurd rfl hf.1
    | cons a as =>
      have h1 : isspace a = false := hf.2 a (List.mem_cons_self _ _)
      have := readWord_append_space hf.2 h
      simp only [List.cons_append] at this ⊢
      simp only [skipws, h1]
      exact this
  have e2 : extract (' ' :: h) = (h, []) := by
    unfold extract
    simp only [skipws, hsp, if_true, skipws_no_space hh, readWord_all hh]
  unfold extract2
  rw [e1, e2]

theorem mapAssign_last {m : Map} {k : Str} (v : Str) (h : ∀ e ∈ m, strLt e.1 k = true) :
    mapAssign m k v = m ++ [(k, v)] := by
  induction m with
  | nil => rfl
  | cons e0 rest ih =>
    obtain ⟨k0, v0⟩ := e0
    have h0 : strLt k0 k = true := h (k0, v0) (List.mem_cons_self _ _)
    have h1 : ¬ (strLt k k0 = true) := by
      intro h1
      have := strLt_trans h0 h1
      rw [strLt_irrefl] at this
      exact Bool.noConfusion this
    have h2 : ¬ (k = k0) := fun e => strLt_ne h0 e.symm
    rw [mapAssign, if_neg h1, if_neg h2, ih (fun e he => h e (List.mem_cons_of_mem _ he))]
    rfl

theorem treeLine_entry (files : Map) {f h : Str} (hf : IsToken f)
    (hh : ∀ c ∈ h, isspace c = false) :
    Commit.treeLine files (f ++ ' ' :: h) = if h ≠ [] then mapAssign files f h else files := by
  unfold Commit.treeLine
  rw [extract2_pair hf hh]
  simp only [ne_eq, hf.1, not_false_eq_true, true_and]

theorem treeLoop_serializeFiles (m : Map) : ∀ (acc : Map) (rest : Str),
    (∀ e ∈ m, IsToken e.1 ∧ ∀ c ∈ e.2, isspace c = false) →
    Commit.treeLoop m.length (serializeFiles m ++ rest) acc =
      (m.foldl (fun a e => if e.2 ≠ [] then mapAssign a e.1 e.2 else a) acc, rest) := by
  induction m with
  | nil => intro acc rest _; simp [Commit.treeLoop, serializeFiles]
  | cons e0 tl ih =>
    intro acc rest h
    obtain ⟨f, v⟩ := e0
    have h0 := h (f, v) (List.mem_cons_self _ _)
    have hl : '\n' ∉ f ++ ' ' :: v := by
      intro hm
      rcases List.mem_append.1 hm with hm | hm
      · exact no_space_no_newline h0.1.2 hm
      · rcases List.mem_cons.1 hm with hm | hm
        · exact absurd hm (by decide)
        · exact no_space_no_newline h0.2 hm
    have e : serializeFiles ((f, v) :: tl) ++ rest =
        (f ++ ' ' :: v) ++ '\n' :: (serializeFiles tl ++ rest) := by
      simp [serializeFiles]
    rw [e, List.length_cons, Commit.treeLoop, getline_append hl]
    simp only
    rw [ih _ _ (fun e he => h e (List.mem_cons_of_mem _ he)), treeLine_entry _ h0.1 h0.2]
    rfl

theorem foldl_assign_sorted (m : Map) : ∀ (acc : Map), MapSorted (acc ++ m) →
    m.foldl (fun a e => if e.2 ≠ [] then mapAssign a e.1 e.2 else a) acc =
      acc ++ m.filter (fun e => decide (e.2 ≠ [])) := by
  induction m with
  | nil => intro acc _; simp
  | cons e0 tl ih =>
    intro acc hs
    obtain ⟨f, v⟩ := e0
    unfold MapSorted at hs ih
    have hlt : ∀ e ∈ acc, strLt e.1 f = true := by
      intro e he
      exact (List.pairwise_append.1 hs).2.2 e he (f, v) (List.mem_cons_self _ _)
    rw [List.foldl_cons, List.filter_cons]
    by_cases hv : v = []
    · have h1 : ¬ ((f, v).2 ≠ []) := fun h => h hv
      have h2 : ¬ (decide ((f, v).2 ≠ []) = true) := by simpa using hv
      rw [if_neg h1, if_neg h2]
      apply ih
      have : (acc ++ tl).Sublist (acc ++ (f, v) :: tl) :=
        List.Sublist.append (List.Sublist.refl _) (List.sublist_cons_self _ _)
      exact hs.sublist this
    · have h1 : (f, v).2 ≠ [] := hv
      have h2 : decide ((f, v).2 ≠ []) = true := by simpa using hv
      rw [if_pos h1, if_pos h2, mapAssign_last _ hlt, ih]
      · simp
      · simpa using hs

/-! ## Reading a serialized commit back -/

theorem startsWith_nil (s : Str) : startsWith s [] = true := by
  cases s <;> rfl

theorem startsWith_append (p s : Str) : startsWith (p ++ s) p = true := by
  induction p with
  | nil => exact startsWith_nil s
  | cons a as ih => simp [startsWith, ih]

theorem headerLoop_tree (n k : Nat) (rest : Str) (c : Commit) (hk : k ≤ 2147483647) :
    Commit.headerLoop (n + 1) (("tree ".toList ++ showNat k) ++ '\n' :: rest) c =
      Commit.headerLoop n (Commit.treeLoop k rest c.files).2
        { c with files := (Commit.treeLoop k rest c.files).1 } := by
  have h1 : '\n' ∉ "tree ".toList ++ showNat k := by
    intro hm
    rcases List.mem_append.1 hm with hm | hm
    · exact absurd hm (by decide)
    · exact showNat_no_newline _ hm
  have h2 : "tree ".toList ++ showNat k ≠ [] := by
    intro e
    exact absurd (congrArg List.length e) (by simp)
  have h3 : List.drop 5 ("tree ".toList ++ showNat k) = showNat k := rfl
  rw [Commit.headerLoop, getline_append h1]
  simp only [h2, if_false, startsWith_append, if_true, h3, stoi_showNat hk, Int.toNat_ofNat]

theorem headerLoop_parent (n : Nat) (p rest : Str) (c : Commit) (hp : '\n' ∉ p) :
    Commit.headerLoop (n + 1) (("parent ".toList ++ p) ++ '\n' :: rest) c =
      Commit.headerLoop n rest { c with parents := c.parents ++ [p] } := by
  have h1 : '\n' ∉ "parent ".toList ++ p := by
    intro hm
    rcases List.mem_append.1 hm with hm | hm
    · exact absurd hm (by decide)
    · exact hp hm
  have h2 : "parent ".toList ++ p ≠ [] := by
    intro e
    exact absurd (congrArg List.length e) (by simp)
  have h3 : List.drop 7 ("parent ".toList ++ p) = p := rfl
  have h4 : startsWith ("parent ".toList ++ p) "tree ".toList = false := rfl
  rw [Commit.headerLoop, getline_append h1]
  simp only [h2, if_false, h4, Bool.false_eq_true, startsWith_append, if_true, h3]

theorem headerLoop_timestamp (n : Nat) (t : Int) (rest : Str) (c : Commit)
    (ht : -9223372036854775808 ≤ t ∧ t ≤ 9223372036854775807) :
    Commit.headerLoop (n + 1) (("timestamp ".toList ++ showLong t) ++ '\n' :: rest) c =
      Commit.headerLoop n rest { c with timestamp := t } := by
  have h1 : '\n' ∉ "timestamp ".toList ++ showLong t := by
    intro hm
    rcases List.mem_append.1 hm with hm | hm
    · exact absurd hm (by decide)
    · exact showLong_no_newline _ hm
  have h2 : "timestamp ".toList ++ showLong t ≠ [] := by
    intro e
    exact absurd (congrArg List.length e) (by simp)
  have h3 : List.drop 10 ("timestamp ".toList ++ showLong t) = showLong t := rfl
  have h4 : startsWith ("timestamp ".toList ++ showLong t) "tree ".toList = false := rfl
  have h5 : startsWith ("timestamp ".toList ++ showLong t) "parent ".toList = false := rfl
  rw [Commit.headerLoop, getline_append h1]
  simp only [h2, if_false, h4, h5, Bool.false_eq_true, startsWith_append, if_true, h3,
    stol_showLong ht]

theorem headerLoop_blank (n : Nat) (rest : Str) (c : Commit) :
    Commit.headerLoop (n + 1) ('\n' :: rest) c = some (c, rest) := by
  simp [Commit.headerLoop, getline, splitNL]

theorem headerLoop_parents (ps : List Str) : ∀ (n : Nat) (rest : Str) (c : Commit),
    (∀ p ∈ ps, '\n' ∉ p) →
    Commit.headerLoop (n + ps.length) (serializeParents ps ++ rest) c =
      Commit.headerLoop n rest { c with parents := c.parents ++ ps } := by
  induction ps with
  | nil => intro n rest c _; simp [serializeParents]
  | cons p tl ih =>
    intro n rest c h
    have e : serializeParents (p :: tl) ++ rest =
        ("parent ".toList ++ p) ++ '\n' :: (serializeParents tl ++ rest) := by
      simp [serializeParents]
    rw [e, List.length_cons, ← Nat.add_assoc,
      headerLoop_parent _ _ _ _ (h p (List.mem_cons_self _ _)),
      ih _ _ _ (fun q hq => h q (List.mem_cons_of_mem _ hq))]
    simp

theorem serializeParents_length (ps : List Str) : ps.length ≤ (serializeParents ps).length := by
  induction ps with
  | nil => simp
  | cons p tl ih =>
    simp only [serializeParents, List.length_cons, List.length_append]
    omega

/-- Reading back what `serialize` wrote: the message, parents and timestamp are recovered, and so
are the entries of the snapshot whose hash is not empty. -/
theorem deserialize_serialize (c : Commit) (hs : MapSorted c.files)
    (hf : ∀ e ∈ c.files, IsToken e.1 ∧ ∀ ch ∈ e.2, isspace ch = false)
    (hp : ∀ p ∈ c.parents, '\n' ∉ p) (hn : c.files.length ≤ 2147483647)
    (ht : -9223372036854775808 ≤ c.timestamp ∧ c.timestamp ≤ 9223372036854775807) :
    Commit.deserialize c.serialize =
      some { c with files := c.files.filter (fun e => decide (e.2 ≠ [])) } := by
  obtain ⟨m, hm⟩ : ∃ m, c.serialize.length = (((m + 1) + 1) + c.parents.length) + 1 := by
    refine ⟨c.serialize.length - (c.parents.length + 3), ?_⟩
    have := serializeParents_length c.parents
    have : c.parents.length + 18 ≤ c.serialize.length := by
      unfold Commit.serialize
      simp only [List.length_append, List.length_cons]
      have h10 : "timestamp ".toList.length = 10 := rfl
      have h5 : "tree ".toList.length = 5 := rfl
      omega
    omega
  unfold Commit.deserialize
  rw [hm]
  unfold Commit.serialize
  rw [headerLoop_tree _ _ _ _ hn, treeLoop_serializeFiles _ _ _ hf]
  simp only
  rw [headerLoop_parents _ _ _ _ hp, headerLoop_timestamp _ _ _ _ ht, headerLoop_blank]
  simp only
  rw [foldl_assign_sorted _ _ (by simpa using hs)]
  simp

/-! ## Paths and files -/

theorem objPath_head (h : Str) : (objPath h).head? = some 'o' := rfl

theorem headPath_head (b : Str) : (headPath b).head? = some 'r' := rfl

theorem objPath_ne_headPath (h b : Str) : objPath h ≠ headPath b := by
  intro e
  have := congrArg List.head? e
  rw [objPath_head, headPath_head] at this
  exact absurd this (by decide)

theorem objPath_ne_HEAD (h : Str) : objPath h ≠ HEAD_FILE := by
  intro e
  have := congrArg List.head? e
  rw [objPath_head] at this
  exact absurd this (by decide)

theorem objPath_ne_INDEX (h : Str) : objPath h ≠ INDEX_FILE := by
  intro e
  have := congrArg List.head? e
  rw [objPath_head] at this
  exact absurd this (by decide)

theorem headPath_ne_HEAD (b : Str) : headPath b ≠ HEAD_FILE := by
  intro e
  have := congrArg List.head? e
  rw [headPath_head] at this
  exact absurd this (by decide)

theorem headPath_ne_INDEX (b : Str) : headPath b ≠ INDEX_FILE := by
  intro e
  have := congrArg List.head? e
  rw [headPath_head] at this
  exact absurd this (by decide)

theorem HEAD_ne_INDEX : HEAD_FILE ≠ INDEX_FILE := by decide

theorem objPath_inj {a b : Str} (h : objPath a = objPath b) : a = b :=
  List.append_cancel_left h

theorem headPath_inj {a b : Str} (h : headPath a = headPath b) : a = b :=
  List.append_cancel_left h

theorem read_write (t : Files) (p c q : Str) :
    read_file (write_file t p c) q = if q = p then c else read_file t q := by
  unfold read_file write_file
  split_ifs <;> rfl

theorem write_same (t : Files) (p c : Str) : write_file t p c p = some c := by
  simp [write_file]

theorem write_other (t : Files) {p q : Str} (c : Str) (h : q ≠ p) : write_file t p c q = t q := by
  simp [write_file, h]

theorem current_branch_write_obj (repo : Files) (h d : Str) :
    current_branch (write_file repo (objPath h) d) = current_branch repo := by
  unfold current_branch
  rw [read_write, if_neg (objPath_ne_HEAD h).symm]

/-! ## The merge commit -/

theorem mergeFiles_find (lca current other : Map) (p : Str) :
    mapFind (mergeFiles lca current other).1 p =
      if p ∈ allFiles lca current other ∧ mapAtOr current p ≠ mapAtOr other p ∧
          mapAtOr current p = mapAtOr lca p then
        some (mapAtOr other p)
      else mapFind current p := by
  unfold mergeFiles
  rw [foldl_mergeStep_fst]

theorem merge_threeWay_clean (H : Str → Nat) (now : Int) {fuel : Nat} {w : World}
    {branch_name lca_hash : Str} {lca current other : Commit}
    (h : ThreeWay fuel w branch_name lca_hash lca current other)
    (hc : (mergeFiles lca.files current.files other.files).2 = []) :
    Command.merge H now fuel branch_name w =
      (mergeWrite w
        (calculate_hash H (mergeCommit now branch_name (get_head_hash w.repo)
          (read_file w.repo (headPath branch_name))
          (mergeFiles lca.files current.files other.files).1).serialize)
        (mergeCommit now branch_name (get_head_hash w.repo)
          (read_file w.repo (headPath branch_name))
          (mergeFiles lca.files current.files other.files).1).serialize,
      MergeOut.merged
        (calculate_hash H (mergeCommit now branch_name (get_head_hash w.repo)
          (read_file w.repo (headPath branch_name))
          (mergeFiles lca.files current.files other.files).1).serialize)) := by
  rw [merge_threeWay H now h, if_neg (fun hne => hne hc)]

/-- C4. In a three-way merge without conflicting path, the snapshot of the merge commit maps every
path that ours has as in the base and that theirs has with a different hash to the hash of theirs,
and it keeps the entry of ours (the same hash, or no entry) for every path on which ours and theirs
agree or on which theirs has what the base has. -/
theorem merge_clean_union (H : Str → Nat) (now : Int) (fuel : Nat) (w : World)
    (branch_name lca_hash : Str) (lca current other : Commit)
    (h : ThreeWay fuel w branch_name lca_hash lca current other)
    (hc : (mergeFiles lca.files current.files other.files).2 = []) :
    (∃ w1 hash, Command.merge H now fuel branch_name w = (w1, MergeOut.merged hash) ∧
      w1.repo (objPath hash) =
        some (mergeCommit now branch_name (get_head_hash w.repo)
          (read_file w.repo (headPath branch_name))
          (mergeFiles lca.files current.files other.files).1).serialize) ∧
    (∀ p v, mapFind current.files p = mapFind lca.files p → mapFind other.files p = some v →
      some v ≠ mapFind lca.files p →
      mapFind (mergeFiles lca.files current.files other.files).1 p = some v) ∧
    (∀ p, (mapFind current.files p = mapFind other.files p ∨
        mapFind other.files p = mapFind lca.files p) →
      mapFind (mergeFiles lca.files current.files other.files).1 p = mapFind current.files p) := by
  have tl := (loadCommit_inv h.2.2.2.2.2.1).2
  have tc := (loadCommit_inv h.2.2.2.2.2.2.1).2
  have tt := (loadCommit_inv h.2.2.2.2.2.2.2).2
  refine ⟨⟨_, _, merge_threeWay_clean H now h hc, ?_⟩, ?_, ?_⟩
  · unfold mergeWrite
    simp only
    split_ifs
    · unfold update_branch
      rw [write_other _ _ (objPath_ne_headPath _ _), write_same]
    · unfold update_head
      rw [write_other _ _ (objPath_ne_HEAD _), write_same]
  · intro p v h1 h2 h3
    rw [mergeFiles_find, if_pos]
    · unfold mapAtOr
      rw [h2]
      rfl
    · refine ⟨mem_allFiles.2 (Or.inr (Or.inr (by rw [h2]; simp))), ?_, ?_⟩
      · rw [Ne, mapAtOr_eq_iff tc tt, h1, h2]
        exact fun e => h3 e.symm
      · rw [mapAtOr_eq_iff tc tl, h1]
  · intro p hp
    rw [mergeFiles_find, if_neg]
    rintro ⟨-, h1, h2⟩
    rw [Ne, mapAtOr_eq_iff tc tt] at h1
    rw [mapAtOr_eq_iff tc tl] at h2
    rcases hp with hp | hp
    · exact h1 hp
    · exact h1 (h2.trans hp.symm)

set_option maxRecDepth 100000 in
/-- Witness for C4: base `f ↦ A`, ours `f ↦ A`, theirs `f ↦ B`. -/
theorem merge_clean_union_witness :
    mapFind (mergeFiles [("f".toList, hx 1)] [("f".toList, hx 1)] [("f".toList, hx 2)]).1
      "f".toList = some (hx 2) :=
  (merge_clean_union Hlen 5 10 (exDiverged "A".toList "A".toList "BB".toList) "feat".toList
    (hx 60) (exCommit "first".toList 1 [] [("f".toList, hx 1)])
    (exCommit "ours".toList 2 [hx 60] [("f".toList, hx 1)])
    (exCommit "theirs".toList 3 [hx 60] [("f".toList, hx 2)])
    (by decide) (by decide)).2.1 "f".toList (hx 2) (by decide) (by decide) (by decide)

set_option maxRecDepth 100000 in
/-- Witness for C3: base `f ↦ A`, ours `f ↦ B`, theirs `f ↦ C`; `merge` reports `f` and returns
the state unchanged. -/
theorem merge_conflict_detection_witness :
    Command.merge Hlen 5 10 "feat".toList (exDiverged "A".toList "BB".toList "CCC".toList) =
      (exDiverged "A".toList "BB".toList "CCC".toList,
        MergeOut.conflicts
          (mergeFiles [("f".toList, hx 1)] [("f".toList, hx 2)] [("f".toList, hx 3)]).2) ∧
    (mergeFiles [("f".toList, hx 1)] [("f".toList, hx 2)] [("f".toList, hx 3)]).2 =
      ["f".toList] :=
  ⟨(merge_conflict_detection Hlen 5 10 (exDiverged "A".toList "BB".toList "CCC".toList)
    "feat".toList (hx 60) (exCommit "first".toList 1 [] [("f".toList, hx 1)])
    (exCommit "ours".toList 2 [hx 60] [("f".toList, hx 2)])
    (exCommit "theirs".toList 3 [hx 60] [("f".toList, hx 3)])
    (by decide)).2.2 (by decide), by decide⟩

theorem mem_allFiles_token {lca current other : Map} (hl : TokenMap lca) (hc : TokenMap current)
    (ho : TokenMap other) {p : Str} (hp : p ∈ allFiles lca current other) : IsToken p := by
  rcases mem_allFiles.1 hp with h | h | h
  · obtain ⟨e, he, rfl⟩ := mapFind_ne_none_iff.1 h
    exact (hl e he).1
  · obtain ⟨e, he, rfl⟩ := mapFind_ne_none_iff.1 h
    exact (hc e he).1
  · obtain ⟨e, he, rfl⟩ := mapFind_ne_none_iff.1 h
    exact (ho e he).1

theorem mapAtOr_no_space {m : Map} (hm : TokenMap m) (p : Str) :
    ∀ c ∈ mapAtOr m p, isspace c = false := by
  unfold mapAtOr
  cases h : mapFind m p with
  | none => intro c hc; simp at hc
  | some v => exact (hm _ (mapFind_some_mem h)).2.2

theorem foldl_mergeStep_inv (lca current other : Map) (ho : TokenMap other) (l : List Str) :
    ∀ (acc : Map × List Str), (∀ p ∈ l, IsToken p) →
    (MapSorted acc.1 ∧ ∀ e ∈ acc.1, IsToken e.1 ∧ ∀ c ∈ e.2, isspace c = false) →
    (MapSorted (l.foldl (mergeStep lca current other) acc).1 ∧
      ∀ e ∈ (l.foldl (mergeStep lca current other) acc).1,
        IsToken e.1 ∧ ∀ c ∈ e.2, isspace c = false) := by
  induction l with
  | nil => intro acc _ h; simpa using h
  | cons q rest ih =>
    intro acc hl h
    rw [List.foldl_cons]
    apply ih _ (fun p hp => hl p (List.mem_cons_of_mem _ hp))
    rw [mergeStep_fst]
    split_ifs
    · refine ⟨mapAssign_sorted _ _ h.1, ?_⟩
      intro e he
      rcases mem_mapAssign he with he | he
      · rw [he]
        exact ⟨hl q (List.mem_cons_self _ _), mapAtOr_no_space ho q⟩
      · exact h.2 e he
    · exact h

theorem mergeFiles_inv {lca current other : Map} (hl : TokenMap lca) (hc : TokenMap current)
    (ho : TokenMap other) (hs : MapSorted current) :
    MapSorted (mergeFiles lca current other).1 ∧
      ∀ e ∈ (mergeFiles lca current other).1, IsToken e.1 ∧ ∀ c ∈ e.2, isspace c = false := by
  unfold mergeFiles
  apply foldl_mergeStep_inv lca current other ho
  · intro p hp
    exact mem_allFiles_token hl hc ho hp
  · exact ⟨hs, fun e he => ⟨(hc e he).1, (hc e he).2.2⟩⟩

theorem mapFind_filter {m : Map} (hs : MapSorted m) (p : Str) :
    mapFind (m.filter (fun e => decide (e.2 ≠ []))) p =
      if mapFind m p = some [] then none else mapFind m p := by
  induction m with
  | nil => simp [mapFind]
  | cons e0 rest ih =>
    obtain ⟨k0, v0⟩ := e0
    unfold MapSorted at hs ih
    rw [List.pairwise_cons] at hs
    rw [List.filter_cons]
    by_cases hp : p = k0
    · subst hp
      have hr : mapFind rest p = none := by
        rw [mapFind_none_iff]
        intro e he
        exact fun e1 => strLt_ne (hs.1 e he) e1.symm
      have hfr : mapFind (rest.filter (fun e => decide (e.2 ≠ []))) p = none := by
        rw [ih hs.2, hr]
        simp
      by_cases hv : v0 = []
      · subst hv
        have h1 : ¬ (decide ((p, ([] : Str)).2 ≠ []) = true) := by simp
        have h2 : mapFind ((p, []) :: rest) p = some [] := by simp [mapFind]
        rw [if_neg h1, hfr, if_pos h2]
      · have h1 : decide ((p, v0).2 ≠ []) = true := by simpa using hv
        have h2 : mapFind ((p, v0) :: rest) p = some v0 := by simp [mapFind]
        have h3 : ¬ (mapFind ((p, v0) :: rest) p = some []) := by
          rw [h2]
          simpa using hv
        rw [if_pos h1, if_neg h3, h2]
        simp [mapFind]
    · have e1 : mapFind ((k0, v0) :: rest) p = mapFind rest p := by simp [mapFind, hp]
      rw [e1, ← ih hs.2]
      split_ifs
      · simp [mapFind, hp]
      · rfl

/-- C5, as the code has it. In a three-way merge without conflicting path, a path that base and
ours map to the same hash and that theirs lacks is mapped to the empty hash in the snapshot handed
to the creation of the merge commit, and it is absent from the snapshot obtained by loading the
stored merge commit (hashes free of newlines, fewer than 2^31 entries, a 64-bit clock). -/
theorem merge_deletion (H : Str → Nat) (now : Int) (fuel : Nat) (w : World)
    (branch_name lca_hash : Str) (lca current other : Commit)
    (h : ThreeWay fuel w branch_name lca_hash lca current other)
    (hc : (mergeFiles lca.files current.files other.files).2 = [])
    (hcur : '\n' ∉ get_head_hash w.repo) (hoth : '\n' ∉ read_file w.repo (headPath branch_name))
    (hnow : -9223372036854775808 ≤ now ∧ now ≤ 9223372036854775807)
    (hlen : (mergeFiles lca.files current.files other.files).1.length ≤ 2147483647)
    (p v : Str) (hb : mapFind lca.files p = some v) (ho : mapFind current.files p = some v)
    (ht : mapFind other.files p = none) :
    mapFind (mergeFiles lca.files current.files other.files).1 p = some [] ∧
    ∃ w1 hash c, Command.merge H now fuel branch_name w = (w1, MergeOut.merged hash) ∧
      Commit.deserialize (read_file w1.repo (objPath hash)) = some c ∧
      mapFind c.files p = none := by
  have il := loadCommit_inv h.2.2.2.2.2.1
  have ic := loadCommit_inv h.2.2.2.2.2.2.1
  have it := loadCommit_inv h.2.2.2.2.2.2.2
  have hm := mergeFiles_inv il.2 ic.2 it.2 ic.1
  have hfind : mapFind (mergeFiles lca.files current.files other.files).1 p = some [] := by
    rw [mergeFiles_find, if_pos]
    · unfold mapAtOr
      rw [ht]
      rfl
    · refine ⟨mem_allFiles.2 (Or.inl (by rw [hb]; simp)), ?_, ?_⟩
      · rw [Ne, mapAtOr_eq_iff ic.2 it.2, ho, ht]
        simp
      · rw [mapAtOr_eq_iff ic.2 il.2, ho, hb]
  have hread : ∀ hash data, read_file (mergeWrite w hash data).repo (objPath hash) = data := by
    intro hash data
    unfold mergeWrite read_file
    simp only
    split_ifs
    · unfold update_branch
      rw [write_other _ _ (objPath_ne_headPath _ _), write_same]
      rfl
    · unfold update_head
      rw [write_other _ _ (objPath_ne_HEAD _), write_same]
      rfl
  have hds := deserialize_serialize (mergeCommit now branch_name (get_head_hash w.repo)
    (read_file w.repo (headPath branch_name)) (mergeFiles lca.files current.files other.files).1)
    hm.1 hm.2 (by
      intro q hq
      simp only [mergeCommit, List.mem_cons, List.mem_singleton, List.not_mem_nil, or_false] at hq
      rcases hq with hq | hq
      · rw [hq]; exact hcur
      · rw [hq]; exact hoth) hlen hnow
  refine ⟨hfind, _, _, _, merge_threeWay_clean H now h hc, (by rw [hread]; exact hds), ?_⟩
  simp only [mergeCommit]
  rw [mapFind_filter hm.1, if_pos hfind]

set_option maxRecDepth 100000 in
/-- C5 fails as stated. In `exDeleted` the merge of `feat` reaches the three-way loop with base
`f ↦ A`, ours `f ↦ A` and theirs without `f`, finds no conflict, and the map handed to the
creation of the merge commit contains `f`, mapped to the empty hash; the stored object has the
line `f ` and a tree count of 2. -/
theorem merge_deletion_counterexample :
    ThreeWay 10 exDeleted "feat".toList (hx 60)
      (exCommit "first".toList 1 [] [("f".toList, hx 1)])
      (exCommit "ours".toList 2 [hx 60] [("f".toList, hx 1)])
      (exCommit "theirs".toList 4 [hx 134] [("g".toList, hx 2)]) ∧
    mergeFiles [("f".toList, hx 1)] [("f".toList, hx 1)] [("g".toList, hx 2)] =
      ([("f".toList, []), ("g".toList, hx 2)], []) ∧
    (Command.merge Hlen 5 10 "feat".toList exDeleted).2 = MergeOut.merged (hx 157) ∧
    (Command.merge Hlen 5 10 "feat".toList exDeleted).1.repo (objPath (hx 157)) =
      some ("tree 2\nf \ng ".toList ++ hx 2 ++ "\nparent ".toList ++ hx 99 ++
        "\nparent ".toList ++ hx 101 ++ "\ntimestamp 5\n\nMerge branch 'feat'".toList) := by
  decide

set_option maxRecDepth 100000 in
/-- Witness for `merge_deletion`: the example `exDeleted` and the path `f`. -/
theorem merge_deletion_witness :
    mapFind (mergeFiles [("f".toList, hx 1)] [("f".toList, hx 1)] [("g".toList, hx 2)]).1
      "f".toList = some [] ∧
    ∃ w1 hash c, Command.merge Hlen 5 10 "feat".toList exDeleted = (w1, MergeOut.merged hash) ∧
      Commit.deserialize (read_file w1.repo (objPath hash)) = some c ∧
      mapFind c.files "f".toList = none :=
  merge_deletion Hlen 5 10 exDeleted "feat".toList (hx 60)
    (exCommit "first".toList 1 [] [("f".toList, hx 1)])
    (exCommit "ours".toList 2 [hx 60] [("f".toList, hx 1)])
    (exCommit "theirs".toList 4 [hx 134] [("g".toList, hx 2)])
    (by decide) (by decide) (by decide) (by decide) (by decide) (by decide)
    "f".toList (hx 1) (by decide) (by decide) (by decide)

/-! ## The two traversals of `find_lca` -/

theorem pathCount_pos (repo : Files) (n : Nat) (h : Str) : 1 ≤ pathCount repo n h := by
  cases n <;> simp [pathCount]

theorem pathCount_mono (repo : Files) (n : Nat) : ∀ h, pathCount repo n h ≤ pathCount repo (n + 1) h := by
  induction n with
  | zero => intro h; simp [pathCount]
  | succ n ih =>
    intro h
    show 1 + ((parentsOf repo h).map (pathCount repo n)).sum ≤
      1 + ((parentsOf repo h).map (pathCount repo (n + 1))).sum
    apply Nat.add_le_add_left
    apply List.sum_le_sum
    intro p _
    exact ih p

theorem pathCount_mono_le (repo : Files) {n m : Nat} (hnm : n ≤ m) (h : Str) :
    pathCount repo n h ≤ pathCount repo m h := by
  induction hnm with
  | refl => exact le_refl _
  | step _ ih => exact le_trans ih (pathCount_mono repo _ h)

/-- With a rank that decreases along parent edges, the count at the rank of a commit covers the
counts at the ranks of its parents. -/
theorem pathCount_parents {repo : Files} {rank : Str → Nat}
    (hr : ∀ h p, p ∈ parentsOf repo h → rank p < rank h) (h : Str) :
    1 + ((parentsOf repo h).map (fun p => pathCount repo (rank p) p)).sum ≤
      pathCount repo (rank h) h := by
  cases hn : rank h with
  | zero =>
    cases hp : parentsOf repo h with
    | nil => simp [pathCount]
    | cons p ps =>
      have := hr h p (by rw [hp]; exact List.mem_cons_self _ _)
      omega
  | succ n =>
    rw [pathCount]
    apply Nat.add_le_add_left
    apply List.sum_le_sum
    intro p hp
    apply pathCount_mono_le
    have := hr h p hp
    omega

theorem foldl_push_spec (ps : List Str) : ∀ (acc : StrSet × List Str),
    (∀ x, x ∈ (ps.foldl ancestorsPush acc).1 ↔ x ∈ acc.1 ∨ x ∈ ps) ∧
    ∃ s, (ps.foldl ancestorsPush acc).2 = acc.2 ++ s ∧ s.Sublist ps ∧
      ∀ x, x ∈ (ps.foldl ancestorsPush acc).1 → x ∉ acc.1 → x ∈ s := by
  induction ps with
  | nil =>
    intro acc
    exact ⟨fun x => by simp, [], by simp, List.Sublist.refl _, fun x h1 h2 => absurd h1 h2⟩
  | cons p tl ih =>
    intro acc
    rw [List.foldl_cons]
    obtain ⟨h1, s, h2, h3, h4⟩ := ih (ancestorsPush acc p)
    unfold ancestorsPush at h1 h2 h4 ⊢
    by_cases c : p ∈ acc.1
    · simp only [c, if_true] at h1 h2 h4 ⊢
      refine ⟨?_, s, h2, h3.cons p, h4⟩
      intro x
      rw [h1, List.mem_cons]
      constructor
      · rintro (h | h)
        · exact Or.inl h
        · exact Or.inr (Or.inr h)
      · rintro (h | h | h)
        · exact Or.inl h
        · exact Or.inl (h ▸ c)
        · exact Or.inr h
    · simp only [c, if_false] at h1 h2 h4 ⊢
      refine ⟨?_, p :: s, ?_, h3.cons₂ p, ?_⟩
      · intro x
        rw [h1, mem_setInsert, List.mem_cons]
        tauto
      · rw [h2]
        simp
      · intro x hx hn
        by_cases e : x = p
        · rw [e]; exact List.mem_cons_self _ _
        · apply List.mem_cons_of_mem
          apply h4 x hx
          rw [mem_setInsert]
          rintro (h | h)
          · exact e h
          · exact hn h

theorem ancestorsLoop_nil (repo : Files) (fuel : Nat) (anc : StrSet) :
    ancestorsLoop repo fuel anc [] = Res.ok anc := by
  cases fuel <;> rfl

theorem parentsOf_of_load {repo : Files} {h : Str} {c : Commit}
    (hc : loadCommit repo h = some c) :
    parentsOf repo h = c.parents := by
  unfold parentsOf
  rw [hc]

/-- The first loop of `find_lca`, started on a consistent state with enough fuel, ends with a set
that holds only proper ancestors of `a` and is closed under taking parents together with `a`. -/
theorem ancestorsLoop_spec {repo : Files} {rank : Str → Nat}
    (hr : ∀ h p, p ∈ parentsOf repo h → rank p < rank h) (a : Str) (hl : Loads repo a) :
    ∀ (fuel : Nat) (anc : StrSet) (queue : List Str),
    (queue.map (fun x => pathCount repo (rank x) x)).sum ≤ fuel →
    (∀ x ∈ queue, Reaches repo a x) →
    (∀ x ∈ anc, ProperAncestor repo a x) →
    (∀ x, (x = a ∨ x ∈ anc) → x ∉ queue → ∀ p ∈ parentsOf repo x, p ∈ anc) →
    ∃ anc1, ancestorsLoop repo fuel anc queue = Res.ok anc1 ∧
      (∀ x ∈ anc1, ProperAncestor repo a x) ∧
      (∀ x, (x = a ∨ x ∈ anc1) → ∀ p ∈ parentsOf repo x, p ∈ anc1) := by
  intro fuel
  induction fuel with
  | zero =>
    intro anc queue hf hq ha hc
    cases queue with
    | nil =>
      exact ⟨anc, ancestorsLoop_nil _ _ _, ha, fun x hx => hc x hx (by simp)⟩
    | cons h q =>
      have := pathCount_pos repo (rank h) h
      simp only [List.map_cons, List.sum_cons] at hf
      omega
  | succ n ih =>
    intro anc queue hf hq ha hc
    cases queue with
    | nil =>
      exact ⟨anc, ancestorsLoop_nil _ _ _, ha, fun x hx => hc x hx (by simp)⟩
    | cons h q =>
      have hreach : Reaches repo a h := hq h (List.mem_cons_self _ _)
      cases hd : loadCommit repo h with
      | none => exact absurd hd (hl h hreach)
      | some c =>
        have hpar := parentsOf_of_load hd
        obtain ⟨h1, s, h2, h3, h4⟩ := foldl_push_spec c.parents (anc, [])
        simp only [List.nil_append] at h2
        have hstep : ancestorsLoop repo (n + 1) anc (h :: q) =
            ancestorsLoop repo n (c.parents.foldl ancestorsPush (anc, [])).1
              (q ++ (c.parents.foldl ancestorsPush (anc, [])).2) := by
          rw [ancestorsLoop, hd]
        rw [hstep, h2]
        apply ih
        · have hs : (s.map (fun x => pathCount repo (rank x) x)).sum ≤
              (c.parents.map (fun x => pathCount repo (rank x) x)).sum :=
            List.Sublist.sum_le_sum (h3.map _) (fun _ _ => Nat.zero_le _)
          have hp := pathCount_parents hr h
          rw [hpar] at hp
          simp only [List.map_cons, List.sum_cons] at hf
          rw [List.map_append, List.sum_append]
          omega
        · intro x hx
          rcases List.mem_append.1 hx with hx | hx
          · exact hq x (List.mem_cons_of_mem _ hx)
          · have : x ∈ parentsOf repo h := by rw [hpar]; exact h3.subset hx
            exact Relation.ReflTransGen.tail hreach this
        · intro x hx
          rcases (h1 x).1 hx with hx | hx
          · exact ha x hx
          · have : x ∈ parentsOf repo h := by rw [hpar]; exact hx
            exact Relation.TransGen.tail' hreach this
        · intro x hx hnq p hp
          rw [h1]
          by_cases e : x = h
          · rw [e, hpar] at hp
            exact Or.inr hp
          · have hxa : x = a ∨ x ∈ anc := by
              rcases hx with hx | hx
              · exact Or.inl hx
              · by_cases hxin : x ∈ anc
                · exact Or.inr hxin
                · exact absurd (List.mem_append_right q (h4 x hx hxin)) hnq
            have hxq : x ∉ h :: q := by
              intro hm
              rcases List.mem_cons.1 hm with hm | hm
              · exact e hm
              · exact hnq (List.mem_append_left _ hm)
            exact Or.inl (hc x hxa hxq p hp)

/-- On an acyclic history whose objects load, the first loop of `find_lca` ends, given
`pathCount` steps, with exactly the proper ancestors of `a`. -/
theorem ancestorsLoop_complete {repo : Files} {rank : Str → Nat}
    (hr : ∀ h p, p ∈ parentsOf repo h → rank p < rank h) (a : Str) (hl : Loads repo a)
    {fuel : Nat} (hf : pathCount repo (rank a) a ≤ fuel) :
    ∃ anc, ancestorsLoop repo fuel [] [a] = Res.ok anc ∧
      ∀ x, x ∈ anc ↔ ProperAncestor repo a x := by
  obtain ⟨anc, h1, h2, h3⟩ := ancestorsLoop_spec hr a hl fuel [] [a] (by simpa using hf)
    (by
      intro x hx
      rw [List.mem_singleton.1 hx]
      exact Relation.ReflTransGen.refl)
    (by intro x hx; simp at hx)
    (by
      intro x hx hnq
      rcases hx with hx | hx
      · exact absurd (List.mem_singleton.2 hx) hnq
      · simp at hx)
  refine ⟨anc, h1, fun x => ⟨h2 x, ?_⟩⟩
  intro hx
  unfold ProperAncestor at hx
  induction hx with
  | single hp => exact h3 a (Or.inl rfl) _ hp
  | tail _ hp ih => exact h3 _ (Or.inr ih) _ hp

theorem searchLoop_hit (repo : Files) (anc : StrSet) (n : Nat) {h : Str} (q : List Str)
    (hh : h ∈ anc) : searchLoop repo anc (n + 1) (h :: q) = Res.ok h := by
  rw [searchLoop, if_pos hh]

/-- C6. If the tip of the existing branch `branch_name` is reached from the current commit by
zero or more parent edges, in an acyclic history whose commits load (needed only when the two
hashes differ), then `merge` (given enough steps for the search) reports "Already up to date."
and returns the state it was given: no commit is created, and object store, branch files, HEAD,
index and working directory are untouched. -/
theorem merge_already_up_to_date (H : Str → Nat) (now : Int) (w : World) (branch_name : Str)
    (hb : file_exists w.repo (headPath branch_name) = true)
    (hac : Acyclic w.repo)
    (hl : get_head_hash w.repo ≠ read_file w.repo (headPath branch_name) →
      Loads w.repo (get_head_hash w.repo))
    (hr : Reaches w.repo (get_head_hash w.repo) (read_file w.repo (headPath branch_name))) :
    ∃ N, ∀ fuel, N ≤ fuel →
      Command.merge H now fuel branch_name w = (w, MergeOut.upToDate) := by
  obtain ⟨rank, hrank⟩ := hac
  refine ⟨pathCount w.repo (rank (get_head_hash w.repo)) (get_head_hash w.repo), ?_⟩
  intro fuel hf
  unfold Command.merge
  simp only [hb, Bool.not_true, Bool.false_eq_true, if_false]
  by_cases he : get_head_hash w.repo = read_file w.repo (headPath branch_name)
  · rw [if_pos he]
  · rw [if_neg he]
    have hpa : ProperAncestor w.repo (get_head_hash w.repo)
        (read_file w.repo (headPath branch_name)) := by
      rcases Relation.reflTransGen_iff_eq_or_transGen.1 hr with h | h
      · exact absurd h.symm he
      · exact h
    obtain ⟨anc, h1, h2⟩ := ancestorsLoop_complete hrank _ (hl he) hf
    have hmem := (h2 _).2 hpa
    obtain ⟨n, rfl⟩ : ∃ n, fuel = n + 1 := by
      have := pathCount_pos w.repo (rank (get_head_hash w.repo)) (get_head_hash w.repo)
      exact ⟨fuel - 1, by omega⟩
    have hlca : Command.find_lca (n + 1) w.repo (get_head_hash w.repo)
        (read_file w.repo (headPath branch_name)) =
        Res.ok (read_file w.repo (headPath branch_name)) := by
      unfold Command.find_lca
      rw [h1]
      exact searchLoop_hit _ _ _ _ hmem
    rw [hlca]
    simp only
    rw [if_neg (fun e => he e.symm)]
    simp

theorem deserialize_nil : Commit.deserialize [] = some {} := rfl

theorem exBehind_other {h : Str} (h1 : h ≠ hx 99) (h2 : h ≠ hx 60) (h3 : h ≠ hx 1)
    (h4 : h ≠ hx 2) : Commit.deserialize (read_file exBehind.repo (objPath h)) = some {} := by
  have e : exBehind.repo (objPath h) = none := by
    have n1 : objPath h ≠ objPath (hx 99) := fun e => h1 (objPath_inj e)
    have n2 : objPath h ≠ objPath (hx 60) := fun e => h2 (objPath_inj e)
    have n3 : objPath h ≠ objPath (hx 1) := fun e => h3 (objPath_inj e)
    have n4 : objPath h ≠ objPath (hx 2) := fun e => h4 (objPath_inj e)
    simp only [exBehind, objPath_ne_HEAD, objPath_ne_INDEX, objPath_ne_headPath, n1, n2, n3, n4,
      if_false]
  unfold read_file
  rw [e]
  rfl

set_option maxRecDepth 100000 in
theorem exBehind_parents (h : Str) :
    parentsOf exBehind.repo h = if h = hx 99 then [hx 60] else [] := by
  by_cases h1 : h = hx 99
  · rw [if_pos h1, h1]
    decide
  · rw [if_neg h1]
    by_cases h2 : h = hx 60
    · rw [h2]; decide
    · by_cases h3 : h = hx 1
      · rw [h3]; decide
      · by_cases h4 : h = hx 2
        · rw [h4]; decide
        · unfold parentsOf loadCommit
          split_ifs
          · rfl
          · rw [exBehind_other h1 h2 h3 h4]

set_option maxRecDepth 100000 in
theorem exBehind_loads : Loads exBehind.repo (hx 99) := by
  intro h hr
  have hcases : h = hx 99 ∨ h = hx 60 := by
    unfold Reaches at hr
    induction hr with
    | refl => exact Or.inl rfl
    | tail _ hp ih =>
      rw [exBehind_parents] at hp
      rcases ih with ih | ih
      · rw [if_pos ih] at hp
        exact Or.inr (List.mem_singleton.1 hp)
      · have hne : ¬ (hx 60 = hx 99) := by decide
        rw [ih, if_neg hne] at hp
        simp at hp
  rcases hcases with e | e
  · rw [e]; decide
  · rw [e]; decide

theorem exBehind_acyclic : Acyclic exBehind.repo := by
  refine ⟨fun h => if h = hx 99 then 1 else 0, ?_⟩
  intro h p hp
  rw [exBehind_parents] at hp
  by_cases h1 : h = hx 99
  · rw [if_pos h1] at hp
    rw [List.mem_singleton.1 hp, h1]
    decide
  · rw [if_neg h1] at hp
    simp at hp

set_option maxRecDepth 100000 in
/-- Witness for C6: in `exBehind` the tip of `feat` is the parent of the current commit. -/
theorem merge_already_up_to_date_witness :
    ∃ N, ∀ fuel, N ≤ fuel →
      Command.merge Hlen 5 fuel "feat".toList exBehind = (exBehind, MergeOut.upToDate) :=
  merge_already_up_to_date Hlen 5 exBehind "feat".toList (by decide) exBehind_acyclic
    (fun _ => exBehind_loads) (Relation.ReflTransGen.single (by decide))

set_option maxRecDepth 100000 in
/-- The files of `exBehind` are those left by the commands under `Hlen`. -/
theorem exBehind_files :
    ∀ p ∈ [HEAD_FILE, INDEX_FILE, headPath "main".toList, headPath "feat".toList,
        objPath (hx 99), objPath (hx 60), objPath (hx 1), objPath (hx 2)],
      exBehind.repo p =
        (stageAndCommit 2 "ours".toList "f".toList "BB".toList (exBase "A".toList)).repo p := by
  decide

theorem searchLoop_result (repo : Files) (anc : StrSet) : ∀ (fuel : Nat) (q : List Str) (h : Str),
    searchLoop repo anc fuel q = Res.ok h → h ∈ anc ∨ h = [] := by
  intro fuel
  induction fuel with
  | zero =>
    intro q h hq
    cases q with
    | nil =>
      simp only [searchLoop, Res.ok.injEq] at hq
      exact Or.inr hq.symm
    | cons x q => simp [searchLoop] at hq
  | succ n ih =>
    intro q h hq
    cases q with
    | nil =>
      simp only [searchLoop, Res.ok.injEq] at hq
      exact Or.inr hq.symm
    | cons x q =>
      rw [searchLoop] at hq
      split_ifs at hq with c
      · simp only [Res.ok.injEq] at hq
        exact Or.inl (hq ▸ c)
      · cases hd : loadCommit repo x with
        | none => simp [hd] at hq
        | some c =>
          simp only [hd] at hq
          exact ih _ _ hq

theorem ancestorsLoop_sound (repo : Files) (a : Str) : ∀ (fuel : Nat) (anc : StrSet)
    (queue : List Str) (anc1 : StrSet), ancestorsLoop repo fuel anc queue = Res.ok anc1 →
    (∀ x ∈ queue, Reaches repo a x) → (∀ x ∈ anc, ProperAncestor repo a x) →
    ∀ x ∈ anc1, ProperAncestor repo a x := by
  intro fuel
  induction fuel with
  | zero =>
    intro anc queue anc1 h hq ha
    cases queue with
    | nil =>
      simp only [ancestorsLoop, Res.ok.injEq] at h
      rw [← h]; exact ha
    | cons x q => simp [ancestorsLoop] at h
  | succ n ih =>
    intro anc queue anc1 h hq ha
    cases queue with
    | nil =>
      simp only [ancestorsLoop, Res.ok.injEq] at h
      rw [← h]; exact ha
    | cons x q =>
      rw [ancestorsLoop] at h
      cases hd : loadCommit repo x with
      | none => simp [hd] at h
      | some c =>
        simp only [hd] at h
        have hpar := parentsOf_of_load hd
        have hreach : Reaches repo a x := hq x (List.mem_cons_self _ _)
        obtain ⟨h1, s, h2, h3, -⟩ := foldl_push_spec c.parents (anc, [])
        simp only [List.nil_append] at h2
        refine ih _ _ _ h ?_ ?_
        · intro y hy
          rw [h2] at hy
          rcases List.mem_append.1 hy with hy | hy
          · exact hq y (List.mem_cons_of_mem _ hy)
          · have : y ∈ parentsOf repo x := by rw [hpar]; exact h3.subset hy
            exact Relation.ReflTransGen.tail hreach this
        · intro y hy
          rcases (h1 y).1 hy with hy | hy
          · exact ha y hy
          · have : y ∈ parentsOf repo x := by rw [hpar]; exact hy
            exact Relation.TransGen.tail' hreach this

/-- Whatever `find_lca a b` returns is a proper ancestor of `a` or the empty string. -/
theorem find_lca_result {fuel : Nat} {repo : Files} {a b h : Str}
    (hr : Command.find_lca fuel repo a b = Res.ok h) : ProperAncestor repo a h ∨ h = [] := by
  unfold Command.find_lca at hr
  cases h1 : ancestorsLoop repo fuel [] [a] with
  | ok anc =>
    simp only [h1] at hr
    rcases searchLoop_result _ _ _ _ _ hr with h2 | h2
    · refine Or.inl (ancestorsLoop_sound repo a fuel [] [a] anc h1 ?_ ?_ h h2)
      · intro x hx
        rw [List.mem_singleton.1 hx]
        exact Relation.ReflTransGen.refl
      · intro x hx
        simp at hx
    · exact Or.inr h2
  | err => simp [h1] at hr
  | fuel => simp [h1] at hr

theorem acyclic_irrefl {repo : Files} (hac : Acyclic repo) (a : Str) :
    ¬ ProperAncestor repo a a := by
  obtain ⟨rank, hrank⟩ := hac
  have key : ∀ x y, ProperAncestor repo x y → rank y < rank x := by
    intro x y hxy
    unfold ProperAncestor at hxy
    induction hxy with
    | single hp => exact hrank _ _ hp
    | tail _ hp ih => exact lt_trans (hrank _ _ hp) ih
  intro h
  exact absurd (key a a h) (lt_irrefl _)

/-- In an acyclic history `find_lca a b` never returns the commit `a` itself. -/
theorem find_lca_ne_self {fuel : Nat} {repo : Files} (hac : Acyclic repo) {a : Str} (ha : a ≠ [])
    (b : Str) : Command.find_lca fuel repo a b ≠ Res.ok a := by
  intro h
  rcases find_lca_result h with h1 | h1
  · exact acyclic_irrefl hac a h1
  · exact ha h1

/-- In an acyclic history with a commit checked out, `merge` never takes the branch
"Fast-forward merge.". -/
theorem merge_never_fast_forward (H : Str → Nat) (now : Int) (fuel : Nat) (branch_name : Str)
    (w : World) (hac : Acyclic w.repo) (ha : get_head_hash w.repo ≠ []) (c : CheckoutOut) :
    (Command.merge H now fuel branch_name w).2 ≠ MergeOut.fastForward c := by
  unfold Command.merge
  by_cases h1 : (!file_exists w.repo (headPath branch_name)) = true
  · rw [if_pos h1]
    simp
  · rw [if_neg h1]
    simp only
    by_cases h2 : get_head_hash w.repo = read_file w.repo (headPath branch_name)
    · rw [if_pos h2]
      simp
    · rw [if_neg h2]
      cases h3 : Command.find_lca fuel w.repo (get_head_hash w.repo)
          (read_file w.repo (headPath branch_name)) with
      | fuel => simp
      | err => simp
      | ok l =>
        have hne : l ≠ get_head_hash w.repo := by
          intro e
          rw [e] at h3
          exact find_lca_ne_self hac ha _ h3
        simp only
        rw [if_neg hne]
        by_cases h4 : l = read_file w.repo (headPath branch_name)
        · rw [if_pos h4]
          simp
        · rw [if_neg h4]
          split
          · split_ifs <;> simp
          · simp

set_option maxRecDepth 100000 in
/-- C1 at the failing input `exChain`: the current commit `hx 99` is the only parent of the tip
`hx 101` of `ahead`, yet `find_lca` returns the grandparent `hx 60`, `merge ahead` runs the
three-way loop against it and reports `f` as conflicting; the index and the file `f` still hold
the snapshot of the current commit, not that of `hx 101`, and HEAD still names `main`. -/
theorem merge_ahead_not_fast_forward :
    get_head_hash exChain.repo = hx 99 ∧
    read_file exChain.repo (headPath "ahead".toList) = hx 101 ∧
    parentsOf exChain.repo (hx 101) = [hx 99] ∧
    parentsOf exChain.repo (hx 99) = [hx 60] ∧
    parentsOf exChain.repo (hx 60) = [] ∧
    Command.find_lca 10 exChain.repo (hx 99) (hx 101) = Res.ok (hx 60) ∧
    (Command.merge Hlen 5 10 "ahead".toList exChain).2 = MergeOut.conflicts ["f".toList] ∧
    Index.load (read_file (Command.merge Hlen 5 10 "ahead".toList exChain).1.repo INDEX_FILE) =
      [("f".toList, hx 2)] ∧
    (Commit.deserialize (read_file exChain.repo (objPath (hx 101)))).map Commit.files =
      some [("f".toList, hx 3)] ∧
    (Command.merge Hlen 5 10 "ahead".toList exChain).1.work "f".toList = some "BB".toList ∧
    (Command.merge Hlen 5 10 "ahead".toList exChain).1.repo HEAD_FILE =
      some "ref: refs/heads/main".toList := by
  decide

set_option maxRecDepth 100000 in
/-- C2 at failing inputs. In `exAhead` the traversal from `b = hx 101` visits `hx 101`, then
`a = hx 60`, which is in `ancestors(a) ∪ {a}`, but `find_lca a b` returns the empty string, and
so does `find_lca a a`. In `exDeleted`, where `hx 60` is the parent of `hx 134`, the parent of
`hx 101`, `find_lca (hx 134) (hx 101)` returns the grandparent `hx 60` although the traversal
from `hx 101` visits `hx 134` first. -/
theorem find_lca_excludes_start :
    parentsOf exAhead.repo (hx 101) = [hx 60] ∧
    Command.find_lca 10 exAhead.repo (hx 60) (hx 101) = Res.ok [] ∧
    Command.find_lca 10 exAhead.repo (hx 60) (hx 60) = Res.ok [] ∧
    parentsOf exDeleted.repo (hx 101) = [hx 134] ∧
    parentsOf exDeleted.repo (hx 134) = [hx 60] ∧
    Command.find_lca 10 exDeleted.repo (hx 134) (hx 101) = Res.ok (hx 60) := by
  decide

/-! ## The index file -/

theorem lines_cons_ne_nil (s : Str) (hs : s ≠ []) :
    lines s = (splitNL s).1 :: lines (splitNL s).2 := by
  induction s with
  | nil => exact absurd rfl hs
  | cons c cs ih =>
    by_cases hc : c = '\n'
    · simp [lines, splitNL, hc]
    · cases cs with
      | nil => simp [lines, splitNL, hc]
      | cons d ds =>
        have := ih (by simp)
        simp only [lines, splitNL, hc, if_false] at this ⊢
        rw [this]

/-- The list `lines` is what repeated `getline` yields. -/
theorem lines_getline (s : Str) :
    lines s = match getline s with
      | none => []
      | some (l, r) => l :: lines r := by
  cases s with
  | nil => rfl
  | cons c cs =>
    rw [lines_cons_ne_nil _ (by simp)]
    rfl

theorem lines_append {l : Str} (h : '\n' ∉ l) (r : Str) : lines (l ++ '\n' :: r) = l :: lines r := by
  rw [lines_cons_ne_nil _ (by simp), splitNL_append h]

theorem loadLine_entry (entries : Map) {f h : Str} (hf : IsToken f) (hh : IsToken h) :
    Index.loadLine entries (h ++ ' ' :: f) = mapAssign entries f h := by
  unfold Index.loadLine
  rw [extract2_pair hh hf.2]
  simp only [ne_eq, hh.1, not_false_eq_true, hf.1, and_self, if_true]

theorem load_save_foldl (m : Map) (hm : TokenMap m) : ∀ (acc : Map),
    (lines (Index.save m)).foldl Index.loadLine acc =
      m.foldl (fun a e => if e.2 ≠ [] then mapAssign a e.1 e.2 else a) acc := by
  induction m with
  | nil => intro acc; rfl
  | cons e0 tl ih =>
    intro acc
    obtain ⟨f, v⟩ := e0
    have h0 := hm (f, v) (List.mem_cons_self _ _)
    have hl : '\n' ∉ v ++ ' ' :: f := by
      intro hmem
      rcases List.mem_append.1 hmem with hmem | hmem
      · exact no_space_no_newline h0.2.2 hmem
      · rcases List.mem_cons.1 hmem with hmem | hmem
        · exact absurd hmem (by decide)
        · exact no_space_no_newline h0.1.2 hmem
    have e : Index.save ((f, v) :: tl) = (v ++ ' ' :: f) ++ '\n' :: Index.save tl := by
      simp [Index.save]
    rw [e, lines_append hl, List.foldl_cons, List.foldl_cons,
      ih (fun e he => hm e (List.mem_cons_of_mem _ he)), loadLine_entry _ h0.1 h0.2]
    simp only [ne_eq, h0.2.1, not_false_eq_true, if_true]

/-- Loading the text `Index::save` wrote gives the map back, when keys and hashes are words. -/
theorem load_save {m : Map} (hs : MapSorted m) (hm : TokenMap m) :
    Index.load (Index.save m) = m := by
  unfold Index.load
  rw [load_save_foldl m hm, foldl_assign_sorted m [] (by simpa using hs), List.nil_append]
  apply List.filter_eq_self.2
  intro e he
  simpa using (hm e he).2.1

/-! ## Checkout -/

theorem checkoutRemove_spec (idx : Map) : ∀ (t : Files),
    (∀ e ∈ idx, plainName e.1 = true) →
    ∃ t1, checkoutRemove idx t = some t1 ∧
      ∀ p, t1 p = if mapFind idx p ≠ none then none else t p := by
  induction idx with
  | nil => intro t _; exact ⟨t, rfl, fun p => by simp [mapFind]⟩
  | cons e0 tl ih =>
    intro t h
    obtain ⟨k, v⟩ := e0
    obtain ⟨t1, h1, h2⟩ := ih (remove_file t k) (fun e he => h e (List.mem_cons_of_mem _ he))
    refine ⟨t1, ?_, ?_⟩
    · rw [checkoutRemove, if_pos (h (k, v) (List.mem_cons_self _ _))]
      exact h1
    · intro p
      rw [h2]
      by_cases c : p = k
      · subst c
        simp [mapFind, remove_file]
      · simp [mapFind, remove_file, c]

theorem checkoutWrite_top (repo : Files) {f : Str} (h : Str) (rest : Map) (t : Files)
    (hf : '/' ∉ f) : checkoutWrite repo ((f, h) :: rest) t = Step.throws t := by
  rw [checkoutWrite]
  unfold create_directories_parent
  rw [if_neg hf]

/-- The second half of `checkout` on a snapshot whose first path has no directory part: the
paths of the index are removed, then `create_directories` throws. -/
theorem checkoutTarget_throws (T : Str) (b : Bool) (w : World) (target : Commit) (f h : Str)
    (rest : Map) (work1 : Files) (hT : T ≠ [])
    (hload : Commit.deserialize (read_file w.repo (objPath T)) = some target)
    (hfiles : target.files = (f, h) :: rest) (hf : '/' ∉ f)
    (hrm : checkoutRemove (Index.load (read_file w.repo INDEX_FILE)) w.work = some work1) :
    Command.checkoutTarget T b w = ({ w with work := work1 }, CheckoutOut.crashed) := by
  unfold Command.checkoutTarget
  rw [if_neg hT, hload]
  simp only
  rw [hrm]
  simp only
  rw [hfiles, checkoutWrite_top _ _ _ _ hf]

theorem checkout_throws (name : Str) (w : World) (T : Str) (is_branch : Bool) (target : Commit)
    (f h : Str) (rest : Map) (work1 : Files) (hn : plainName name = true)
    (hres : resolveTarget w.repo name = some (T, is_branch)) (hT : T ≠ [])
    (hload : Commit.deserialize (read_file w.repo (objPath T)) = some target)
    (hfiles : target.files = (f, h) :: rest) (hf : '/' ∉ f)
    (hrm : checkoutRemove (Index.load (read_file w.repo INDEX_FILE)) w.work = some work1) :
    Command.checkout name w =
      ({ w with
          repo := update_head w.repo
            (if is_branch then "ref: refs/heads/".toList ++ name else name)
          work := work1 },
        CheckoutOut.crashed) := by
  have hobj : ∀ (r : Str) (k : Str), read_file (update_head w.repo r) (objPath k) =
      read_file w.repo (objPath k) := by
    intro r k
    unfold update_head
    rw [read_write, if_neg (objPath_ne_HEAD k)]
  have hidx : ∀ (r : Str), read_file (update_head w.repo r) INDEX_FILE =
      read_file w.repo INDEX_FILE := by
    intro r
    unfold update_head
    rw [read_write, if_neg HEAD_ne_INDEX.symm]
  unfold resolveTarget at hres
  unfold Command.checkout
  rw [hn]
  simp only [Bool.not_true, Bool.false_eq_true, if_false]
  by_cases c1 : file_exists w.repo (headPath name) = true
  · rw [if_pos c1] at hres ⊢
    simp only [Option.some.injEq, Prod.mk.injEq] at hres
    obtain ⟨h1, h2⟩ := hres
    rw [h1, ← h2]
    rw [checkoutTarget_throws T true _ target f h rest work1 hT (by rw [hobj]; exact hload)
      hfiles hf (by rw [hidx]; exact hrm)]
    simp only [if_true]
  · rw [if_neg c1] at hres ⊢
    by_cases c2 : file_exists w.repo (objPath name) = true
    · rw [if_pos c2] at hres ⊢
      simp only [Option.some.injEq, Prod.mk.injEq] at hres
      obtain ⟨h1, h2⟩ := hres
      rw [h1, ← h2]
      rw [checkoutTarget_throws T false _ target f h rest work1 hT (by rw [hobj]; exact hload)
        hfiles hf (by rw [hidx]; exact hrm)]
      simp only [Bool.false_eq_true, if_false, h1]
    · rw [if_neg c2] at hres
      exact absurd hres (by simp)

/-- Claim C10 fails in the code. Take a checkout of a plain name that resolves to the non-empty hash
`T` of an object that loads as `target`, with plain paths in the index, and let the first path of
the snapshot of `target` have no directory part (as every path staged from the working directory
itself has). Then `checkout` writes HEAD, removes the paths of the index from the working
directory and ends with the exception of `create_directories`: no file is written, and the index
file and every other file of `.minigit` are as before, so the index is the old one, not the
snapshot of `target`. -/
theorem checkout_top_level_throws (name : Str) (w : World) (T : Str) (is_branch : Bool)
    (target : Commit) (f h : Str) (rest : Map) (hn : plainName name = true)
    (hres : resolveTarget w.repo name = some (T, is_branch)) (hT : T ≠ [])
    (hload : Commit.deserialize (read_file w.repo (objPath T)) = some target)
    (hfiles : target.files = (f, h) :: rest) (hf : '/' ∉ f)
    (hidx : ∀ e ∈ Index.load (read_file w.repo INDEX_FILE), plainName e.1 = true) :
    (Command.checkout name w).2 = CheckoutOut.crashed ∧
    (Command.checkout name w).1.repo HEAD_FILE =
      some (if is_branch then "ref: refs/heads/".toList ++ name else name) ∧
    (∀ p, p ≠ HEAD_FILE → (Command.checkout name w).1.repo p = w.repo p) ∧
    Index.load (read_file (Command.checkout name w).1.repo INDEX_FILE) =
      Index.load (read_file w.repo INDEX_FILE) ∧
    (∀ p, (Command.checkout name w).1.work p =
      if mapFind (Index.load (read_file w.repo INDEX_FILE)) p ≠ none then none
      else w.work p) := by
  obtain ⟨work1, h1, h2⟩ := checkoutRemove_spec _ w.work hidx
  rw [checkout_throws name w T is_branch target f h rest work1 hn hres hT hload hfiles hf h1]
  refine ⟨rfl, ?_, ?_, ?_, h2⟩
  · simp only
    unfold update_head
    rw [write_same]
  · intro p hp
    simp only
    unfold update_head
    rw [write_other _ _ hp]
  · simp only
    unfold update_head read_file
    rw [write_other _ _ HEAD_ne_INDEX.symm]

set_option maxRecDepth 100000 in
/-- Witness for `checkout_top_level_throws`, the failing input of C10: after `init`, a commit of
`f` with content `A` and `branch feat`, the user changes `f` to `ZZ`, writes `g` and stages `g`;
then `checkout feat`, whose tip `hx 60` has the snapshot `f ↦ hx 1`. The program moves HEAD,
removes `g` and throws: the index still holds `g` and not the snapshot, and `f` holds `ZZ`, not
the content `A` of its blob. -/
theorem checkout_top_level_throws_witness :
    (Command.checkout "feat".toList
      (Command.add Hlen "g".toList (edit "g".toList "GG".toList
        (edit "f".toList "ZZ".toList (exBase "A".toList)))).1).2 = CheckoutOut.crashed ∧
    Index.load (read_file (Command.checkout "feat".toList
      (Command.add Hlen "g".toList (edit "g".toList "GG".toList
        (edit "f".toList "ZZ".toList (exBase "A".toList)))).1).1.repo INDEX_FILE) =
      [("g".toList, hx 2)] ∧
    (Command.checkout "feat".toList
      (Command.add Hlen "g".toList (edit "g".toList "GG".toList
        (edit "f".toList "ZZ".toList (exBase "A".toList)))).1).1.work "g".toList = none ∧
    (Command.checkout "feat".toList
      (Command.add Hlen "g".toList (edit "g".toList "GG".toList
        (edit "f".toList "ZZ".toList (exBase "A".toList)))).1).1.work "f".toList =
      some "ZZ".toList ∧
    read_file (exBase "A".toList).repo (objPath (hx 1)) = "A".toList ∧
    (Command.checkout "feat".toList
      (Command.add Hlen "g".toList (edit "g".toList "GG".toList
        (edit "f".toList "ZZ".toList (exBase "A".toList)))).1).1.repo HEAD_FILE =
      some "ref: refs/heads/feat".toList := by
  have h := checkout_top_level_throws "feat".toList
    (Command.add Hlen "g".toList (edit "g".toList "GG".toList
      (edit "f".toList "ZZ".toList (exBase "A".toList)))).1 (hx 60) true
    (exCommit "first".toList 1 [] [("f".toList, hx 1)]) "f".toList (hx 1) []
    (by decide) (by decide) (by decide) (by decide) rfl (by decide) (by decide)
  refine ⟨h.1, h.2.2.2.1.trans (by decide), (h.2.2.2.2 "g".toList).trans (by decide),
    (h.2.2.2.2 "f".toList).trans (by decide), by decide, h.2.1.trans (by decide)⟩

/-! ## The object store in reachable states -/

theorem storeOK_write_obj {H : Str → Nat} {repo : Files} (h : StoreOK H repo) (d : Str) :
    StoreOK H (write_file repo (objPath (calculate_hash H d)) d) := by
  intro k e he
  unfold write_file at he
  split_ifs at he with c
  · simp only [Option.some.injEq] at he
    rw [← he]
    exact objPath_inj c
  · exact h k e he

theorem storeOK_write_head {H : Str → Nat} {repo : Files} (h : StoreOK H repo) (b c : Str) :
    StoreOK H (write_file repo (headPath b) c) := by
  intro k e he
  rw [write_other _ _ (objPath_ne_headPath k b)] at he
  exact h k e he

theorem storeOK_write_HEAD {H : Str → Nat} {repo : Files} (h : StoreOK H repo) (c : Str) :
    StoreOK H (write_file repo HEAD_FILE c) := by
  intro k e he
  rw [write_other _ _ (objPath_ne_HEAD k)] at he
  exact h k e he

theorem storeOK_write_INDEX {H : Str → Nat} {repo : Files} (h : StoreOK H repo) (c : Str) :
    StoreOK H (write_file repo INDEX_FILE c) := by
  intro k e he
  rw [write_other _ _ (objPath_ne_INDEX k)] at he
  exact h k e he

theorem exists_write {repo : Files} {p : Str} (h : file_exists repo p = true) (q c : Str) :
    file_exists (write_file repo q c) p = true := by
  unfold file_exists write_file at *
  split_ifs
  · rfl
  · exact h

theorem mergeWrite_inv {H : Str → Nat} {w : World} (d : Str)
    (h : file_exists w.repo HEAD_FILE = true ∧ StoreOK H w.repo) :
    file_exists (mergeWrite w (calculate_hash H d) d).repo HEAD_FILE = true ∧
      StoreOK H (mergeWrite w (calculate_hash H d) d).repo := by
  unfold mergeWrite
  simp only
  split_ifs
  · exact ⟨exists_write (exists_write h.1 _ _) _ _,
      storeOK_write_head (storeOK_write_obj h.2 _) _ _⟩
  · exact ⟨exists_write (exists_write h.1 _ _) _ _,
      storeOK_write_HEAD (storeOK_write_obj h.2 _) _⟩

theorem add_eq (H : Str → Nat) (file : Str) (w : World)
    (h1 : file_exists w.repo HEAD_FILE = true) (hp : plainName file = true)
    (h2 : file_exists w.work file = true) :
    Command.add H file w =
      ({ w with
        repo := write_file
          (if (!file_exists w.repo (objPath (calculate_hash H (read_file w.work file)))) = true
            then write_file w.repo (objPath (calculate_hash H (read_file w.work file)))
              (read_file w.work file)
            else w.repo)
          INDEX_FILE
          (Index.save (mapAssign (Index.load (read_file
            (if (!file_exists w.repo (objPath (calculate_hash H (read_file w.work file)))) = true
              then write_file w.repo (objPath (calculate_hash H (read_file w.work file)))
                (read_file w.work file)
              else w.repo) INDEX_FILE)) (slashes file)
            (calculate_hash H (read_file w.work file)))) },
        AddOut.staged (slashes file)) := by
  unfold Command.add
  simp only [h1, hp, h2, Bool.not_true, Bool.false_eq_true, if_false]

/-- When `add` does not stage the file it returns the state it was given. -/
theorem add_unchanged (H : Str → Nat) (file : Str) (w : World)
    (h : ¬ (file_exists w.repo HEAD_FILE = true ∧ plainName file = true ∧
      file_exists w.work file = true)) :
    (Command.add H file w).1 = w := by
  unfold Command.add
  by_cases h1 : file_exists w.repo HEAD_FILE = true
  · by_cases hp : plainName file = true
    · by_cases h2 : file_exists w.work file = true
      · exact absurd ⟨h1, hp, h2⟩ h
      · simp [h1, hp, h2]
    · simp [h1, hp]
  · simp [h1]

theorem add_inv {H : Str → Nat} {w : World} (file : Str)
    (h : file_exists w.repo HEAD_FILE = true ∧ StoreOK H w.repo) :
    file_exists (Command.add H file w).1.repo HEAD_FILE = true ∧
      StoreOK H (Command.add H file w).1.repo := by
  by_cases c : file_exists w.repo HEAD_FILE = true ∧ plainName file = true ∧
      file_exists w.work file = true
  · rw [add_eq H file w c.1 c.2.1 c.2.2]
    simp only
    split_ifs
    · exact ⟨exists_write (exists_write h.1 _ _) _ _,
        storeOK_write_INDEX (storeOK_write_obj h.2 _) _⟩
    · exact ⟨exists_write h.1 _ _, storeOK_write_INDEX h.2 _⟩
  · rw [add_unchanged H file w c]; exact h

theorem commit_eq (H : Str → Nat) (now : Int) (message : Str) (w : World)
    (h : Index.load (read_file w.repo INDEX_FILE) ≠ []) :
    Command.commit H now message w =
      ({ w with
          repo := write_file
            (mergeWrite w (calculate_hash H (commitOf now message w.repo).serialize)
              (commitOf now message w.repo).serialize).repo
            INDEX_FILE (Index.save []) },
        CommitOut.committed (calculate_hash H (commitOf now message w.repo).serialize)) := by
  unfold Command.commit
  simp only
  rw [if_neg h]
  rfl

theorem commit_inv {H : Str → Nat} {w : World} (now : Int) (message : Str)
    (h : file_exists w.repo HEAD_FILE = true ∧ StoreOK H w.repo) :
    file_exists (Command.commit H now message w).1.repo HEAD_FILE = true ∧
      StoreOK H (Command.commit H now message w).1.repo := by
  by_cases c : Index.load (read_file w.repo INDEX_FILE) = []
  · have : Command.commit H now message w = (w, CommitOut.nothingToCommit) := by
      unfold Command.commit
      simp only
      rw [if_pos c]
    rw [this]; exact h
  · rw [commit_eq H now message w c]
    have := mergeWrite_inv (H := H) (w := w) (commitOf now message w.repo).serialize h
    exact ⟨exists_write this.1 _ _, storeOK_write_INDEX this.2 _⟩

theorem branch_inv {H : Str → Nat} {w : World} (name : Str)
    (h : file_exists w.repo HEAD_FILE = true ∧ StoreOK H w.repo) :
    file_exists (Command.branch name w).1.repo HEAD_FILE = true ∧
      StoreOK H (Command.branch name w).1.repo := by
  unfold Command.branch
  split_ifs
  · exact h
  · exact h
  · exact ⟨exists_write h.1 _ _, storeOK_write_head h.2 _ _⟩
  · exact h
  · exact h
  · exact h
  · exact h

/-- What `checkout` from the test of the target hash on leaves in `.minigit`: the files it was
given, or those with a new index file. -/
theorem checkoutTarget_repo (T : Str) (b : Bool) (w : World) :
    (Command.checkoutTarget T b w).1.repo = w.repo ∨
    ∃ x, (Command.checkoutTarget T b w).1.repo = write_file w.repo INDEX_FILE x := by
  unfold Command.checkoutTarget
  split_ifs
  · exact Or.inl rfl
  · cases Commit.deserialize (read_file w.repo (objPath T)) with
    | none => exact Or.inl rfl
    | some target =>
      simp only
      cases checkoutRemove (Index.load (read_file w.repo INDEX_FILE)) w.work with
      | none => exact Or.inl rfl
      | some work1 =>
        simp only
        cases checkoutWrite w.repo target.files work1 with
        | outside => exact Or.inl rfl
        | throws work2 => exact Or.inl rfl
        | done work2 => exact Or.inr ⟨_, rfl⟩

theorem checkoutTarget_inv {H : Str → Nat} {w : World} (T : Str) (b : Bool)
    (h : file_exists w.repo HEAD_FILE = true ∧ StoreOK H w.repo) :
    file_exists (Command.checkoutTarget T b w).1.repo HEAD_FILE = true ∧
      StoreOK H (Command.checkoutTarget T b w).1.repo := by
  rcases checkoutTarget_repo T b w with e | ⟨x, e⟩
  · rw [e]; exact h
  · rw [e]; exact ⟨exists_write h.1 _ _, storeOK_write_INDEX h.2 _⟩

theorem checkout_inv {H : Str → Nat} {w : World} (name : Str)
    (h : file_exists w.repo HEAD_FILE = true ∧ StoreOK H w.repo) :
    file_exists (Command.checkout name w).1.repo HEAD_FILE = true ∧
      StoreOK H (Command.checkout name w).1.repo := by
  unfold Command.checkout
  split_ifs
  · exact h
  · exact checkoutTarget_inv _ _ ⟨exists_write h.1 _ _, storeOK_write_HEAD h.2 _⟩
  · exact checkoutTarget_inv _ _ ⟨exists_write h.1 _ _, storeOK_write_HEAD h.2 _⟩
  · exact h

theorem merge_inv {H : Str → Nat} {w : World} (now : Int) (fuel : Nat) (name : Str)
    (h : file_exists w.repo HEAD_FILE = true ∧ StoreOK H w.repo) :
    file_exists (Command.merge H now fuel name w).1.repo HEAD_FILE = true ∧
      StoreOK H (Command.merge H now fuel name w).1.repo := by
  unfold Command.merge
  by_cases h1 : (!file_exists w.repo (headPath name)) = true
  · rw [if_pos h1]; exact h
  · rw [if_neg h1]
    simp only
    by_cases h2 : get_head_hash w.repo = read_file w.repo (headPath name)
    · rw [if_pos h2]; exact h
    · rw [if_neg h2]
      cases Command.find_lca fuel w.repo (get_head_hash w.repo)
          (read_file w.repo (headPath name)) with
      | fuel => exact h
      | err => exact h
      | ok l =>
        simp only
        by_cases h3 : l = get_head_hash w.repo
        · rw [if_pos h3]
          exact checkout_inv _ h
        · rw [if_neg h3]
          by_cases h4 : l = read_file w.repo (headPath name)
          · rw [if_pos h4]; exact h
          · rw [if_neg h4]
            split
            · rename_i lca current other _ _ _
              by_cases h5 : (mergeFiles lca.files current.files other.files).2 ≠ []
              · rw [if_pos h5]; exact h
              · rw [if_neg h5]
                exact mergeWrite_inv _ h
            · exact h

/-- In every reachable state HEAD exists and every object is stored under the digest of its
content. -/
theorem reachable_inv {H : Str → Nat} {w : World} (h : Reachable H w) :
    file_exists w.repo HEAD_FILE = true ∧ StoreOK H w.repo := by
  induction h with
  | init w hd he =>
    unfold Command.init
    rw [hd]
    simp only [Bool.false_eq_true, if_false]
    refine ⟨?_, ?_⟩
    · unfold file_exists
      rw [write_other _ _ HEAD_ne_INDEX, write_other _ _ (headPath_ne_HEAD _).symm, write_same]
      rfl
    · intro k d hk
      rw [write_other _ _ (objPath_ne_INDEX k), write_other _ _ (objPath_ne_headPath k _),
        write_other _ _ (objPath_ne_HEAD k), he] at hk
      exact absurd hk (by simp)
  | edit w work _ ih => exact ih
  | add w file _ _ ih => exact add_inv file ih
  | commit w now message _ ih => exact commit_inv now message ih
  | branch w name _ _ ih => exact branch_inv name ih
  | checkout w name _ _ _ ih => exact checkout_inv name ih
  | merge w now fuel name _ _ _ ih => exact merge_inv now fuel name ih

theorem plainChar_ne_backslash {c : Char} (h : plainChar c = true) : c ≠ '\\' := by
  unfold plainChar at h
  simp only [Bool.and_eq_true, bne_iff_ne, ne_eq] at h
  exact h.2

theorem plainName_all {s : Str} (h : plainName s = true) : ∀ c ∈ s, plainChar c = true := by
  unfold plainName at h
  simp only [Bool.and_eq_true, List.all_eq_true] at h
  exact h.1.1.1.2

/-- A plain name has no backslash, so the replacement of backslashes leaves it as it is. -/
theorem slashes_plain {s : Str} (h : plainName s = true) : slashes s = s := by
  have hall := plainName_all h
  unfold slashes
  have : ∀ (l : Str), (∀ c ∈ l, plainChar c = true) →
      l.map (fun c => if c = '\\' then '/' else c) = l := by
    intro l
    induction l with
    | nil => intro _; rfl
    | cons a as ih =>
      intro hl
      rw [List.map_cons, ih (fun c hc => hl c (List.mem_cons_of_mem _ hc)),
        if_neg (plainChar_ne_backslash (hl a (List.mem_cons_self _ _)))]
  exact this s hall

set_option maxRecDepth 100000 in
/-- The example `exBase` is a reachable state. -/
theorem exBase_reachable : Reachable Hlen (exBase "A".toList) :=
  Reachable.branch _ _
    (Reachable.commit _ 1 _
      (Reachable.add _ _ (Reachable.edit _ _ (Reachable.init fresh rfl (fun _ => rfl)))
        (by decide)))
    (by decide)

theorem hexDigit_not_space : ∀ d, d < 16 → isspace (hexDigit d) = false := by decide

theorem hexN_no_space (w : Nat) : ∀ (v : Nat), ∀ c ∈ hexN w v, isspace c = false := by
  induction w with
  | zero => intro v c hc; simp [hexN] at hc
  | succ n ih =>
    intro v c hc
    rw [hexN] at hc
    rcases List.mem_append.1 hc with hc | hc
    · exact ih _ c hc
    · rw [List.mem_singleton.1 hc]
      exact hexDigit_not_space _ (Nat.mod_lt _ (by decide))

theorem hexN_length (w v : Nat) : (hexN w v).length = w := by
  induction w generalizing v with
  | zero => rfl
  | succ n ih => simp [hexN, ih]

theorem calculate_hash_token (H : Str → Nat) (c : Str) : IsToken (calculate_hash H c) := by
  unfold calculate_hash
  refine ⟨?_, ?_⟩
  · intro e
    have := congrArg List.length e
    simp [hexN_length] at this
  · intro ch hch
    rcases List.mem_append.1 hch with h | h
    · exact hexN_no_space _ _ _ h
    · exact hexN_no_space _ _ _ h

theorem calculate_hash_ne_nil (H : Str → Nat) (c : Str) : calculate_hash H c ≠ [] :=
  (calculate_hash_token H c).1

theorem mergeWrite_obj (w : World) (h d k : Str) :
    (mergeWrite w h d).repo (objPath k) = if k = h then some d else w.repo (objPath k) := by
  unfold mergeWrite
  simp only
  split_ifs with c1 c2 c2
  · unfold update_branch
    rw [c2, write_other _ _ (objPath_ne_headPath _ _), write_same]
  · unfold update_branch
    rw [write_other _ _ (objPath_ne_headPath _ _), write_other _ _ (fun e => c2 (objPath_inj e))]
  · unfold update_head
    rw [c2, write_other _ _ (objPath_ne_HEAD _), write_same]
  · unfold update_head
    rw [write_other _ _ (objPath_ne_HEAD _), write_other _ _ (fun e => c2 (objPath_inj e))]

theorem mapAssign_length (m : Map) (k v : Str) : (mapAssign m k v).length ≤ m.length + 1 := by
  induction m with
  | nil => simp [mapAssign]
  | cons e tl ih =>
    obtain ⟨k0, v0⟩ := e
    simp only [mapAssign]
    split_ifs
    · simp
    · simp
    · simp only [List.length_cons]
      omega

theorem filter_tokenMap {m : Map} (hm : TokenMap m) :
    m.filter (fun e => decide (e.2 ≠ [])) = m := by
  apply List.filter_eq_self.2
  intro e he
  simpa using (hm e he).2.1

theorem tokenMap_entries {m : Map} (hm : TokenMap m) :
    ∀ e ∈ m, IsToken e.1 ∧ ∀ c ∈ e.2, isspace c = false :=
  fun e he => ⟨(hm e he).1, (hm e he).2.2⟩

theorem tokenMap_assign {m : Map} (hm : TokenMap m) {k v : Str} (hk : IsToken k) (hv : IsToken v) :
    TokenMap (mapAssign m k v) := by
  intro e he
  rcases mem_mapAssign he with he | he
  · rw [he]; exact ⟨hk, hv⟩
  · exact hm e he

set_option maxRecDepth 100000 in
/-- Claim C9 fails in the code, at the round trip of the claim itself. In `exClean` the earlier commit
`E = hx 60` has the snapshot `f`, and the working files are `f`, `a` (content `xx`) and `b`
(content `yyy`). The files `a` and `b` are staged and committed as `C = hx 131`, then `E` is
checked out and then `C`. Both checkouts move HEAD and end with the exception of
`create_directories`, since the first path of either snapshot has no directory part. Afterwards
the index is empty, not the snapshot `a`, `b` of `C`, and the file `f` of the snapshot of `E` is
still in the working directory. -/
theorem checkout_round_trip_fails :
    rtHash Hlen 2 "C".toList "a".toList "b".toList exClean = hx 131 ∧
    (Commit.deserialize (read_file
      (rtCommitted Hlen 2 "C".toList "a".toList "b".toList exClean).repo
      (objPath (hx 131)))).map Commit.files = some [("a".toList, hx 2), ("b".toList, hx 3)] ∧
    (Commit.deserialize (read_file exClean.repo (objPath (hx 60)))).map Commit.files =
      some [("f".toList, hx 1)] ∧
    (Command.checkout (hx 60)
      (rtCommitted Hlen 2 "C".toList "a".toList "b".toList exClean)).2 = CheckoutOut.crashed ∧
    (Command.checkout (hx 131) (Command.checkout (hx 60)
      (rtCommitted Hlen 2 "C".toList "a".toList "b".toList exClean)).1).2 =
      CheckoutOut.crashed ∧
    Index.load (read_file
      (rtFinal Hlen 2 "C".toList "a".toList "b".toList (hx 60) (hx 131) exClean).repo
      INDEX_FILE) = [] ∧
    (rtFinal Hlen 2 "C".toList "a".toList "b".toList (hx 60) (hx 131) exClean).work "f".toList =
      some "A".toList ∧
    (rtFinal Hlen 2 "C".toList "a".toList "b".toList (hx 60) (hx 131) exClean).work "a".toList =
      some "xx".toList ∧
    (rtFinal Hlen 2 "C".toList "a".toList "b".toList (hx 60) (hx 131) exClean).work "b".toList =
      some "yyy".toList ∧
    (rtFinal Hlen 2 "C".toList "a".toList "b".toList (hx 60) (hx 131) exClean).repo HEAD_FILE =
      some (hx 131) := by
  decide

/-! ## Where HEAD points after a merge commit -/

theorem takeWhile_append_stop {α : Type} (p : α → Bool) (l1 : List α) (x : α) (l2 : List α)
    (h1 : ∀ a ∈ l1, p a = true) (hx : p x = false) :
    (l1 ++ x :: l2).takeWhile p = l1 := by
  induction l1 with
  | nil => rw [List.nil_append, List.takeWhile_cons, hx]; rfl
  | cons a as ih =>
    have ha : p a = true := h1 a (List.mem_cons_self _ _)
    rw [List.cons_append, List.takeWhile_cons, ha, if_pos rfl,
      ih (fun b hb => h1 b (List.mem_cons_of_mem _ hb))]

theorem filename_headPath {b : Str} (hb : '/' ∉ b) : filename (headPath b) = b := by
  unfold filename headPath
  have e : ("refs/heads/".toList ++ b).reverse =
      b.reverse ++ '/' :: "refs/heads".toList.reverse := by
    rw [List.reverse_append]
    rfl
  rw [e, takeWhile_append_stop _ _ _ _ _ (by decide), List.reverse_reverse]
  intro a ha
  have : a ≠ '/' := fun e => hb (e ▸ List.mem_reverse.1 ha)
  simpa using this

theorem hexDigit_ne_r : ∀ d, d < 16 → hexDigit d ≠ 'r' := by decide

theorem hexN_ne_r (w : Nat) : ∀ (v : Nat), ∀ c ∈ hexN w v, c ≠ 'r' := by
  induction w with
  | zero => intro v c hc; simp [hexN] at hc
  | succ n ih =>
    intro v c hc
    rw [hexN] at hc
    rcases List.mem_append.1 hc with hc | hc
    · exact ih _ c hc
    · rw [List.mem_singleton.1 hc]
      exact hexDigit_ne_r _ (Nat.mod_lt _ (by decide))

theorem calculate_hash_not_ref (H : Str → Nat) (d : Str) :
    startsWith (calculate_hash H d) "ref: ".toList = false := by
  cases e : calculate_hash H d with
  | nil => rfl
  | cons c cs =>
    have hc : c ∈ calculate_hash H d := by rw [e]; exact List.mem_cons_self _ _
    have hne : c ≠ 'r' := by
      unfold calculate_hash at hc
      rcases List.mem_append.1 hc with h | h
      · exact hexN_ne_r _ _ _ h
      · exact hexN_ne_r _ _ _ h
    have : (c == 'r') = false := by simpa using hne
    show (c == 'r' && startsWith cs "ef: ".toList) = false
    rw [this]
    rfl

/-- After the commit object is written and the pointer moved, HEAD resolves to the new digest:
for HEAD naming a branch whose name has no slash, and for a detached HEAD. -/
theorem mergeWrite_head (H : Str → Nat) (w : World) (d : Str) :
    (∀ b, read_file w.repo HEAD_FILE = "ref: refs/heads/".toList ++ b → b ≠ [] → '/' ∉ b →
      get_head_hash (mergeWrite w (calculate_hash H d) d).repo = calculate_hash H d) ∧
    (startsWith (read_file w.repo HEAD_FILE) "ref: ".toList = false →
      get_head_hash (mergeWrite w (calculate_hash H d) d).repo = calculate_hash H d) := by
  constructor
  · intro b hb hne hs
    have hsw : startsWith (read_file w.repo HEAD_FILE) "ref: ".toList = true := by
      rw [hb]
      exact startsWith_append "ref: ".toList (headPath b)
    have hdrop : (read_file w.repo HEAD_FILE).drop 5 = headPath b := by
      rw [hb]
      rfl
    have hcb : current_branch w.repo = b := by
      unfold current_branch
      rw [if_pos hsw, hdrop, filename_headPath hs]
    unfold mergeWrite
    simp only
    rw [current_branch_write_obj, hcb, if_pos hne]
    unfold get_head_hash update_branch
    rw [read_write, if_neg (headPath_ne_HEAD b).symm, read_write,
      if_neg (objPath_ne_HEAD _).symm, if_pos hsw, hdrop, read_write, if_pos rfl]
  · intro hs
    have hcb : current_branch w.repo = [] := by
      unfold current_branch
      rw [hs]
      rfl
    unfold mergeWrite
    simp only
    rw [current_branch_write_obj, hcb]
    simp only [ne_eq, not_true_eq_false, if_false]
    unfold get_head_hash update_head
    rw [read_write, if_pos rfl, calculate_hash_not_ref]
    rfl

/-- C7. A three-way merge of `branch_name` without conflicting path creates one object: the
serialization of the commit with parents `[ours, theirs]`, message `Merge branch 'branch_name'` and
the merged map as snapshot, stored under the digest of that serialization; no other object
changes; the file of the current branch, or HEAD when no branch is current, then holds that
digest, and HEAD resolves to it (for a branch name without slash, and for a detached HEAD). -/
theorem merge_creates_commit (H : Str → Nat) (now : Int) (fuel : Nat) (w : World)
    (branch_name lca_hash : Str) (lca current other : Commit)
    (h : ThreeWay fuel w branch_name lca_hash lca current other)
    (hc : (mergeFiles lca.files current.files other.files).2 = []) :
    ∃ (w1 : World) (c : Commit), Command.merge H now fuel branch_name w =
        (w1, MergeOut.merged (calculate_hash H c.serialize)) ∧
      c.parents = [get_head_hash w.repo, read_file w.repo (headPath branch_name)] ∧
      c.message = "Merge branch '".toList ++ branch_name ++ "'".toList ∧
      c.files = (mergeFiles lca.files current.files other.files).1 ∧
      c.timestamp = now ∧
      w1.repo (objPath (calculate_hash H c.serialize)) = some c.serialize ∧
      (∀ k, k ≠ calculate_hash H c.serialize → w1.repo (objPath k) = w.repo (objPath k)) ∧
      (current_branch w.repo ≠ [] →
        w1.repo (headPath (current_branch w.repo)) = some (calculate_hash H c.serialize) ∧
        w1.repo HEAD_FILE = w.repo HEAD_FILE) ∧
      (current_branch w.repo = [] → w1.repo HEAD_FILE = some (calculate_hash H c.serialize)) ∧
      (∀ b, read_file w.repo HEAD_FILE = "ref: refs/heads/".toList ++ b → b ≠ [] → '/' ∉ b →
        get_head_hash w1.repo = calculate_hash H c.serialize) ∧
      (startsWith (read_file w.repo HEAD_FILE) "ref: ".toList = false →
        get_head_hash w1.repo = calculate_hash H c.serialize) := by
  refine ⟨_, mergeCommit now branch_name (get_head_hash w.repo)
    (read_file w.repo (headPath branch_name)) (mergeFiles lca.files current.files other.files).1,
    merge_threeWay_clean H now h hc, rfl, rfl, rfl, rfl, ?_, ?_, ?_, ?_,
    (mergeWrite_head H w _).1, (mergeWrite_head H w _).2⟩
  · rw [mergeWrite_obj, if_pos rfl]
  · intro k hk
    rw [mergeWrite_obj, if_neg hk]
  · intro hb
    unfold mergeWrite
    simp only
    rw [current_branch_write_obj, if_pos hb]
    unfold update_branch
    rw [write_same, write_other _ _ (headPath_ne_HEAD _).symm,
      write_other _ _ (objPath_ne_HEAD _).symm]
    exact ⟨rfl, rfl⟩
  · intro hb
    unfold mergeWrite
    simp only
    rw [current_branch_write_obj, if_neg (fun hne => hne hb)]
    unfold update_head
    rw [write_same]

set_option maxRecDepth 100000 in
/-- Witness for C7: the clean merge of `feat` in `exDiverged A A BB`, with HEAD on `main`. -/
theorem merge_creates_commit_witness :
    ∃ (w1 : World), Command.merge Hlen 5 10 "feat".toList
        (exDiverged "A".toList "A".toList "BB".toList) = (w1, MergeOut.merged (hx 154)) ∧
      w1.repo (objPath (hx 154)) =
        some ("tree 1\nf ".toList ++ hx 2 ++ "\nparent ".toList ++ hx 99 ++ "\nparent ".toList ++
          hx 101 ++ "\ntimestamp 5\n\nMerge branch 'feat'".toList) ∧
      w1.repo (headPath "main".toList) = some (hx 154) ∧
      get_head_hash w1.repo = hx 154 := by
  obtain ⟨w1, c, h1, h2, h3, h4, h5, h6, -, h8, -, h10, -⟩ :=
    merge_creates_commit Hlen 5 10 (exDiverged "A".toList "A".toList "BB".toList) "feat".toList
      (hx 60) (exCommit "first".toList 1 [] [("f".toList, hx 1)])
      (exCommit "ours".toList 2 [hx 60] [("f".toList, hx 1)])
      (exCommit "theirs".toList 3 [hx 60] [("f".toList, hx 2)])
      (by decide) (by decide)
  have hc : c = exCommit "Merge branch 'feat'".toList 5 [hx 99, hx 101] [("f".toList, hx 2)] := by
    cases c
    simp only [exCommit, Commit.mk.injEq]
    simp only at h2 h3 h4 h5
    refine ⟨h3.trans (by decide), h2.trans (by decide), h4.trans (by decide), h5⟩
  subst hc
  have hh : calculate_hash Hlen
      (exCommit "Merge branch 'feat'".toList 5 [hx 99, hx 101] [("f".toList, hx 2)]).serialize
      = hx 154 := by decide
  rw [hh] at h1 h6 h8 h10
  refine ⟨w1, h1, ?_, ?_, ?_⟩
  · rw [h6]
    decide
  · have := (h8 (by decide)).1
    rw [show current_branch (exDiverged "A".toList "A".toList "BB".toList).repo = "main".toList
      by decide] at this
    exact this
  · exact h10 "main".toList (by decide) (by decide) (by decide)

/-! ## Diff -/

theorem mem_diffFiles {files1 files2 : Map} {p : Str} :
    p ∈ diffFiles files1 files2 ↔ mapFind files1 p ≠ none ∨ mapFind files2 p ≠ none := by
  unfold diffFiles
  rw [mem_foldl_setInsert, mem_foldl_setInsert, mapFind_ne_none_iff, mapFind_ne_none_iff]
  simp only [List.not_mem_nil, false_or]

theorem diffFiles_sorted (files1 files2 : Map) : SetSorted (diffFiles files1 files2) := by
  unfold diffFiles
  exact foldl_setInsert_sorted _ _ (foldl_setInsert_sorted _ _ List.Pairwise.nil)

theorem diffLine_some {files1 files2 : Map} {file p : Str} {k : ChangeKind}
    (h : diffLine files1 files2 file = some (p, k)) :
    p = file ∧
      ((k = ChangeKind.added ∧ mapFind files1 p = none) ∨
       (k = ChangeKind.removed ∧ mapFind files1 p ≠ none ∧ mapFind files2 p = none) ∨
       (k = ChangeKind.modified ∧ mapFind files1 p ≠ none ∧ mapFind files2 p ≠ none ∧
          mapFind files1 p ≠ mapFind files2 p)) := by
  unfold diffLine at h
  split_ifs at h with c1 c2 c3
  · simp only [Option.some.injEq, Prod.mk.injEq] at h
    obtain ⟨rfl, rfl⟩ := h
    exact ⟨rfl, Or.inl ⟨rfl, c1⟩⟩
  · simp only [Option.some.injEq, Prod.mk.injEq] at h
    obtain ⟨rfl, rfl⟩ := h
    exact ⟨rfl, Or.inr (Or.inl ⟨rfl, c1, c2⟩)⟩
  · simp only [Option.some.injEq, Prod.mk.injEq] at h
    obtain ⟨rfl, rfl⟩ := h
    exact ⟨rfl, Or.inr (Or.inr ⟨rfl, c1, c2, c3⟩)⟩

/-- C11. For commits that load as `c1` and `c2`, `diff` prints its lines in strictly ascending
path order (so at most one line per path), and the line `(p, kind)` is printed exactly when `p` is
absent in `c1` and present in `c2` (Added), present in `c1` and absent in `c2` (Removed), or
present in both with different hashes (Modified). Hence nothing is printed for equal snapshots,
and for disjoint path sets every path of `c2` is Added and every path of `c1` is Removed. -/
theorem diff_spec (repo : Files) (commit1 commit2 : Str) (c1 c2 : Commit)
    (h1 : loadCommit repo commit1 = some c1) (h2 : loadCommit repo commit2 = some c2) :
    ∃ out, Command.diff repo commit1 commit2 = some out ∧
      out.Pairwise (fun x y => strLt x.1 y.1 = true) ∧
      (∀ p k, (p, k) ∈ out ↔
        ((k = ChangeKind.added ∧ mapFind c1.files p = none ∧ mapFind c2.files p ≠ none) ∨
         (k = ChangeKind.removed ∧ mapFind c1.files p ≠ none ∧ mapFind c2.files p = none) ∨
         (k = ChangeKind.modified ∧ mapFind c1.files p ≠ none ∧ mapFind c2.files p ≠ none ∧
            mapFind c1.files p ≠ mapFind c2.files p))) ∧
      (c1.files = c2.files → out = []) ∧
      ((∀ p, mapFind c1.files p = none ∨ mapFind c2.files p = none) →
        ∀ p, (mapFind c2.files p ≠ none → (p, ChangeKind.added) ∈ out) ∧
          (mapFind c1.files p ≠ none → (p, ChangeKind.removed) ∈ out)) := by
  have hmem : ∀ p k, (p, k) ∈ (diffFiles c1.files c2.files).filterMap
      (diffLine c1.files c2.files) ↔
      ((k = ChangeKind.added ∧ mapFind c1.files p = none ∧ mapFind c2.files p ≠ none) ∨
       (k = ChangeKind.removed ∧ mapFind c1.files p ≠ none ∧ mapFind c2.files p = none) ∨
       (k = ChangeKind.modified ∧ mapFind c1.files p ≠ none ∧ mapFind c2.files p ≠ none ∧
          mapFind c1.files p ≠ mapFind c2.files p)) := by
    intro p k
    rw [List.mem_filterMap]
    constructor
    · rintro ⟨f, hf, hl⟩
      obtain ⟨rfl, hk⟩ := diffLine_some hl
      rcases hk with ⟨rfl, ha⟩ | hk | hk
      · refine Or.inl ⟨rfl, ha, ?_⟩
        rcases mem_diffFiles.1 hf with h | h
        · exact absurd ha h
        · exact h
      · exact Or.inr (Or.inl hk)
      · exact Or.inr (Or.inr hk)
    · intro hk
      refine ⟨p, ?_, ?_⟩
      · rcases hk with ⟨-, -, h⟩ | ⟨-, h, -⟩ | ⟨-, h, -⟩
        · exact mem_diffFiles.2 (Or.inr h)
        · exact mem_diffFiles.2 (Or.inl h)
        · exact mem_diffFiles.2 (Or.inl h)
      · unfold diffLine
        rcases hk with ⟨rfl, ha, -⟩ | ⟨rfl, ha, hb⟩ | ⟨rfl, ha, hb, hc⟩
        · rw [if_pos ha]
        · rw [if_neg ha, if_pos hb]
        · rw [if_neg ha, if_neg hb, if_pos hc]
  refine ⟨_, ?_, ?_, hmem, ?_, ?_⟩
  · unfold Command.diff
    rw [h1, h2]
  · have hs := diffFiles_sorted c1.files c2.files
    unfold SetSorted at hs
    refine List.Pairwise.filterMap _ ?_ hs
    intro a a' haa b hb b' hb'
    obtain ⟨bp, bk⟩ := b
    obtain ⟨bp', bk'⟩ := b'
    rw [(diffLine_some (Option.mem_def.1 hb)).1, (diffLine_some (Option.mem_def.1 hb')).1]
    exact haa
  · intro he
    apply List.eq_nil_iff_forall_not_mem.2
    rintro ⟨p, k⟩ hpk
    rcases (hmem p k).1 hpk with ⟨-, ha, hb⟩ | ⟨-, ha, hb⟩ | ⟨-, -, -, hc⟩
    · rw [he] at ha; exact hb ha
    · rw [he] at ha; exact ha hb
    · rw [he] at hc; exact hc rfl
  · intro hd p
    constructor
    · intro hp
      rcases hd p with h | h
      · exact (hmem p _).2 (Or.inl ⟨rfl, h, hp⟩)
      · exact absurd h hp
    · intro hp
      rcases hd p with h | h
      · exact absurd h hp
      · exact (hmem p _).2 (Or.inr (Or.inl ⟨rfl, hp, h⟩))

set_option maxRecDepth 100000 in
/-- Witness for C11: in `exDeleted`, from the tip `hx 99` of `main` (snapshot `f`) to the tip
`hx 101` of `feat` (snapshot `g`). -/
theorem diff_spec_witness :
    ∃ out, Command.diff exDeleted.repo (hx 99) (hx 101) = some out ∧
      out.Pairwise (fun x y => strLt x.1 y.1 = true) ∧
      (∀ p k, (p, k) ∈ out ↔
        ((k = ChangeKind.added ∧ mapFind [("f".toList, hx 1)] p = none ∧
            mapFind [("g".toList, hx 2)] p ≠ none) ∨
         (k = ChangeKind.removed ∧ mapFind [("f".toList, hx 1)] p ≠ none ∧
            mapFind [("g".toList, hx 2)] p = none) ∨
         (k = ChangeKind.modified ∧ mapFind [("f".toList, hx 1)] p ≠ none ∧
            mapFind [("g".toList, hx 2)] p ≠ none ∧
            mapFind [("f".toList, hx 1)] p ≠ mapFind [("g".toList, hx 2)] p))) ∧
      ([("f".toList, hx 1)] = [("g".toList, hx 2)] → out = []) ∧
      ((∀ p, mapFind [("f".toList, hx 1)] p = none ∨ mapFind [("g".toList, hx 2)] p = none) →
        ∀ p, (mapFind [("g".toList, hx 2)] p ≠ none → (p, ChangeKind.added) ∈ out) ∧
          (mapFind [("f".toList, hx 1)] p ≠ none → (p, ChangeKind.removed) ∈ out)) :=
  diff_spec exDeleted.repo (hx 99) (hx 101)
    (exCommit "ours".toList 2 [hx 60] [("f".toList, hx 1)])
    (exCommit "theirs".toList 4 [hx 134] [("g".toList, hx 2)]) (by decide) (by decide)

/-! ## Commit -/

theorem loadLine_inv {entries : Map} (line : Str) (h : MapSorted entries ∧ TokenMap entries) :
    MapSorted (Index.loadLine entries line) ∧ TokenMap (Index.loadLine entries line) := by
  unfold Index.loadLine
  split_ifs with c
  · refine ⟨mapAssign_sorted _ _ h.1, ?_⟩
    intro e he
    rcases mem_mapAssign he with he | he
    · rw [he]
      exact ⟨(extract2_token c).2, (extract2_token c).1⟩
    · exact h.2 e he
  · exact h

theorem foldl_loadLine_inv (ls : List Str) : ∀ (entries : Map),
    MapSorted entries ∧ TokenMap entries →
    MapSorted (ls.foldl Index.loadLine entries) ∧ TokenMap (ls.foldl Index.loadLine entries) := by
  induction ls with
  | nil => intro entries h; exact h
  | cons l tl ih => intro entries h; exact ih _ (loadLine_inv l h)

/-- Whatever `Index::load` reads is a map of words in ascending key order. -/
theorem load_inv (text : Str) : MapSorted (Index.load text) ∧ TokenMap (Index.load text) :=
  foldl_loadLine_inv _ _ ⟨List.Pairwise.nil, fun e he => by simp at he⟩

theorem get_head_hash_write_index_ref (r : Files) (b x : Str)
    (hb : read_file r HEAD_FILE = "ref: refs/heads/".toList ++ b) :
    get_head_hash (write_file r INDEX_FILE x) = get_head_hash r := by
  have hsw : startsWith (read_file r HEAD_FILE) "ref: ".toList = true := by
    rw [hb]
    exact startsWith_append "ref: ".toList (headPath b)
  have hdrop : (read_file r HEAD_FILE).drop 5 = headPath b := by
    rw [hb]
    rfl
  unfold get_head_hash
  rw [read_write, if_neg HEAD_ne_INDEX, if_pos hsw, if_pos hsw, hdrop, read_write,
    if_neg (headPath_ne_INDEX b)]

theorem get_head_hash_write_index_raw (r : Files) (x : Str)
    (hs : startsWith (read_file r HEAD_FILE) "ref: ".toList = false) :
    get_head_hash (write_file r INDEX_FILE x) = get_head_hash r := by
  unfold get_head_hash
  rw [read_write, if_neg HEAD_ne_INDEX, hs]
  rfl

theorem current_branch_ref {repo : Files} {b : Str}
    (hb : read_file repo HEAD_FILE = "ref: refs/heads/".toList ++ b) (hs : '/' ∉ b) :
    current_branch repo = b := by
  have hsw : startsWith (read_file repo HEAD_FILE) "ref: ".toList = true := by
    rw [hb]
    exact startsWith_append "ref: ".toList (headPath b)
  have hdrop : (read_file repo HEAD_FILE).drop 5 = headPath b := by
    rw [hb]
    rfl
  unfold current_branch
  rw [if_pos hsw, hdrop, filename_headPath hs]

theorem current_branch_raw {repo : Files}
    (hs : startsWith (read_file repo HEAD_FILE) "ref: ".toList = false) :
    current_branch repo = [] := by
  unfold current_branch
  rw [hs]
  rfl

theorem mergeWrite_branch (w : World) (h d : Str) (hb : current_branch w.repo ≠ []) :
    (mergeWrite w h d).repo =
      write_file (write_file w.repo (objPath h) d) (headPath (current_branch w.repo)) h := by
  unfold mergeWrite
  simp only
  rw [current_branch_write_obj, if_pos hb]
  rfl

theorem mergeWrite_detached (w : World) (h d : Str) (hb : current_branch w.repo = []) :
    (mergeWrite w h d).repo = write_file (write_file w.repo (objPath h) d) HEAD_FILE h := by
  unfold mergeWrite
  simp only
  rw [current_branch_write_obj, if_neg (fun hne => hne hb)]
  rfl

/-- C12. `commit` creates a commit exactly when the index is not empty. With an empty index it
reports "Nothing to commit." and returns the state unchanged. Otherwise it stores, under the
digest of its serialization, the commit whose snapshot is the index, whose parents are the
current commit (none when there is none), with the given message and clock reading; the file of
the current branch, or HEAD when no branch is current, then holds the digest and HEAD resolves
to it; the index is empty afterwards; no other object and no working file changes; and the
stored text loads back as that commit. -/
theorem commit_spec (H : Str → Nat) (now : Int) (message : Str) (w : World) :
    (Index.load (read_file w.repo INDEX_FILE) = [] →
      Command.commit H now message w = (w, CommitOut.nothingToCommit)) ∧
    (Index.load (read_file w.repo INDEX_FILE) ≠ [] →
      ∃ (w1 : World) (c : Commit),
        Command.commit H now message w = (w1, CommitOut.committed (calculate_hash H c.serialize)) ∧
        c.files = Index.load (read_file w.repo INDEX_FILE) ∧
        c.parents = (if get_head_hash w.repo = [] then [] else [get_head_hash w.repo]) ∧
        c.message = message ∧ c.timestamp = now ∧
        w1.repo (objPath (calculate_hash H c.serialize)) = some c.serialize ∧
        (∀ k, k ≠ calculate_hash H c.serialize → w1.repo (objPath k) = w.repo (objPath k)) ∧
        (current_branch w.repo ≠ [] →
          w1.repo (headPath (current_branch w.repo)) = some (calculate_hash H c.serialize) ∧
          w1.repo HEAD_FILE = w.repo HEAD_FILE) ∧
        (current_branch w.repo = [] →
          w1.repo HEAD_FILE = some (calculate_hash H c.serialize)) ∧
        (∀ b, read_file w.repo HEAD_FILE = "ref: refs/heads/".toList ++ b → b ≠ [] → '/' ∉ b →
          get_head_hash w1.repo = calculate_hash H c.serialize) ∧
        (startsWith (read_file w.repo HEAD_FILE) "ref: ".toList = false →
          get_head_hash w1.repo = calculate_hash H c.serialize) ∧
        Index.load (read_file w1.repo INDEX_FILE) = [] ∧
        w1.work = w.work ∧
        ('\n' ∉ get_head_hash w.repo →
          -9223372036854775808 ≤ now ∧ now ≤ 9223372036854775807 →
          (Index.load (read_file w.repo INDEX_FILE)).length ≤ 2147483647 →
          Commit.deserialize (read_file w1.repo (objPath (calculate_hash H c.serialize))) =
            some c)) := by
  constructor
  · intro h
    unfold Command.commit
    simp only
    rw [if_pos h]
  · intro h
    refine ⟨_, commitOf now message w.repo, commit_eq H now message w h, rfl, rfl, rfl, rfl,
      ?_, ?_, ?_, ?_, ?_, ?_, ?_, rfl, ?_⟩
    · simp only
      rw [write_other _ _ (objPath_ne_INDEX _), mergeWrite_obj, if_pos rfl]
    · intro k hk
      simp only
      rw [write_other _ _ (objPath_ne_INDEX _), mergeWrite_obj, if_neg hk]
    · intro hb
      simp only
      rw [mergeWrite_branch _ _ _ hb]
      refine ⟨?_, ?_⟩
      · rw [write_other _ _ (headPath_ne_INDEX _), write_same]
      · rw [write_other _ _ HEAD_ne_INDEX, write_other _ _ (headPath_ne_HEAD _).symm,
          write_other _ _ (objPath_ne_HEAD _).symm]
    · intro hb
      simp only
      rw [mergeWrite_detached _ _ _ hb, write_other _ _ HEAD_ne_INDEX, write_same]
    · intro b hb hne hs
      have hcb := current_branch_ref hb hs
      simp only
      rw [mergeWrite_branch _ _ _ (by rw [hcb]; exact hne), hcb]
      have hH : read_file (write_file (write_file w.repo (objPath (calculate_hash H
          (commitOf now message w.repo).serialize)) (commitOf now message w.repo).serialize)
          (headPath b) (calculate_hash H (commitOf now message w.repo).serialize)) HEAD_FILE =
          "ref: refs/heads/".toList ++ b := by
        rw [read_write, if_neg (headPath_ne_HEAD b).symm, read_write,
          if_neg (objPath_ne_HEAD _).symm]
        exact hb
      rw [get_head_hash_write_index_ref _ b _ hH]
      have hsw : startsWith ("ref: refs/heads/".toList ++ b) "ref: ".toList = true :=
        startsWith_append "ref: ".toList (headPath b)
      unfold get_head_hash
      rw [hH, if_pos hsw]
      have hdrop : ("ref: refs/heads/".toList ++ b).drop 5 = headPath b := rfl
      rw [hdrop, read_write, if_pos rfl]
    · intro hs
      have hcb := current_branch_raw hs
      simp only
      rw [mergeWrite_detached _ _ _ hcb]
      have hH : read_file (write_file (write_file w.repo (objPath (calculate_hash H
          (commitOf now message w.repo).serialize)) (commitOf now message w.repo).serialize)
          HEAD_FILE (calculate_hash H (commitOf now message w.repo).serialize)) HEAD_FILE =
          calculate_hash H (commitOf now message w.repo).serialize := by
        rw [read_write, if_pos rfl]
      have hnr := calculate_hash_not_ref H (commitOf now message w.repo).serialize
      rw [get_head_hash_write_index_raw _ _ (by rw [hH]; exact hnr)]
      unfold get_head_hash
      rw [hH, hnr]
      rfl
    · simp only
      rw [read_write, if_pos rfl]
      rfl
    · intro hpar hnow hlen
      have inv := load_inv (read_file w.repo INDEX_FILE)
      have hrd : read_file (write_file (mergeWrite w
          (calculate_hash H (commitOf now message w.repo).serialize)
          (commitOf now message w.repo).serialize).repo INDEX_FILE (Index.save []))
          (objPath (calculate_hash H (commitOf now message w.repo).serialize)) =
          (commitOf now message w.repo).serialize := by
        unfold read_file
        rw [write_other _ _ (objPath_ne_INDEX _), mergeWrite_obj, if_pos rfl]
        rfl
      simp only
      rw [hrd, deserialize_serialize (commitOf now message w.repo) inv.1
        (tokenMap_entries inv.2) (by
          intro p hp
          unfold commitOf at hp
          simp only at hp
          split_ifs at hp
          · simp at hp
          · rw [List.mem_singleton.1 hp]; exact hpar) hlen hnow]
      congr 1
      have hf : (commitOf now message w.repo).files.filter (fun e => decide (e.2 ≠ [])) =
          (commitOf now message w.repo).files := filter_tokenMap inv.2
      rw [hf]

set_option maxRecDepth 100000 in
/-- Witness for C12: the first commit of `f` after `init`, under `Hlen`; the commit `hx 60` has no
parent and `main` then holds its digest. -/
theorem commit_spec_witness :
    ∃ (w1 : World) (c : Commit),
      Command.commit Hlen 1 "first".toList
        (Command.add Hlen "f".toList (edit "f".toList "A".toList (Command.init fresh))).1 =
        (w1, CommitOut.committed (calculate_hash Hlen c.serialize)) ∧
      c.files = [("f".toList, hx 1)] ∧ c.parents = [] ∧
      get_head_hash w1.repo = calculate_hash Hlen c.serialize ∧
      Index.load (read_file w1.repo INDEX_FILE) = [] := by
  obtain ⟨w1, c, h1, h2, h3, -, -, -, -, -, -, h10, -, h12, -, -⟩ :=
    (commit_spec Hlen 1 "first".toList
      (Command.add Hlen "f".toList (edit "f".toList "A".toList (Command.init fresh))).1).2
      (by decide)
  refine ⟨w1, c, h1, h2.trans (by decide), h3.trans (by decide),
    h10 "main".toList (by decide) (by decide) (by decide), h12⟩

/-! ## Branch creation -/

theorem get_head_hash_write_new (repo : Files) (p c : Str) (hp : p ≠ HEAD_FILE)
    (hnew : repo p = none) (hne : get_head_hash repo ≠ []) :
    get_head_hash (write_file repo p c) = get_head_hash repo := by
  have hH : read_file (write_file repo p c) HEAD_FILE = read_file repo HEAD_FILE := by
    rw [read_write, if_neg hp.symm]
  unfold get_head_hash at hne ⊢
  rw [hH]
  by_cases hs : startsWith (read_file repo HEAD_FILE) "ref: ".toList = true
  · rw [if_pos hs] at hne
    rw [if_pos hs, if_pos hs, read_write]
    by_cases hq : (read_file repo HEAD_FILE).drop 5 = p
    · exfalso
      apply hne
      rw [hq]
      unfold read_file
      rw [hnew]
      rfl
    · rw [if_neg hq]
  · rw [if_neg hs, if_neg hs]

theorem branch_not_plain (name : Str) (w : World) (hn : plainName name = false) :
    (Command.branch name w).1 = w := by
  unfold Command.branch
  rw [hn]
  simp only [Bool.false_eq_true, if_false]
  split_ifs <;> rfl

theorem lines_save (m : Map) (hm : TokenMap m) :
    lines (Index.save m) = m.map (fun e => e.2 ++ ' ' :: e.1) := by
  induction m with
  | nil => rfl
  | cons e0 tl ih =>
    obtain ⟨f, v⟩ := e0
    have h0 := hm (f, v) (List.mem_cons_self _ _)
    have hl : '\n' ∉ v ++ ' ' :: f := by
      intro hmem
      rcases List.mem_append.1 hmem with hmem | hmem
      · exact no_space_no_newline h0.2.2 hmem
      · rcases List.mem_cons.1 hmem with hmem | hmem
        · exact absurd hmem (by decide)
        · exact no_space_no_newline h0.1.2 hmem
    have e : Index.save ((f, v) :: tl) = (v ++ ' ' :: f) ++ '\n' :: Index.save tl := by
      simp [Index.save]
    rw [e, lines_append hl, ih (fun e he => hm e (List.mem_cons_of_mem _ he))]
    rfl

/-- Claim C18: for an index (a `std::map`, so with ascending paths) all of whose paths and hashes
are non-empty and free of white space, `Index::load` on the text `Index::save` writes gives back
the same entries, hence the same hash for every path; the text consists of one line `hash path`
per entry, in the ascending order of the paths. -/
theorem index_round_trip (m : Map) (hs : MapSorted m) (hm : TokenMap m) :
    Index.load (Index.save m) = m ∧
    (∀ p, mapFind (Index.load (Index.save m)) p = mapFind m p) ∧
    lines (Index.save m) = m.map (fun e => e.2 ++ ' ' :: e.1) ∧
    (m.map (fun e => e.1)).Pairwise (fun a b => strLt a b = true) := by
  refine ⟨load_save hs hm, fun p => by rw [load_save hs hm], lines_save m hm, ?_⟩
  rw [List.pairwise_map]
  exact hs

/-- Witness for C18: an index with the two paths `a` and `b`. -/
theorem index_round_trip_witness :
    Index.load (Index.save [("a".toList, hx 1), ("b".toList, hx 2)]) =
      [("a".toList, hx 1), ("b".toList, hx 2)] ∧
    lines (Index.save [("a".toList, hx 1), ("b".toList, hx 2)]) =
      [hx 1 ++ " a".toList, hx 2 ++ " b".toList] := by
  have h := index_round_trip [("a".toList, hx 1), ("b".toList, hx 2)] (by decide) (by decide)
  exact ⟨h.1, h.2.2.1.trans (by decide)⟩

/-! ## What a successful merge leaves alone -/

theorem merge_merged_eq {H : Str → Nat} {now : Int} {fuel : Nat} {name : Str} {w w1 : World}
    {hash : Str} (h : Command.merge H now fuel name w = (w1, MergeOut.merged hash)) :
    ∃ data, hash = calculate_hash H data ∧ w1 = mergeWrite w hash data := by
  unfold Command.merge at h
  by_cases h1 : (!file_exists w.repo (headPath name)) = true
  · rw [if_pos h1] at h
    exact absurd (congrArg Prod.snd h) (by simp)
  · rw [if_neg h1] at h
    simp only at h
    by_cases h2 : get_head_hash w.repo = read_file w.repo (headPath name)
    · rw [if_pos h2] at h
      exact absurd (congrArg Prod.snd h) (by simp)
    · rw [if_neg h2] at h
      cases hl : Command.find_lca fuel w.repo (get_head_hash w.repo)
          (read_file w.repo (headPath name)) with
      | fuel => rw [hl] at h; exact absurd (congrArg Prod.snd h) (by simp)
      | err => rw [hl] at h; exact absurd (congrArg Prod.snd h) (by simp)
      | ok l =>
        rw [hl] at h
        simp only at h
        by_cases h3 : l = get_head_hash w.repo
        · rw [if_pos h3] at h
          exact absurd (congrArg Prod.snd h) (by simp)
        · rw [if_neg h3] at h
          by_cases h4 : l = read_file w.repo (headPath name)
          · rw [if_pos h4] at h
            exact absurd (congrArg Prod.snd h) (by simp)
          · rw [if_neg h4] at h
            cases e1 : loadCommit w.repo l with
            | none => rw [e1] at h; exact absurd (congrArg Prod.snd h) (by simp)
            | some lca =>
              cases e2 : loadCommit w.repo (get_head_hash w.repo) with
              | none => rw [e1, e2] at h; exact absurd (congrArg Prod.snd h) (by simp)
              | some current =>
                cases e3 : loadCommit w.repo (read_file w.repo (headPath name)) with
                | none => rw [e1, e2, e3] at h; exact absurd (congrArg Prod.snd h) (by simp)
                | some other =>
                  rw [e1, e2, e3] at h
                  simp only at h
                  by_cases h5 : (mergeFiles lca.files current.files other.files).2 ≠ []
                  · rw [if_pos h5] at h
                    exact absurd (congrArg Prod.snd h) (by simp)
                  · rw [if_neg h5] at h
                    simp only [Prod.mk.injEq, MergeOut.merged.injEq] at h
                    obtain ⟨hw, hh⟩ := h
                    refine ⟨_, hh.symm, ?_⟩
                    rw [← hw, ← hh]
                    rfl

/-- Claim C20: when `merge` reports a merge commit `hash`, the working files and the index file
are exactly as before; `objects/hash` exists afterwards and every other object file is as before;
the digest is written to the file of the current branch, or to `HEAD` when no branch is current,
and every file of `.minigit` other than `objects/hash` and that pointer is as before, in particular
`HEAD` when a branch is current and every branch file that is not the pointer. So the index that
`Index::load` reads is the one from before the merge, not the merged snapshot. -/
theorem merge_frame (H : Str → Nat) (now : Int) (fuel : Nat) (name : Str) (w w1 : World)
    (hash : Str) (h : Command.merge H now fuel name w = (w1, MergeOut.merged hash)) :
    w1.work = w.work ∧ w1.dir = w.dir ∧
    w1.repo INDEX_FILE = w.repo INDEX_FILE ∧
    Index.load (read_file w1.repo INDEX_FILE) = Index.load (read_file w.repo INDEX_FILE) ∧
    w1.repo (objPath hash) ≠ none ∧
    (∀ k, k ≠ hash → w1.repo (objPath k) = w.repo (objPath k)) ∧
    (∀ p, p ≠ objPath hash →
      p ≠ (if current_branch w.repo ≠ [] then headPath (current_branch w.repo) else HEAD_FILE) →
      w1.repo p = w.repo p) ∧
    w1.repo (if current_branch w.repo ≠ [] then headPath (current_branch w.repo) else HEAD_FILE) =
      some hash ∧
    (current_branch w.repo ≠ [] → w1.repo HEAD_FILE = w.repo HEAD_FILE) ∧
    (∀ b, current_branch w.repo = [] ∨ b ≠ current_branch w.repo →
      w1.repo (headPath b) = w.repo (headPath b)) := by
  obtain ⟨data, -, rfl⟩ := merge_merged_eq h
  have hframe : ∀ p, p ≠ objPath hash →
      p ≠ (if current_branch w.repo ≠ [] then headPath (current_branch w.repo) else HEAD_FILE) →
      (mergeWrite w hash data).repo p = w.repo p := by
    intro p hp1 hp2
    by_cases hb : current_branch w.repo ≠ []
    · rw [if_pos hb] at hp2
      rw [mergeWrite_branch _ _ _ hb, write_other _ _ hp2, write_other _ _ hp1]
    · rw [if_neg hb] at hp2
      rw [mergeWrite_detached _ _ _ (not_not.1 hb), write_other _ _ hp2, write_other _ _ hp1]
  have hidx : (mergeWrite w hash data).repo INDEX_FILE = w.repo INDEX_FILE := by
    apply hframe _ (objPath_ne_INDEX _).symm
    split_ifs
    · exact (headPath_ne_INDEX _).symm
    · exact HEAD_ne_INDEX.symm
  refine ⟨rfl, rfl, hidx, ?_, ?_, ?_, hframe, ?_, ?_, ?_⟩
  · unfold read_file
    rw [hidx]
  · rw [mergeWrite_obj, if_pos rfl]
    simp
  · intro k hk
    rw [mergeWrite_obj, if_neg hk]
  · by_cases hb : current_branch w.repo ≠ []
    · rw [if_pos hb, mergeWrite_branch _ _ _ hb, write_same]
    · rw [if_neg hb, mergeWrite_detached _ _ _ (not_not.1 hb), write_same]
  · intro hb
    apply hframe _ (objPath_ne_HEAD _).symm
    rw [if_pos hb]
    exact (headPath_ne_HEAD _).symm
  · intro b hb
    apply hframe _ (objPath_ne_headPath _ _).symm
    split_ifs with hc
    · rcases hb with hb | hb
      · exact absurd hb hc
      · exact fun e => hb (headPath_inj e)
    · exact headPath_ne_HEAD _

set_option maxRecDepth 100000 in
/-- Witness for C20: the clean merge of `feat` into `main` in `exDiverged A A BB` creates the
commit `hx 154` whose snapshot has `f ↦ hx 2`, while the working file `f` keeps the content `A`,
the index keeps `f ↦ hx 1` and the branch `feat` stays at `hx 101`. -/
theorem merge_frame_witness :
    (Command.merge Hlen 5 10 "feat".toList (exDiverged "A".toList "A".toList "BB".toList)).2 =
      MergeOut.merged (hx 154) ∧
    (Command.merge Hlen 5 10 "feat".toList
      (exDiverged "A".toList "A".toList "BB".toList)).1.work "f".toList = some "A".toList ∧
    Index.load (read_file (Command.merge Hlen 5 10 "feat".toList
      (exDiverged "A".toList "A".toList "BB".toList)).1.repo INDEX_FILE) =
      [("f".toList, hx 1)] ∧
    (Command.merge Hlen 5 10 "feat".toList
      (exDiverged "A".toList "A".toList "BB".toList)).1.repo (headPath "feat".toList) =
      some (hx 101) := by
  have h := merge_frame Hlen 5 10 "feat".toList (exDiverged "A".toList "A".toList "BB".toList)
    (Command.merge Hlen 5 10 "feat".toList (exDiverged "A".toList "A".toList "BB".toList)).1
    (hx 154) (Prod.ext rfl (by decide))
  refine ⟨by decide, ?_, h.2.2.2.1.trans (by decide), ?_⟩
  · rw [h.1]
    decide
  · rw [h.2.2.2.2.2.2.2.2.2 "feat".toList (Or.inr (by decide))]
    decide

/-! ## Symmetry of the three-way loop -/

theorem strLt_asymm {a b : Str} (h : strLt a b = true) : strLt b a = false := by
  cases e : strLt b a with
  | false => rfl
  | true =>
    have := strLt_trans h e
    rw [strLt_irrefl] at this
    exact Bool.noConfusion this

theorem setSorted_ext {s t : StrSet} (hs : SetSorted s) (ht : SetSorted t)
    (h : ∀ x, x ∈ s ↔ x ∈ t) : s = t := by
  haveI : IsAntisymm Str (fun a b => strLt a b = true) :=
    ⟨fun a b h1 h2 => by rw [strLt_asymm h1] at h2; exact Bool.noConfusion h2⟩
  exact List.eq_of_perm_of_sorted
    ((List.perm_ext_iff_of_nodup (SetSorted.nodup hs) (SetSorted.nodup ht)).2 h) hs ht

theorem mapSorted_nodup {m : Map} (h : MapSorted m) : m.Nodup := by
  unfold MapSorted at h
  exact h.imp (fun hab e => strLt_ne hab (congrArg Prod.fst e))

theorem mapSorted_ext {m1 m2 : Map} (h1 : MapSorted m1) (h2 : MapSorted m2)
    (h : ∀ p, mapFind m1 p = mapFind m2 p) : m1 = m2 := by
  haveI : IsAntisymm (Str × Str) (fun a b => strLt a.1 b.1 = true) :=
    ⟨fun a b e1 e2 => by rw [strLt_asymm e1] at e2; exact Bool.noConfusion e2⟩
  refine List.eq_of_perm_of_sorted
    ((List.perm_ext_iff_of_nodup (mapSorted_nodup h1) (mapSorted_nodup h2)).2 ?_) h1 h2
  rintro ⟨k, v⟩
  constructor
  · intro he
    have := mapFind_of_mem h1 he
    rw [h k] at this
    exact mapFind_some_mem this
  · intro he
    have := mapFind_of_mem h2 he
    rw [← h k] at this
    exact mapFind_some_mem this

theorem allFiles_sorted (lca current other : Map) : SetSorted (allFiles lca current other) := by
  unfold allFiles
  exact foldl_setInsert_sorted _ _ (foldl_setInsert_sorted _ _
    (foldl_setInsert_sorted _ _ List.Pairwise.nil))

theorem allFiles_swap (lca current other : Map) :
    allFiles lca current other = allFiles lca other current := by
  apply setSorted_ext (allFiles_sorted _ _ _) (allFiles_sorted _ _ _)
  intro x
  rw [mem_allFiles, mem_allFiles]
  tauto

theorem conflictAt_swap (lca current other : Map) (p : Str) :
    conflictAt lca current other p = conflictAt lca other current p := by
  unfold conflictAt
  apply decide_eq_decide.2
  constructor
  · rintro ⟨h1, h2, h3⟩
    exact ⟨fun e => h1 e.symm, h3, h2⟩
  · rintro ⟨h1, h2, h3⟩
    exact ⟨fun e => h1 e.symm, h3, h2⟩

theorem mergeFiles_conflicts (lca current other : Map) :
    (mergeFiles lca current other).2 =
      (allFiles lca current other).filter (conflictAt lca current other) := by
  unfold mergeFiles
  rw [foldl_mergeStep_snd]
  rfl

theorem foldl_mergeStep_sorted (lca current other : Map) (l : List Str) :
    ∀ (acc : Map × List Str), MapSorted acc.1 →
      MapSorted (l.foldl (mergeStep lca current other) acc).1 := by
  induction l with
  | nil => intro acc h; simpa using h
  | cons q rest ih =>
    intro acc h
    rw [List.foldl_cons]
    apply ih
    rw [mergeStep_fst]
    split_ifs
    · exact mapAssign_sorted _ _ h
    · exact h

theorem mergeFiles_sorted {lca current other : Map} (hs : MapSorted current) :
    MapSorted (mergeFiles lca current other).1 := by
  unfold mergeFiles
  exact foldl_mergeStep_sorted _ _ _ _ _ hs

theorem filter_sorted {m : Map} (hs : MapSorted m) (f : Str × Str → Bool) :
    MapSorted (m.filter f) := by
  unfold MapSorted at hs ⊢
  exact hs.sublist (List.filter_sublist m)

/-- With no empty hash in the map, the value `mapAtOr` yields is empty exactly for a path that
has no entry. -/
theorem mapAtOr_nil_iff {m : Map} (hv : ∀ e ∈ m, e.2 ≠ []) (p : Str) :
    mapAtOr m p = [] ↔ mapFind m p = none := by
  unfold mapAtOr
  cases h : mapFind m p with
  | none => simp
  | some v =>
    have := hv _ (mapFind_some_mem h)
    simp only [Option.getD_some]
    constructor
    · intro e; exact absurd e this
    · intro e; exact absurd e (by simp)

theorem mapFind_eq_of_mapAtOr {a b : Map} (ha : ∀ e ∈ a, e.2 ≠ []) (hb : ∀ e ∈ b, e.2 ≠ [])
    {p : Str} (h : mapAtOr a p = mapAtOr b p) : mapFind a p = mapFind b p := by
  have h1 := mapAtOr_nil_iff ha p
  have h2 := mapAtOr_nil_iff hb p
  unfold mapAtOr at h h1 h2
  cases e1 : mapFind a p with
  | none =>
    rw [e1] at h h1
    cases e2 : mapFind b p with
    | none => rfl
    | some v =>
      rw [e2] at h h2
      simp only [Option.getD_none, Option.getD_some] at h h2
      exact absurd (h2.1 h.symm) (by simp)
  | some u =>
    rw [e1] at h h1
    cases e2 : mapFind b p with
    | none =>
      rw [e2] at h
      simp only [Option.getD_none, Option.getD_some] at h h1
      exact absurd (h1.1 h) (by simp)
    | some v =>
      rw [e2] at h
      simp only [Option.getD_some] at h
      rw [h]

/-- What the stored merge result holds for a path: the entry of `merged`, or nothing when that
entry has the empty hash. -/
theorem mergeFiles_filter_find {lca current other : Map} (hs : MapSorted current)
    (hc : ∀ e ∈ current, e.2 ≠ []) (ho : ∀ e ∈ other, e.2 ≠ []) (p : Str) :
    mapFind ((mergeFiles lca current other).1.filter (fun e => decide (e.2 ≠ []))) p =
      if mapAtOr current p ≠ mapAtOr other p ∧ mapAtOr current p = mapAtOr lca p then
        mapFind other p
      else mapFind current p := by
  rw [mapFind_filter (mergeFiles_sorted hs), mergeFiles_find]
  by_cases c : mapAtOr current p ≠ mapAtOr other p ∧ mapAtOr current p = mapAtOr lca p
  · have hmem : p ∈ allFiles lca current other := by
      rw [mem_allFiles]
      by_contra hn
      push_neg at hn
      apply c.1
      unfold mapAtOr
      rw [hn.2.1, hn.2.2]
    have hA : (if p ∈ allFiles lca current other ∧ mapAtOr current p ≠ mapAtOr other p ∧
        mapAtOr current p = mapAtOr lca p then some (mapAtOr other p) else mapFind current p) =
        some (mapAtOr other p) := if_pos ⟨hmem, c⟩
    rw [hA, if_pos c]
    cases e : mapFind other p with
    | none =>
      have : mapAtOr other p = [] := (mapAtOr_nil_iff ho p).2 e
      rw [this]
      simp
    | some v =>
      have hv : mapAtOr other p = v := by
        unfold mapAtOr
        rw [e]
        rfl
      have hne : v ≠ [] := ho _ (mapFind_some_mem e)
      rw [hv, if_neg (by simpa using hne)]
  · have hA : (if p ∈ allFiles lca current other ∧ mapAtOr current p ≠ mapAtOr other p ∧
        mapAtOr current p = mapAtOr lca p then some (mapAtOr other p) else mapFind current p) =
        mapFind current p := if_neg (fun h => c h.2)
    rw [hA, if_neg c]
    rw [if_neg]
    intro e
    exact hc _ (mapFind_some_mem e) rfl

/-- Claim C19: for snapshots `base`, `ours` and `theirs` (maps, so with ascending paths) without
an empty hash, the three-way loop run with `ours` and `theirs` exchanged reports the same
conflicting paths in the same order; when it reports none, the two merged maps hold the same
entries once the entries with an empty hash are dropped, which is what storing and loading the
merge commit does. The merged maps themselves can differ: with base `f ↦ A`, ours `f ↦ A` and
theirs empty, one run yields the entry `f` with the empty hash and the other run yields no
entry. -/
theorem merge_symmetry (base ours theirs : Map)
    (ho : MapSorted ours) (ht : MapSorted theirs)
    (vo : ∀ e ∈ ours, e.2 ≠ []) (vt : ∀ e ∈ theirs, e.2 ≠ []) :
    (mergeFiles base ours theirs).2 = (mergeFiles base theirs ours).2 ∧
    ((mergeFiles base ours theirs).2 = [] →
      (mergeFiles base ours theirs).1.filter (fun e => decide (e.2 ≠ [])) =
        (mergeFiles base theirs ours).1.filter (fun e => decide (e.2 ≠ []))) ∧
    ((mergeFiles [("f".toList, "A".toList)] [("f".toList, "A".toList)] []).2 = [] ∧
      (mergeFiles [("f".toList, "A".toList)] [("f".toList, "A".toList)] []).1 =
        [("f".toList, [])] ∧
      (mergeFiles [("f".toList, "A".toList)] [] [("f".toList, "A".toList)]).1 = []) := by
  refine ⟨?_, ?_, by decide, by decide, by decide⟩
  · rw [mergeFiles_conflicts, mergeFiles_conflicts, allFiles_swap base ours theirs]
    congr 1
    funext p
    exact conflictAt_swap base ours theirs p
  · intro hc
    apply mapSorted_ext (filter_sorted (mergeFiles_sorted ho) _)
      (filter_sorted (mergeFiles_sorted ht) _)
    intro p
    rw [mergeFiles_filter_find ho vo vt, mergeFiles_filter_find ht vt vo]
    have hnc : conflictAt base ours theirs p = false := by
      by_cases hm : p ∈ allFiles base ours theirs
      · rw [mergeFiles_conflicts] at hc
        have := List.filter_eq_nil_iff.1 hc p hm
        simpa using this
      · rw [mem_allFiles] at hm
        push_neg at hm
        unfold conflictAt mapAtOr
        rw [hm.2.1, hm.2.2]
        simp
    unfold conflictAt at hnc
    simp only [decide_eq_false_iff_not] at hnc
    by_cases c1 : mapAtOr ours p = mapAtOr theirs p
    · rw [if_neg (fun h => h.1 c1), if_neg (fun h => h.1 c1.symm)]
      exact mapFind_eq_of_mapAtOr vo vt c1
    · by_cases c2 : mapAtOr ours p = mapAtOr base p
      · rw [if_pos ⟨c1, c2⟩, if_neg]
        rintro ⟨-, h2⟩
        exact c1 (c2.trans h2.symm)
      · have c3 : mapAtOr theirs p = mapAtOr base p := by
          by_contra c3
          exact hnc ⟨c1, c2, c3⟩
        rw [if_neg (fun h => c2 h.2), if_pos ⟨fun e => c1 e.symm, c3⟩]

/-- Witness for C19: base `f ↦ A`, ours `f ↦ A`, theirs `f ↦ B, g ↦ C`; both runs report no
conflict and both results, once filtered, are the snapshot of theirs. -/
theorem merge_symmetry_witness :
    (mergeFiles [("f".toList, "A".toList)] [("f".toList, "A".toList)]
        [("f".toList, "B".toList), ("g".toList, "C".toList)]).2 =
      (mergeFiles [("f".toList, "A".toList)]
        [("f".toList, "B".toList), ("g".toList, "C".toList)] [("f".toList, "A".toList)]).2 ∧
    (mergeFiles [("f".toList, "A".toList)] [("f".toList, "A".toList)]
        [("f".toList, "B".toList), ("g".toList, "C".toList)]).1.filter
        (fun e => decide (e.2 ≠ [])) =
      (mergeFiles [("f".toList, "A".toList)]
        [("f".toList, "B".toList), ("g".toList, "C".toList)]
        [("f".toList, "A".toList)]).1.filter (fun e => decide (e.2 ≠ [])) := by
  have h := merge_symmetry [("f".toList, "A".toList)] [("f".toList, "A".toList)]
    [("f".toList, "B".toList), ("g".toList, "C".toList)] (by decide) (by decide) (by decide)
    (by decide)
  exact ⟨h.1, h.2.1 (by decide)⟩

/-! ## The commit text read back -/

theorem stoi_showNat_big {n : Nat} (h : 2147483647 < n) : stoi (showNat n) = none := by
  unfold stoi
  rw [parseInt_showNat]
  simp only
  rw [if_neg]
  intro hh
  omega

theorem headerLoop_tree_big (n k : Nat) (rest : Str) (c : Commit) (hk : 2147483647 < k) :
    Commit.headerLoop (n + 1) (("tree ".toList ++ showNat k) ++ '\n' :: rest) c = none := by
  have h1 : '\n' ∉ "tree ".toList ++ showNat k := by
    intro hm
    rcases List.mem_append.1 hm with hm | hm
    · exact absurd hm (by decide)
    · exact showNat_no_newline _ hm
  have h2 : "tree ".toList ++ showNat k ≠ [] := by
    intro e
    exact absurd (congrArg List.length e) (by simp)
  have h3 : List.drop 5 ("tree ".toList ++ showNat k) = showNat k := rfl
  rw [Commit.headerLoop, getline_append h1]
  simp only [h2, if_false, startsWith_append, if_true, h3, stoi_showNat_big hk]

/-- A snapshot with more than `2^31 - 1` entries cannot be read back: `stoi` throws on the
count. -/
theorem deserialize_big (c : Commit) (h : 2147483647 < c.files.length) :
    Commit.deserialize c.serialize = none := by
  obtain ⟨m, hm⟩ : ∃ m, c.serialize.length = m + 1 := by
    refine ⟨c.serialize.length - 1, ?_⟩
    have : 1 ≤ c.serialize.length := by
      unfold Commit.serialize
      simp only [List.length_append, List.length_cons]
      omega
    omega
  unfold Commit.deserialize
  rw [hm]
  unfold Commit.serialize
  rw [headerLoop_tree_big _ _ _ _ h]

/-- Claim C17: for a commit all of whose snapshot paths and hashes are words (non-empty, free of
white space) and whose parent hashes contain no newline, `deserialize` applied to the text
`serialize` writes yields that very commit: the same message (whatever it contains), timestamp,
parents in order and snapshot. Hence two such commits with the same serialization are equal. The
two numeric hypotheses are the ranges of the machine types involved: the timestamp is a 64-bit
`long`, and the number of snapshot entries is read back into an `int`, so it is below `2^31`. -/
theorem commit_codec_round_trip (c : Commit) (hs : MapSorted c.files) (hm : TokenMap c.files)
    (hp : ∀ p ∈ c.parents, '\n' ∉ p) (hn : c.files.length < 2147483648)
    (ht : -9223372036854775808 ≤ c.timestamp ∧ c.timestamp ≤ 9223372036854775807) :
    Commit.deserialize c.serialize = some c ∧
    (∀ c2 : Commit, MapSorted c2.files → TokenMap c2.files → (∀ p ∈ c2.parents, '\n' ∉ p) →
      c2.files.length < 2147483648 →
      (-9223372036854775808 ≤ c2.timestamp ∧ c2.timestamp ≤ 9223372036854775807) →
      c2.serialize = c.serialize → c2 = c) := by
  have key : ∀ d : Commit, MapSorted d.files → TokenMap d.files → (∀ p ∈ d.parents, '\n' ∉ p) →
      d.files.length < 2147483648 →
      (-9223372036854775808 ≤ d.timestamp ∧ d.timestamp ≤ 9223372036854775807) →
      Commit.deserialize d.serialize = some d := by
    intro d ds dm dp dn dt
    rw [deserialize_serialize d ds (tokenMap_entries dm) dp (by omega) dt, filter_tokenMap dm]
  refine ⟨key c hs hm hp hn ht, ?_⟩
  intro c2 s2 m2 p2 n2 t2 e
  have h1 := key c2 s2 m2 p2 n2 t2
  rw [e, key c hs hm hp hn ht] at h1
  exact (Option.some.inj h1).symm

set_option maxRecDepth 100000 in
/-- Witness for C17: a merge commit with two snapshot entries whose message contains a blank line
and lines that start with `tree `, `parent ` and `timestamp `. -/
theorem commit_codec_round_trip_witness :
    Commit.deserialize
      (exCommit "tree 5\n\nparent x\ntimestamp y\n".toList 7 [hx 60, hx 99]
        [("a".toList, hx 1), ("b/c".toList, hx 2)]).serialize =
      some (exCommit "tree 5\n\nparent x\ntimestamp y\n".toList 7 [hx 60, hx 99]
        [("a".toList, hx 1), ("b/c".toList, hx 2)]) :=
  (commit_codec_round_trip
    (exCommit "tree 5\n\nparent x\ntimestamp y\n".toList 7 [hx 60, hx 99]
      [("a".toList, hx 1), ("b/c".toList, hx 2)])
    (by decide) (by decide) (by decide) (by decide) (by decide)).1

/-! ## Termination and result of `find_lca` -/

theorem searchLoop_nil (repo : Files) (anc : StrSet) (fuel : Nat) :
    searchLoop repo anc fuel [] = Res.ok [] := by
  cases fuel <;> rfl

/-- The first loop ends, with a set or with an exception, when it is given as many steps as
there are paths below the queued hashes. -/
theorem ancestorsLoop_terminates {repo : Files} {rank : Str → Nat}
    (hr : ∀ h p, p ∈ parentsOf repo h → rank p < rank h) :
    ∀ (fuel : Nat) (anc : StrSet) (queue : List Str),
    (queue.map (fun x => pathCount repo (rank x) x)).sum ≤ fuel →
    ancestorsLoop repo fuel anc queue ≠ Res.fuel := by
  intro fuel
  induction fuel with
  | zero =>
    intro anc queue hf
    cases queue with
    | nil => rw [ancestorsLoop_nil]; simp
    | cons h q =>
      have := pathCount_pos repo (rank h) h
      simp only [List.map_cons, List.sum_cons] at hf
      omega
  | succ n ih =>
    intro anc queue hf
    cases queue with
    | nil => rw [ancestorsLoop_nil]; simp
    | cons h q =>
      cases hd : loadCommit repo h with
      | none =>
        rw [ancestorsLoop, hd]
        simp
      | some c =>
        have hpar := parentsOf_of_load hd
        obtain ⟨-, s, h2, h3, -⟩ := foldl_push_spec c.parents (anc, [])
        simp only [List.nil_append] at h2
        have hstep : ancestorsLoop repo (n + 1) anc (h :: q) =
            ancestorsLoop repo n (c.parents.foldl ancestorsPush (anc, [])).1
              (q ++ (c.parents.foldl ancestorsPush (anc, [])).2) := by
          rw [ancestorsLoop, hd]
        rw [hstep, h2]
        apply ih
        have hs : (s.map (fun x => pathCount repo (rank x) x)).sum ≤
            (c.parents.map (fun x => pathCount repo (rank x) x)).sum :=
          List.Sublist.sum_le_sum (h3.map _) (fun _ _ => Nat.zero_le _)
        have hp := pathCount_parents hr h
        rw [hpar] at hp
        simp only [List.map_cons, List.sum_cons] at hf
        rw [List.map_append, List.sum_append]
        omega

/-- The second loop ends, with a hash or with an exception, when it is given as many steps as
there are paths below the queued hashes. -/
theorem searchLoop_terminates {repo : Files} {rank : Str → Nat}
    (hr : ∀ h p, p ∈ parentsOf repo h → rank p < rank h) (anc : StrSet) :
    ∀ (fuel : Nat) (queue : List Str),
    (queue.map (fun x => pathCount repo (rank x) x)).sum ≤ fuel →
    searchLoop repo anc fuel queue ≠ Res.fuel := by
  intro fuel
  induction fuel with
  | zero =>
    intro queue hf
    cases queue with
    | nil => rw [searchLoop_nil]; simp
    | cons h q =>
      have := pathCount_pos repo (rank h) h
      simp only [List.map_cons, List.sum_cons] at hf
      omega
  | succ n ih =>
    intro queue hf
    cases queue with
    | nil => rw [searchLoop_nil]; simp
    | cons h q =>
      by_cases hin : h ∈ anc
      · rw [searchLoop_hit _ _ _ _ hin]
        simp
      · cases hd : loadCommit repo h with
        | none =>
          rw [searchLoop, if_neg hin, hd]
          simp
        | some c =>
          have hpar := parentsOf_of_load hd
          have hstep : searchLoop repo anc (n + 1) (h :: q) =
              searchLoop repo anc n (q ++ c.parents) := by
            rw [searchLoop, if_neg hin, hd]
          rw [hstep]
          apply ih
          have hp := pathCount_parents hr h
          rw [hpar] at hp
          simp only [List.map_cons, List.sum_cons] at hf
          rw [List.map_append, List.sum_append]
          omega

/-- More steps do not change how the first loop ends. -/
theorem ancestorsLoop_mono (repo : Files) : ∀ (n : Nat) (anc : StrSet) (queue : List Str),
    ancestorsLoop repo n anc queue ≠ Res.fuel →
    ancestorsLoop repo (n + 1) anc queue = ancestorsLoop repo n anc queue := by
  intro n
  induction n with
  | zero =>
    intro anc queue h
    cases queue with
    | nil => rfl
    | cons x q => exact absurd rfl h
  | succ n ih =>
    intro anc queue h
    cases queue with
    | nil => rfl
    | cons x q =>
      cases hd : loadCommit repo x with
      | none =>
        rw [ancestorsLoop, hd, ancestorsLoop, hd]
      | some c =>
        have e1 : ∀ k, ancestorsLoop repo (k + 1) anc (x :: q) =
            ancestorsLoop repo k (c.parents.foldl ancestorsPush (anc, [])).1
              (q ++ (c.parents.foldl ancestorsPush (anc, [])).2) := by
          intro k
          rw [ancestorsLoop, hd]
        rw [e1] at h
        rw [e1, e1]
        exact ih _ _ h

/-- More steps do not change how the second loop ends. -/
theorem searchLoop_mono (repo : Files) (anc : StrSet) : ∀ (n : Nat) (queue : List Str),
    searchLoop repo anc n queue ≠ Res.fuel →
    searchLoop repo anc (n + 1) queue = searchLoop repo anc n queue := by
  intro n
  induction n with
  | zero =>
    intro queue h
    cases queue with
    | nil => rfl
    | cons x q => exact absurd rfl h
  | succ n ih =>
    intro queue h
    cases queue with
    | nil => rfl
    | cons x q =>
      by_cases hin : x ∈ anc
      · rw [searchLoop_hit _ _ _ _ hin, searchLoop_hit _ _ _ _ hin]
      · cases hd : loadCommit repo x with
        | none =>
          rw [searchLoop, if_neg hin, hd, searchLoop, if_neg hin, hd]
        | some c =>
          have e1 : ∀ k, searchLoop repo anc (k + 1) (x :: q) =
              searchLoop repo anc k (q ++ c.parents) := by
            intro k
            rw [searchLoop, if_neg hin, hd]
          rw [e1] at h
          rw [e1, e1]
          exact ih _ h

theorem ancestorsLoop_mono_le (repo : Files) {n m : Nat} (hnm : n ≤ m) (anc : StrSet)
    (queue : List Str) (h : ancestorsLoop repo n anc queue ≠ Res.fuel) :
    ancestorsLoop repo m anc queue = ancestorsLoop repo n anc queue := by
  induction hnm with
  | refl => rfl
  | step _ ih =>
    rw [ancestorsLoop_mono _ _ _ _ (by rw [ih]; exact h), ih]

theorem searchLoop_mono_le (repo : Files) (anc : StrSet) {n m : Nat} (hnm : n ≤ m)
    (queue : List Str) (h : searchLoop repo anc n queue ≠ Res.fuel) :
    searchLoop repo anc m queue = searchLoop repo anc n queue := by
  induction hnm with
  | refl => rfl
  | step _ ih =>
    rw [searchLoop_mono _ _ _ _ (by rw [ih]; exact h), ih]

/-- What the second loop returns, unless it is the empty string of an exhausted queue, is in the
set and is reached from the start of the search. -/
theorem searchLoop_sound (repo : Files) (anc : StrSet) (b : Str) : ∀ (fuel : Nat) (q : List Str)
    (h : Str), searchLoop repo anc fuel q = Res.ok h → (∀ x ∈ q, Reaches repo b x) →
    h = [] ∨ (h ∈ anc ∧ Reaches repo b h) := by
  intro fuel
  induction fuel with
  | zero =>
    intro q h hq _
    cases q with
    | nil =>
      simp only [searchLoop, Res.ok.injEq] at hq
      exact Or.inl hq.symm
    | cons x q => simp [searchLoop] at hq
  | succ n ih =>
    intro q h hq hr
    cases q with
    | nil =>
      simp only [searchLoop, Res.ok.injEq] at hq
      exact Or.inl hq.symm
    | cons x q =>
      rw [searchLoop] at hq
      split_ifs at hq with c
      · simp only [Res.ok.injEq] at hq
        rw [← hq]
        exact Or.inr ⟨c, hr x (List.mem_cons_self _ _)⟩
      · cases hd : loadCommit repo x with
        | none => simp [hd] at hq
        | some c =>
          simp only [hd] at hq
          apply ih _ _ hq
          intro y hy
          rcases List.mem_append.1 hy with hy | hy
          · exact hr y (List.mem_cons_of_mem _ hy)
          · have : y ∈ parentsOf repo x := by rw [parentsOf_of_load hd]; exact hy
            exact Relation.ReflTransGen.tail (hr x (List.mem_cons_self _ _)) this

/-- Claim C16: on an acyclic commit graph, `find_lca a b` terminates for all hashes `a` and `b`:
from some number of steps on, more steps do not change how it ends, and it ends with a hash or
with an exception of `deserialize`, not by running out of steps. Whenever it returns a non-empty
hash `h`, that hash is reached from `b` by zero or more parent edges and from `a` by one or more
parent edges, so it is a common ancestor. -/
theorem find_lca_spec (repo : Files) (a b : Str) (hac : Acyclic repo) :
    (∃ N, Command.find_lca N repo a b ≠ Res.fuel ∧
      ∀ fuel, N ≤ fuel → Command.find_lca fuel repo a b = Command.find_lca N repo a b) ∧
    (∀ fuel h, Command.find_lca fuel repo a b = Res.ok h → h ≠ [] →
      Reaches repo b h ∧ ProperAncestor repo a h ∧ Reaches repo a h) := by
  constructor
  · obtain ⟨rank, hr⟩ := hac
    refine ⟨pathCount repo (rank a) a + pathCount repo (rank b) b, ?_⟩
    have hA := ancestorsLoop_terminates hr
      (pathCount repo (rank a) a + pathCount repo (rank b) b) [] [a] (by simp)
    unfold Command.find_lca
    cases hA1 : ancestorsLoop repo (pathCount repo (rank a) a + pathCount repo (rank b) b)
        [] [a] with
    | fuel => exact absurd hA1 hA
    | err =>
      refine ⟨by simp, ?_⟩
      intro fuel hf
      rw [ancestorsLoop_mono_le repo hf [] [a] hA, hA1]
    | ok anc =>
      have hS := searchLoop_terminates hr anc
        (pathCount repo (rank a) a + pathCount repo (rank b) b) [b] (by simp)
      refine ⟨hS, ?_⟩
      intro fuel hf
      rw [ancestorsLoop_mono_le repo hf [] [a] hA, hA1]
      exact searchLoop_mono_le repo anc hf [b] hS
  · intro fuel h hr hne
    unfold Command.find_lca at hr
    cases h1 : ancestorsLoop repo fuel [] [a] with
    | ok anc =>
      simp only [h1] at hr
      rcases searchLoop_sound repo anc b fuel [b] h hr (by
        intro x hx
        rw [List.mem_singleton.1 hx]
        exact Relation.ReflTransGen.refl) with h2 | h2
      · exact absurd h2 hne
      · have hp : ProperAncestor repo a h :=
          ancestorsLoop_sound repo a fuel [] [a] anc h1 (by
            intro x hx
            rw [List.mem_singleton.1 hx]
            exact Relation.ReflTransGen.refl) (by
            intro x hx
            simp at hx) h h2.1
        exact ⟨h2.2, hp, Relation.TransGen.to_reflTransGen hp⟩
    | err => simp [h1] at hr
    | fuel => simp [h1] at hr

set_option maxRecDepth 100000 in
/-- Witness for C16: in `exBehind`, where the commit `hx 99` has the parent `hx 60`,
`find_lca (hx 99) (hx 60)` returns `hx 60`, a proper ancestor of `hx 99`. -/
theorem find_lca_spec_witness :
    Command.find_lca 10 exBehind.repo (hx 99) (hx 60) = Res.ok (hx 60) ∧
    Reaches exBehind.repo (hx 60) (hx 60) ∧ ProperAncestor exBehind.repo (hx 99) (hx 60) :=
  ⟨by decide,
    ((find_lca_spec exBehind.repo (hx 99) (hx 60) exBehind_acyclic).2 10 (hx 60)
      (by decide) (by decide)).1,
    ((find_lca_spec exBehind.repo (hx 99) (hx 60) exBehind_acyclic).2 10 (hx 60)
      (by decide) (by decide)).2.1⟩

/-! ## The history printed by `log` -/

theorem loads_parent {repo : Files} {h p : Str} (hl : Loads repo h) (hp : p ∈ parentsOf repo h) :
    Loads repo p := by
  intro x hx
  exact hl x (Relation.ReflTransGen.head hp hx)

theorem loads_ne_nil {repo : Files} {h : Str} (hl : Loads repo h) : h ≠ [] := by
  intro e
  apply hl h Relation.ReflTransGen.refl
  rw [e]
  rfl

/-- With as many steps as the rank of the start plus one, the loop of `log` prints the
first-parent chain of the start. -/
theorem logLoop_chain {repo : Files} {rank : Str → Nat}
    (hr : ∀ h p, p ∈ parentsOf repo h → rank p < rank h) :
    ∀ (n : Nat) (h : Str), rank h < n → Loads repo h →
    ∃ l, logLoop repo n h = Res.ok l ∧
      l.head?.map Prod.fst = some h ∧
      (∀ e ∈ l, loadCommit repo e.1 = some e.2) ∧
      l.Chain' (fun x y => x.2.parents.head? = some y.1) ∧
      (∀ e, l.getLast? = some e → e.2.parents = []) := by
  intro n
  induction n with
  | zero => intro h hn _; exact absurd hn (Nat.not_lt_zero _)
  | succ n ih =>
    intro h hn hl
    cases h with
    | nil => exact absurd rfl (loads_ne_nil hl)
    | cons c0 cs =>
      cases hd : loadCommit repo (c0 :: cs) with
      | none => exact absurd hd (hl _ Relation.ReflTransGen.refl)
      | some c =>
        have hpar := parentsOf_of_load hd
        cases hps : c.parents with
        | nil =>
          refine ⟨[(c0 :: cs, c)], ?_, rfl, ?_, List.chain'_singleton _, ?_⟩
          · rw [logLoop, hd]
            simp only [hps, List.head?_nil, Option.getD_none]
            cases n <;> rfl
          · intro e he
            rw [List.mem_singleton.1 he]
            exact hd
          · intro e he
            simp only [List.getLast?_singleton, Option.some.injEq] at he
            rw [← he]
            exact hps
        | cons p ps =>
          have hp : p ∈ parentsOf repo (c0 :: cs) := by
            rw [hpar, hps]
            exact List.mem_cons_self _ _
          have hrp := hr _ _ hp
          obtain ⟨l, h1, h2, h3, h4, h5⟩ := ih p (by omega) (loads_parent hl hp)
          refine ⟨(c0 :: cs, c) :: l, ?_, rfl, ?_, ?_, ?_⟩
          · rw [logLoop, hd]
            simp only [hps, List.head?_cons, Option.getD_some, h1]
          · intro e he
            rcases List.mem_cons.1 he with he | he
            · rw [he]; exact hd
            · exact h3 e he
          · rw [List.chain'_cons']
            refine ⟨?_, h4⟩
            intro y hy
            rw [Option.mem_def] at hy
            rw [hy] at h2
            simp only [Option.map_some', Option.some.injEq] at h2
            simp only [hps, List.head?_cons, h2]
          · intro e he
            cases l with
            | nil => simp at h2
            | cons x xs =>
              rw [List.getLast?_cons_cons] at he
              exact h5 e he

/-- More steps do not change the list the loop of `log` prints. -/
theorem logLoop_mono (repo : Files) : ∀ (n : Nat) (h : Str) (l : List (Str × Commit)),
    logLoop repo n h = Res.ok l → logLoop repo (n + 1) h = Res.ok l := by
  intro n
  induction n with
  | zero =>
    intro h l hl
    cases h with
    | nil => exact hl
    | cons c0 cs => simp [logLoop] at hl
  | succ n ih =>
    intro h l hl
    cases h with
    | nil => exact hl
    | cons c0 cs =>
      rw [logLoop] at hl ⊢
      cases hd : loadCommit repo (c0 :: cs) with
      | none => simp [hd] at hl
      | some c =>
        simp only [hd] at hl ⊢
        cases hq : logLoop repo n (c.parents.head?.getD []) with
        | ok l1 =>
          rw [hq] at hl
          rw [ih _ _ hq]
          exact hl
        | err => simp [hq] at hl
        | fuel => simp [hq] at hl

theorem logLoop_mono_le (repo : Files) {n m : Nat} (hnm : n ≤ m) (h : Str)
    (l : List (Str × Commit)) (hl : logLoop repo n h = Res.ok l) :
    logLoop repo m h = Res.ok l := by
  induction hnm with
  | refl => exact hl
  | step _ ih => exact logLoop_mono _ _ _ _ ih

/-- Without any assumption on the objects, the loop of `log` ends within as many steps as the
rank of the start plus one: with a list or with an exception. -/
theorem logLoop_terminates {repo : Files} {rank : Str → Nat}
    (hr : ∀ h p, p ∈ parentsOf repo h → rank p < rank h) :
    ∀ (n : Nat) (h : Str), rank h < n → logLoop repo n h ≠ Res.fuel := by
  intro n
  induction n with
  | zero => intro h hn; exact absurd hn (Nat.not_lt_zero _)
  | succ n ih =>
    intro h hn
    cases h with
    | nil => simp [logLoop]
    | cons c0 cs =>
      rw [logLoop]
      cases hd : loadCommit repo (c0 :: cs) with
      | none => simp
      | some c =>
        simp only
        cases hps : c.parents with
        | nil =>
          simp only [List.head?_nil, Option.getD_none]
          have e : logLoop repo n [] = Res.ok [] := by cases n <;> rfl
          rw [e]
          simp
        | cons p ps =>
          have hp : p ∈ parentsOf repo (c0 :: cs) := by
            rw [parentsOf_of_load hd, hps]
            exact List.mem_cons_self _ _
          have hrp := hr _ _ hp
          have := ih p (by omega)
          simp only [List.head?_cons, Option.getD_some]
          cases hq : logLoop repo n p with
          | ok l => simp
          | err => simp
          | fuel => exact absurd hq this

/-- More steps do not change how the loop of `log` ends. -/
theorem logLoop_stable (repo : Files) : ∀ (n : Nat) (h : Str),
    logLoop repo n h ≠ Res.fuel → logLoop repo (n + 1) h = logLoop repo n h := by
  intro n
  induction n with
  | zero =>
    intro h hl
    cases h with
    | nil => rfl
    | cons c0 cs => exact absurd rfl hl
  | succ n ih =>
    intro h hl
    cases h with
    | nil => rfl
    | cons c0 cs =>
      rw [logLoop] at hl
      rw [logLoop, logLoop]
      cases hd : loadCommit repo (c0 :: cs) with
      | none => rfl
      | some c =>
        simp only [hd] at hl ⊢
        cases hq : logLoop repo n (c.parents.head?.getD []) with
        | ok l1 => rw [ih _ (by rw [hq]; simp), hq]
        | err => rw [ih _ (by rw [hq]; simp), hq]
        | fuel =>
          rw [hq] at hl
          exact absurd rfl hl

theorem logLoop_stable_le (repo : Files) {n m : Nat} (hnm : n ≤ m) (h : Str)
    (hl : logLoop repo n h ≠ Res.fuel) : logLoop repo m h = logLoop repo n h := by
  induction hnm with
  | refl => rfl
  | step _ ih => rw [logLoop_stable _ _ _ (by rw [ih]; exact hl), ih]

/-- Claim C15: in an acyclic commit graph `log` terminates: from some number of steps on, more
steps do not change how it ends, and it does not end by running out of steps. When every object
reached from the hash HEAD resolves to loads (so that hash is not empty: the empty hash does not
load), it prints a list that starts with the HEAD commit, in which every commit after the first
is the first parent of the one printed before it (further parents of a merge commit are not
followed), every printed commit is the object stored under its hash, and the last one has no
parents. -/
theorem log_spec (repo : Files) (hac : Acyclic repo) :
    (∃ N, Command.log N repo ≠ Res.fuel ∧
      ∀ fuel, N ≤ fuel → Command.log fuel repo = Command.log N repo) ∧
    (Loads repo (get_head_hash repo) →
      ∃ (N : Nat) (l : List (Str × Commit)),
        (∀ fuel, N ≤ fuel → Command.log fuel repo = Res.ok l) ∧
        l.head?.map Prod.fst = some (get_head_hash repo) ∧
        (∀ e ∈ l, loadCommit repo e.1 = some e.2) ∧
        l.Chain' (fun x y => x.2.parents.head? = some y.1) ∧
        (∀ e, l.getLast? = some e → e.2.parents = [])) := by
  obtain ⟨rank, hr⟩ := hac
  constructor
  · have ht := logLoop_terminates hr (rank (get_head_hash repo) + 1) (get_head_hash repo)
      (Nat.lt_succ_self _)
    refine ⟨rank (get_head_hash repo) + 1, ht, ?_⟩
    intro fuel hf
    exact logLoop_stable_le repo hf _ ht
  · intro hl
    obtain ⟨l, h1, h2⟩ := logLoop_chain hr (rank (get_head_hash repo) + 1) (get_head_hash repo)
      (Nat.lt_succ_self _) hl
    refine ⟨rank (get_head_hash repo) + 1, l, ?_, h2⟩
    intro fuel hf
    unfold Command.log
    exact logLoop_mono_le repo hf _ _ h1

set_option maxRecDepth 100000 in
/-- Witness for C15: in `exBehind` HEAD is at `hx 99`, whose parent is `hx 60`; with five steps
`log` prints these two commits, and the theorem applies to that repository. -/
theorem log_spec_witness :
    (Command.log 5 exBehind.repo = Res.ok
      [(hx 99, exCommit "ours".toList 2 [hx 60] [("f".toList, hx 2)]),
        (hx 60, exCommit "first".toList 1 [] [("f".toList, hx 1)])]) ∧
    ∃ (N : Nat) (l : List (Str × Commit)),
      (∀ fuel, N ≤ fuel → Command.log fuel exBehind.repo = Res.ok l) ∧
      l.head?.map Prod.fst = some (get_head_hash exBehind.repo) ∧
      (∀ e ∈ l, loadCommit exBehind.repo e.1 = some e.2) ∧
      l.Chain' (fun x y => x.2.parents.head? = some y.1) ∧
      (∀ e, l.getLast? = some e → e.2.parents = []) :=
  ⟨by decide, (log_spec exBehind.repo exBehind_acyclic).2 (by
    have e : get_head_hash exBehind.repo = hx 99 := by decide
    rw [e]
    exact exBehind_loads)⟩

/-! ## The parents read back from a commit text -/

theorem stol_showLong_big {t : Int}
    (h : ¬ (-9223372036854775808 ≤ t ∧ t ≤ 9223372036854775807)) : stol (showLong t) = none := by
  unfold stol
  rw [parseInt_showLong]
  simp only
  rw [if_neg h]

theorem headerLoop_timestamp_big (n : Nat) (t : Int) (rest : Str) (c : Commit)
    (ht : ¬ (-9223372036854775808 ≤ t ∧ t ≤ 9223372036854775807)) :
    Commit.headerLoop (n + 1) (("timestamp ".toList ++ showLong t) ++ '\n' :: rest) c = none := by
  have h1 : '\n' ∉ "timestamp ".toList ++ showLong t := by
    intro hm
    rcases List.mem_append.1 hm with hm | hm
    · exact absurd hm (by decide)
    · exact showLong_no_newline _ hm
  have h2 : "timestamp ".toList ++ showLong t ≠ [] := by
    intro e
    exact absurd (congrArg List.length e) (by simp)
  have h3 : List.drop 10 ("timestamp ".toList ++ showLong t) = showLong t := rfl
  have h4 : startsWith ("timestamp ".toList ++ showLong t) "tree ".toList = false := rfl
  have h5 : startsWith ("timestamp ".toList ++ showLong t) "parent ".toList = false := rfl
  rw [Commit.headerLoop, getline_append h1]
  simp only [h2, if_false, h4, h5, Bool.false_eq_true, startsWith_append, if_true, h3,
    stol_showLong_big ht]

/-- A timestamp outside the range of `long` cannot be read back: `stol` throws. -/
theorem deserialize_big_time (c : Commit)
    (hf : ∀ e ∈ c.files, IsToken e.1 ∧ ∀ ch ∈ e.2, isspace ch = false)
    (hp : ∀ p ∈ c.parents, '\n' ∉ p) (hn : c.files.length ≤ 2147483647)
    (ht : ¬ (-9223372036854775808 ≤ c.timestamp ∧ c.timestamp ≤ 9223372036854775807)) :
    Commit.deserialize c.serialize = none := by
  obtain ⟨m, hm⟩ : ∃ m, c.serialize.length = (((m + 1) + 1) + c.parents.length) + 1 := by
    refine ⟨c.serialize.length - (c.parents.length + 3), ?_⟩
    have := serializeParents_length c.parents
    have : c.parents.length + 18 ≤ c.serialize.length := by
      unfold Commit.serialize
      simp only [List.length_append, List.length_cons]
      have h10 : "timestamp ".toList.length = 10 := rfl
      have h5 : "tree ".toList.length = 5 := rfl
      omega
    omega
  unfold Commit.deserialize
  rw [hm]
  unfold Commit.serialize
  rw [headerLoop_tree _ _ _ _ hn, treeLoop_serializeFiles _ _ _ hf]
  simp only
  rw [headerLoop_parents _ _ _ _ hp, headerLoop_timestamp_big _ _ _ _ ht]

/-- Whenever the text of a commit can be read back, the parents read are those written. -/
theorem deserialize_parents (c : Commit) (hs : MapSorted c.files)
    (hf : ∀ e ∈ c.files, IsToken e.1 ∧ ∀ ch ∈ e.2, isspace ch = false)
    (hp : ∀ p ∈ c.parents, '\n' ∉ p) (d : Commit)
    (hd : Commit.deserialize c.serialize = some d) : d.parents = c.parents := by
  by_cases hn : c.files.length ≤ 2147483647
  · by_cases ht : -9223372036854775808 ≤ c.timestamp ∧ c.timestamp ≤ 9223372036854775807
    · rw [deserialize_serialize c hs hf hp hn ht] at hd
      rw [← Option.some.inj hd]
    · rw [deserialize_big_time c hf hp hn ht] at hd
      exact absurd hd (by simp)
  · rw [deserialize_big c (by omega)] at hd
    exact absurd hd (by simp)

/-! ## The commit graph of a history -/

theorem parentsOf_congr {r1 r2 : Files} {h : Str} (e : r1 (objPath h) = r2 (objPath h)) :
    parentsOf r1 h = parentsOf r2 h := by
  unfold parentsOf loadCommit read_file
  rw [e]

theorem parentsOf_nil (repo : Files) : parentsOf repo [] = [] := rfl

/-- The invariant carries over to a store with the same objects for the commits made so far,
once the branch files and `HEAD` are accounted for. -/
theorem graphInv_frame {H : Str → Nat} {repo repo1 : Files} {S : Str → Prop} {rank : Str → Nat}
    (h : GraphInv H repo S rank) (ho : ∀ k, S k → repo1 (objPath k) = repo (objPath k))
    (hb : ∀ name v, repo1 (headPath name) = some v → v = [] ∨ S v)
    (hh : (∃ name, read_file repo1 HEAD_FILE = "ref: refs/heads/".toList ++ name) ∨
      S (read_file repo1 HEAD_FILE)) :
    GraphInv H repo1 S rank := by
  refine ⟨?_, hb, hh⟩
  intro k hk
  obtain ⟨h1, h2, h3⟩ := h.1 k hk
  refine ⟨h1, by rw [ho k hk]; exact h2, ?_⟩
  rw [parentsOf_congr (ho k hk)]
  exact h3

theorem graphInv_head {H : Str → Nat} {repo : Files} {S : Str → Prop} {rank : Str → Nat}
    (h : GraphInv H repo S rank) : get_head_hash repo = [] ∨ S (get_head_hash repo) := by
  rcases h.2.2 with ⟨name, hn⟩ | hs
  · have hsw : startsWith (read_file repo HEAD_FILE) "ref: ".toList = true := by
      rw [hn]
      exact startsWith_append "ref: ".toList (headPath name)
    have hdrop : (read_file repo HEAD_FILE).drop 5 = headPath name := by
      rw [hn]
      rfl
    unfold get_head_hash
    rw [if_pos hsw, hdrop]
    unfold read_file
    cases e : repo (headPath name) with
    | none => exact Or.inl rfl
    | some v => exact h.2.1 name v e
  · obtain ⟨d, hd⟩ := (h.1 _ hs).1
    have hsw : startsWith (read_file repo HEAD_FILE) "ref: ".toList = false := by
      rw [hd]
      exact calculate_hash_not_ref H d
    unfold get_head_hash
    rw [hsw]
    exact Or.inr hs

theorem graphInv_no_newline {H : Str → Nat} {repo : Files} {S : Str → Prop} {rank : Str → Nat}
    (h : GraphInv H repo S rank) {p : Str} (hp : S p) : '\n' ∉ p := by
  obtain ⟨d, hd⟩ := (h.1 p hp).1
  rw [hd]
  exact no_space_no_newline (calculate_hash_token H d).2

theorem graphInv_write_index {H : Str → Nat} {repo : Files} {S : Str → Prop} {rank : Str → Nat}
    (h : GraphInv H repo S rank) (x : Str) : GraphInv H (write_file repo INDEX_FILE x) S rank := by
  apply graphInv_frame h
  · intro k _
    exact write_other _ _ (objPath_ne_INDEX k)
  · intro name v hv
    rw [write_other _ _ (headPath_ne_INDEX name)] at hv
    exact h.2.1 name v hv
  · have e : read_file (write_file repo INDEX_FILE x) HEAD_FILE = read_file repo HEAD_FILE := by
      rw [read_write, if_neg HEAD_ne_INDEX]
    rw [e]
    exact h.2.2

theorem graphInv_write_branch {H : Str → Nat} {repo : Files} {S : Str → Prop} {rank : Str → Nat}
    (h : GraphInv H repo S rank) (b : Str) {v : Str} (hv : v = [] ∨ S v) :
    GraphInv H (write_file repo (headPath b) v) S rank := by
  apply graphInv_frame h
  · intro k _
    exact write_other _ _ (objPath_ne_headPath k b)
  · intro name u hu
    by_cases e : headPath name = headPath b
    · rw [e, write_same] at hu
      rw [← Option.some.inj hu]
      exact hv
    · rw [write_other _ _ e] at hu
      exact h.2.1 name u hu
  · have e : read_file (write_file repo (headPath b) v) HEAD_FILE = read_file repo HEAD_FILE := by
      rw [read_write, if_neg (headPath_ne_HEAD b).symm]
    rw [e]
    exact h.2.2

theorem graphInv_write_head {H : Str → Nat} {repo : Files} {S : Str → Prop} {rank : Str → Nat}
    (h : GraphInv H repo S rank) {v : Str}
    (hv : (∃ name, v = "ref: refs/heads/".toList ++ name) ∨ S v) :
    GraphInv H (write_file repo HEAD_FILE v) S rank := by
  apply graphInv_frame h
  · intro k _
    exact write_other _ _ (objPath_ne_HEAD k)
  · intro name u hu
    rw [write_other _ _ (headPath_ne_HEAD name)] at hu
    exact h.2.1 name u hu
  · have e : read_file (write_file repo HEAD_FILE v) HEAD_FILE = v := by
      rw [read_write, if_pos rfl]
    rw [e]
    exact hv

theorem graphInv_new_object {H : Str → Nat} {repo : Files} {S : Str → Prop} {rank : Str → Nat}
    (h : GraphInv H repo S rank) {k : Str} (hk : repo (objPath k) = none) (content : Str) :
    GraphInv H (write_file repo (objPath k) content) S rank := by
  apply graphInv_frame h
  · intro j hj
    have hne : j ≠ k := by
      intro e
      rw [e] at hj
      exact (h.1 k hj).2.1 hk
    exact write_other _ _ (fun e => hne (objPath_inj e))
  · intro name u hu
    rw [write_other _ _ (objPath_ne_headPath k name).symm] at hu
    exact h.2.1 name u hu
  · have e : read_file (write_file repo (objPath k) content) HEAD_FILE =
        read_file repo HEAD_FILE := by
      rw [read_write, if_neg (objPath_ne_HEAD k).symm]
    rw [e]
    exact h.2.2

theorem le_sum_map (rank : Str → Nat) : ∀ (l : List Str) (p : Str), p ∈ l →
    rank p ≤ (l.map rank).sum := by
  intro l
  induction l with
  | nil => intro p hp; simp at hp
  | cons x xs ih =>
    intro p hp
    rw [List.map_cons, List.sum_cons]
    rcases List.mem_cons.1 hp with e | hm
    · rw [e]; omega
    · have := ih p hm
      omega

/-- Storing a commit whose parents are commits made so far, under its digest and not over a
different text, keeps the graph ranked and adds the new commit to it. -/
theorem graphInv_store_commit {H : Str → Nat} {repo : Files} {S : Str → Prop} {rank : Str → Nat}
    (h : GraphInv H repo S rank) (c : Commit) (hs : MapSorted c.files)
    (hf : ∀ e ∈ c.files, IsToken e.1 ∧ ∀ ch ∈ e.2, isspace ch = false)
    (hp : ∀ p ∈ c.parents, S p)
    (hc : NoClash repo (calculate_hash H c.serialize) c.serialize) :
    ∃ (S1 : Str → Prop) (rank1 : Str → Nat),
      GraphInv H (write_file repo (objPath (calculate_hash H c.serialize)) c.serialize) S1 rank1 ∧
      S1 (calculate_hash H c.serialize) ∧ ∀ x, S x → S1 x := by
  by_cases hk : S (calculate_hash H c.serialize)
  · have hsame : repo (objPath (calculate_hash H c.serialize)) = some c.serialize := by
      rcases hc with hc | hc
      · exact absurd hc (h.1 _ hk).2.1
      · exact hc
    have e : write_file repo (objPath (calculate_hash H c.serialize)) c.serialize = repo := by
      funext q
      unfold write_file
      split_ifs with hq
      · rw [hq, hsame]
      · rfl
    rw [e]
    exact ⟨S, rank, h, hk, fun _ hx => hx⟩
  · refine ⟨fun x => S x ∨ x = calculate_hash H c.serialize,
      fun x => if x = calculate_hash H c.serialize then (c.parents.map rank).sum + 1 else rank x,
      ?_, Or.inr rfl, fun _ hx => Or.inl hx⟩
    have hnk : ∀ x, S x → x ≠ calculate_hash H c.serialize := by
      intro x hx e
      rw [e] at hx
      exact hk hx
    refine ⟨?_, ?_, ?_⟩
    · intro x hx
      rcases hx with hx | hx
      · obtain ⟨h1, h2, h3⟩ := h.1 x hx
        have ho : write_file repo (objPath (calculate_hash H c.serialize)) c.serialize
            (objPath x) = repo (objPath x) :=
          write_other _ _ (fun e => hnk x hx (objPath_inj e))
        refine ⟨h1, by rw [ho]; exact h2, ?_⟩
        rw [parentsOf_congr ho]
        intro p hpp
        obtain ⟨h4, h5⟩ := h3 p hpp
        refine ⟨Or.inl h4, ?_⟩
        simp only
        rw [if_neg (hnk p h4), if_neg (hnk x hx)]
        exact h5
      · rw [hx]
        refine ⟨⟨_, rfl⟩, by rw [write_same]; simp, ?_⟩
        intro p hpp
        unfold parentsOf loadCommit at hpp
        rw [if_neg (calculate_hash_ne_nil H _), read_write, if_pos rfl] at hpp
        cases hd : Commit.deserialize c.serialize with
        | none =>
          rw [hd] at hpp
          simp at hpp
        | some d =>
          rw [hd] at hpp
          simp only at hpp
          rw [deserialize_parents c hs hf (fun q hq => graphInv_no_newline h (hp q hq)) d hd]
            at hpp
          refine ⟨Or.inl (hp p hpp), ?_⟩
          simp only
          rw [if_neg (hnk p (hp p hpp)), if_pos trivial]
          have := le_sum_map rank c.parents p hpp
          omega
    · intro name v hv
      rw [write_other _ _ (objPath_ne_headPath _ name).symm] at hv
      rcases h.2.1 name v hv with e | e
      · exact Or.inl e
      · exact Or.inr (Or.inl e)
    · have e : read_file (write_file repo (objPath (calculate_hash H c.serialize)) c.serialize)
          HEAD_FILE = read_file repo HEAD_FILE := by
        rw [read_write, if_neg (objPath_ne_HEAD _).symm]
      rw [e]
      rcases h.2.2 with hh | hh
      · exact Or.inl hh
      · exact Or.inr (Or.inl hh)

/-- The state `commit` and `merge` leave after storing such a commit and moving the pointer. -/
theorem graphInv_mergeWrite {H : Str → Nat} {w : World} {S : Str → Prop} {rank : Str → Nat}
    (h : GraphInv H w.repo S rank) (c : Commit) (hs : MapSorted c.files)
    (hf : ∀ e ∈ c.files, IsToken e.1 ∧ ∀ ch ∈ e.2, isspace ch = false)
    (hp : ∀ p ∈ c.parents, S p)
    (hc : NoClash w.repo (calculate_hash H c.serialize) c.serialize) :
    ∃ (S1 : Str → Prop) (rank1 : Str → Nat),
      GraphInv H (mergeWrite w (calculate_hash H c.serialize) c.serialize).repo S1 rank1 := by
  obtain ⟨S1, rank1, h1, h2, -⟩ := graphInv_store_commit h c hs hf hp hc
  refine ⟨S1, rank1, ?_⟩
  by_cases hb : current_branch w.repo ≠ []
  · rw [mergeWrite_branch _ _ _ hb]
    exact graphInv_write_branch h1 _ (Or.inr h2)
  · rw [mergeWrite_detached _ _ _ (not_not.1 hb)]
    exact graphInv_write_head h1 (Or.inr h2)

/-! ## Each command keeps the commit graph ranked -/

theorem graphInv_init (H : Str → Nat) (w : World) (hd : w.dir = false)
    (he : ∀ p, w.repo p = none) :
    GraphInv H (Command.init w).repo (fun _ => False) (fun _ => 0) := by
  unfold Command.init
  rw [hd]
  simp only [Bool.false_eq_true, if_false]
  refine ⟨fun _ hx => absurd hx not_false, ?_, Or.inl ⟨"main".toList, ?_⟩⟩
  · intro name v hv
    rw [write_other _ _ (headPath_ne_INDEX name)] at hv
    by_cases e : headPath name = headPath "main".toList
    · rw [e, write_same] at hv
      exact Or.inl (Option.some.inj hv).symm
    · rw [write_other _ _ e, write_other _ _ (headPath_ne_HEAD name), he] at hv
      exact absurd hv (by simp)
  · rw [read_write, if_neg HEAD_ne_INDEX, read_write, if_neg (headPath_ne_HEAD _).symm,
      read_write, if_pos rfl]
    rfl

theorem graphInv_add {H : Str → Nat} {w : World} {S : Str → Prop} {rank : Str → Nat}
    (h : GraphInv H w.repo S rank) (file : Str) :
    GraphInv H (Command.add H file w).1.repo S rank := by
  by_cases hc : file_exists w.repo HEAD_FILE = true ∧ plainName file = true ∧
      file_exists w.work file = true
  · rw [add_eq H file w hc.1 hc.2.1 hc.2.2]
    simp only
    split_ifs with c
    · apply graphInv_write_index
      apply graphInv_new_object h
      unfold file_exists at c
      cases e : w.repo (objPath (calculate_hash H (read_file w.work file))) with
      | none => rfl
      | some v => rw [e] at c; simp at c
    · exact graphInv_write_index h _
  · rw [add_unchanged H file w hc]
    exact h

theorem graphInv_commit {H : Str → Nat} {w : World} {S : Str → Prop} {rank : Str → Nat}
    (h : GraphInv H w.repo S rank) (now : Int) (message : Str)
    (hc : NoClash w.repo (calculate_hash H (commitOf now message w.repo).serialize)
      (commitOf now message w.repo).serialize) :
    ∃ (S1 : Str → Prop) (rank1 : Str → Nat),
      GraphInv H (Command.commit H now message w).1.repo S1 rank1 := by
  by_cases c : Index.load (read_file w.repo INDEX_FILE) = []
  · have : Command.commit H now message w = (w, CommitOut.nothingToCommit) := by
      unfold Command.commit
      simp only
      rw [if_pos c]
    rw [this]
    exact ⟨S, rank, h⟩
  · rw [commit_eq H now message w c]
    have inv := load_inv (read_file w.repo INDEX_FILE)
    obtain ⟨S1, rank1, h1⟩ := graphInv_mergeWrite h (commitOf now message w.repo) inv.1
      (tokenMap_entries inv.2) (by
        intro p hp
        unfold commitOf at hp
        simp only at hp
        split_ifs at hp with e
        · simp at hp
        · rw [List.mem_singleton.1 hp]
          rcases graphInv_head h with e1 | e1
          · exact absurd e1 e
          · exact e1) hc
    exact ⟨S1, rank1, graphInv_write_index h1 _⟩

theorem graphInv_branch {H : Str → Nat} {w : World} {S : Str → Prop} {rank : Str → Nat}
    (h : GraphInv H w.repo S rank) (name : Str) :
    GraphInv H (Command.branch name w).1.repo S rank := by
  unfold Command.branch
  split_ifs <;> first
    | exact h
    | exact graphInv_write_branch h name (graphInv_head h)

theorem graphInv_checkoutTarget {H : Str → Nat} {w : World} {S : Str → Prop} {rank : Str → Nat}
    (h : GraphInv H w.repo S rank) (T : Str) (b : Bool) :
    GraphInv H (Command.checkoutTarget T b w).1.repo S rank := by
  rcases checkoutTarget_repo T b w with e | ⟨x, e⟩
  · rw [e]
    exact h
  · rw [e]
    exact graphInv_write_index h _

theorem graphInv_checkout {H : Str → Nat} {w : World} {S : Str → Prop} {rank : Str → Nat}
    (h : GraphInv H w.repo S rank) (name : Str) (hn : plainName name = true)
    (hb : file_exists w.repo (headPath name) = true) :
    GraphInv H (Command.checkout name w).1.repo S rank := by
  unfold Command.checkout
  rw [hn, hb]
  simp only [Bool.not_true, Bool.false_eq_true, if_false, if_true]
  apply graphInv_checkoutTarget
  exact graphInv_write_head h (Or.inl ⟨name, rfl⟩)

/-- How `merge` ends: with the state it was given, with the state `checkout` of the (existing)
branch leaves, or with a merge commit after a three-way loop without conflict. -/
theorem merge_outcome (H : Str → Nat) (now : Int) (fuel : Nat) (name : Str) (w : World) :
    (Command.merge H now fuel name w).1 = w ∨
    ((Command.merge H now fuel name w).1 = (Command.checkout name w).1 ∧
      file_exists w.repo (headPath name) = true) ∨
    ∃ (lca_hash : Str) (lca current other : Commit),
      ThreeWay fuel w name lca_hash lca current other ∧
      (mergeFiles lca.files current.files other.files).2 = [] := by
  by_cases h1 : file_exists w.repo (headPath name) = true
  · by_cases h2 : get_head_hash w.repo = read_file w.repo (headPath name)
    · left
      unfold Command.merge
      simp only [h1, Bool.not_true, Bool.false_eq_true, if_false, h2, if_true]
    · cases hl : Command.find_lca fuel w.repo (get_head_hash w.repo)
          (read_file w.repo (headPath name)) with
      | fuel =>
        left
        unfold Command.merge
        simp only [h1, Bool.not_true, Bool.false_eq_true, if_false, h2, hl]
      | err =>
        left
        unfold Command.merge
        simp only [h1, Bool.not_true, Bool.false_eq_true, if_false, h2, hl]
      | ok l =>
        by_cases h3 : l = get_head_hash w.repo
        · right; left
          refine ⟨?_, h1⟩
          unfold Command.merge
          simp only [h1, Bool.not_true, Bool.false_eq_true, if_false, h2, hl, h3, if_true]
        · by_cases h4 : l = read_file w.repo (headPath name)
          · left
            have h2s : ¬ read_file w.repo (headPath name) = get_head_hash w.repo :=
              fun e => h2 e.symm
            unfold Command.merge
            simp only [h1, Bool.not_true, Bool.false_eq_true, if_false, h2, hl, h4, h2s,
              if_true]
          · cases e1 : loadCommit w.repo l with
            | none =>
              left
              unfold Command.merge
              simp only [h1, Bool.not_true, Bool.false_eq_true, if_false, h2, hl, h3, h4, e1]
            | some lca =>
              cases e2 : loadCommit w.repo (get_head_hash w.repo) with
              | none =>
                left
                unfold Command.merge
                simp only [h1, Bool.not_true, Bool.false_eq_true, if_false, h2, hl, h3, h4, e1,
                  e2]
              | some current =>
                cases e3 : loadCommit w.repo (read_file w.repo (headPath name)) with
                | none =>
                  left
                  unfold Command.merge
                  simp only [h1, Bool.not_true, Bool.false_eq_true, if_false, h2, hl, h3, h4,
                    e1, e2, e3]
                | some other =>
                  have tw : ThreeWay fuel w name l lca current other :=
                    ⟨h1, h2, hl, h3, h4, e1, e2, e3⟩
                  by_cases hc : (mergeFiles lca.files current.files other.files).2 = []
                  · right; right
                    exact ⟨l, lca, current, other, tw, hc⟩
                  · left
                    rw [merge_threeWay H now tw, if_pos hc]
  · left
    unfold Command.merge
    simp only [h1, Bool.not_false, if_true]

theorem graphInv_merge {H : Str → Nat} {w : World} {S : Str → Prop} {rank : Str → Nat}
    (h : GraphInv H w.repo S rank) (now : Int) (fuel : Nat) (name : Str)
    (hn : plainName name = true)
    (hc : ∀ hash, (Command.merge H now fuel name w).2 = MergeOut.merged hash →
      NoClash w.repo hash (read_file (Command.merge H now fuel name w).1.repo (objPath hash))) :
    ∃ (S1 : Str → Prop) (rank1 : Str → Nat),
      GraphInv H (Command.merge H now fuel name w).1.repo S1 rank1 := by
  rcases merge_outcome H now fuel name w with e | ⟨e, hb⟩ | ⟨l, lca, current, other, tw, hcl⟩
  · rw [e]
    exact ⟨S, rank, h⟩
  · rw [e]
    exact ⟨S, rank, graphInv_checkout h name hn hb⟩
  · have hm := merge_threeWay_clean H now tw hcl
    have tl := (loadCommit_inv tw.2.2.2.2.2.1).2
    have tc := loadCommit_inv tw.2.2.2.2.2.2.1
    have tt := (loadCommit_inv tw.2.2.2.2.2.2.2).2
    have hcur : S (get_head_hash w.repo) := by
      rcases graphInv_head h with e | e
      · exact absurd e (loadCommit_some tw.2.2.2.2.2.2.1).1
      · exact e
    have hoth : S (read_file w.repo (headPath name)) := by
      have hne := (loadCommit_some tw.2.2.2.2.2.2.2).1
      unfold read_file at hne ⊢
      cases e : w.repo (headPath name) with
      | none => rw [e] at hne; exact absurd rfl hne
      | some v =>
        rw [e] at hne
        rcases h.2.1 name v e with e1 | e1
        · exact absurd e1 hne
        · exact e1
    have hclash := hc _ (by rw [hm])
    rw [hm] at hclash
    simp only at hclash
    have hrd : read_file (mergeWrite w
        (calculate_hash H (mergeCommit now name (get_head_hash w.repo)
          (read_file w.repo (headPath name))
          (mergeFiles lca.files current.files other.files).1).serialize)
        (mergeCommit now name (get_head_hash w.repo) (read_file w.repo (headPath name))
          (mergeFiles lca.files current.files other.files).1).serialize).repo
        (objPath (calculate_hash H (mergeCommit now name (get_head_hash w.repo)
          (read_file w.repo (headPath name))
          (mergeFiles lca.files current.files other.files).1).serialize)) =
        (mergeCommit now name (get_head_hash w.repo) (read_file w.repo (headPath name))
          (mergeFiles lca.files current.files other.files).1).serialize := by
      unfold read_file
      rw [mergeWrite_obj, if_pos rfl]
      rfl
    rw [hrd] at hclash
    rw [hm]
    have inv := mergeFiles_inv tl tc.2 tt tc.1
    exact graphInv_mergeWrite h (mergeCommit now name (get_head_hash w.repo)
      (read_file w.repo (headPath name)) (mergeFiles lca.files current.files other.files).1)
      inv.1 inv.2 (by
        intro p hp
        have hp2 : p ∈ [get_head_hash w.repo, read_file w.repo (headPath name)] := hp
        rcases List.mem_cons.1 hp2 with e | e
        · rw [e]; exact hcur
        · rw [List.mem_singleton.1 e]; exact hoth) hclash

/-- In every state of a history the commits made so far form a ranked graph. -/
theorem reachableByName_inv {H : Str → Nat} {w : World} (h : ReachableByName H w) :
    ∃ (S : Str → Prop) (rank : Str → Nat), GraphInv H w.repo S rank := by
  induction h with
  | init w hd he => exact ⟨_, _, graphInv_init H w hd he⟩
  | edit w work _ ih => exact ih
  | add w file _ _ ih =>
    obtain ⟨S, rank, h1⟩ := ih
    exact ⟨S, rank, graphInv_add h1 file⟩
  | commit w now message _ hc ih =>
    obtain ⟨S, rank, h1⟩ := ih
    exact graphInv_commit h1 now message hc
  | branch w name _ _ ih =>
    obtain ⟨S, rank, h1⟩ := ih
    exact ⟨S, rank, graphInv_branch h1 name⟩
  | checkout w name _ hn hb _ ih =>
    obtain ⟨S, rank, h1⟩ := ih
    exact ⟨S, rank, graphInv_checkout h1 name hn hb⟩
  | merge w now fuel name _ hn _ hc ih =>
    obtain ⟨S, rank, h1⟩ := ih
    exact graphInv_merge h1 now fuel name hn hc

theorem graphInv_reaches {H : Str → Nat} {repo : Files} {S : Str → Prop} {rank : Str → Nat}
    (h : GraphInv H repo S rank) {t c : Str} (ht : S t) (hr : Reaches repo t c) : S c := by
  unfold Reaches at hr
  induction hr with
  | refl => exact ht
  | tail _ hp ih => exact ((h.1 _ ih).2.2 _ hp).1

theorem graphInv_irrefl {H : Str → Nat} {repo : Files} {S : Str → Prop} {rank : Str → Nat}
    (h : GraphInv H repo S rank) {c : Str} (hc : S c) : ¬ ProperAncestor repo c c := by
  have key : ∀ y, ProperAncestor repo c y → S y ∧ rank y < rank c := by
    intro y hy
    unfold ProperAncestor at hy
    induction hy with
    | single hp => exact (h.1 _ hc).2.2 _ hp
    | tail _ hp ih =>
      have := (h.1 _ ih.1).2.2 _ hp
      exact ⟨this.1, lt_trans this.2 ih.2⟩
  intro hcc
  exact absurd (key c hcc).2 (lt_irrefl _)

theorem reaches_nil {repo : Files} {c : Str} (hr : Reaches repo [] c) : c = [] := by
  unfold Reaches at hr
  induction hr with
  | refl => rfl
  | tail _ hp ih =>
    rw [ih, parentsOf_nil] at hp
    simp at hp

theorem properAncestor_nil {repo : Files} {c : Str} : ¬ ProperAncestor repo [] c := by
  intro h
  have key : ∀ x y, ProperAncestor repo x y → x ≠ [] := by
    intro x y hxy
    unfold ProperAncestor at hxy
    induction hxy with
    | single hp =>
      intro e
      rw [e, parentsOf_nil] at hp
      simp at hp
    | tail _ _ ih => exact ih
  exact key _ _ h rfl

/-! ## Acyclic history -/

set_option maxRecDepth 100000 in
/-- The example with two diverged branches is a history without a collision. -/
theorem exDiverged_history :
    ReachableByName Hlen (exDiverged "A".toList "A".toList "BB".toList) := by
  have h0 : ReachableByName Hlen (Command.init fresh) :=
    ReachableByName.init fresh rfl (fun _ => rfl)
  have h1 : ReachableByName Hlen
      (stageAndCommit 1 "first".toList "f".toList "A".toList (Command.init fresh)) :=
    ReachableByName.commit _ 1 _
      (ReachableByName.add _ _ (ReachableByName.edit _ _ h0) (by decide)) (by decide)
  have h2 : ReachableByName Hlen (exBase "A".toList) :=
    ReachableByName.branch _ _ h1 (by decide)
  have h3 : ReachableByName Hlen
      (stageAndCommit 2 "ours".toList "f".toList "A".toList (exBase "A".toList)) :=
    ReachableByName.commit _ 2 _
      (ReachableByName.add _ _ (ReachableByName.edit _ _ h2) (by decide)) (by decide)
  have h4 : ReachableByName Hlen (Command.checkout "feat".toList
      (stageAndCommit 2 "ours".toList "f".toList "A".toList (exBase "A".toList))).1 :=
    ReachableByName.checkout _ _ h3 (by decide) (by decide) (by decide)
  have h5 : ReachableByName Hlen (stageAndCommit 3 "theirs".toList "f".toList "BB".toList
      (Command.checkout "feat".toList
        (stageAndCommit 2 "ours".toList "f".toList "A".toList (exBase "A".toList))).1) :=
    ReachableByName.commit _ 3 _
      (ReachableByName.add _ _ (ReachableByName.edit _ _ h4) (by decide)) (by decide)
  have h6 : ReachableByName Hlen (Command.checkout "main".toList
      (stageAndCommit 3 "theirs".toList "f".toList "BB".toList
        (Command.checkout "feat".toList
          (stageAndCommit 2 "ours".toList "f".toList "A".toList (exBase "A".toList))).1)).1 :=
    ReachableByName.checkout _ _ h5 (by decide) (by decide) (by decide)
  exact ReachableByName.add _ _ (ReachableByName.edit _ _ h6) (by decide)

set_option maxRecDepth 100000 in
/-- The clean merge of `feat` into `main` extends that history. -/
theorem exMerged_history :
    ReachableByName Hlen
      (Command.merge Hlen 5 10 "feat".toList
        (exDiverged "A".toList "A".toList "BB".toList)).1 := by
  apply ReachableByName.merge _ 5 10 _ exDiverged_history (by decide) (by decide)
  intro hash hm
  have h2 : (Command.merge Hlen 5 10 "feat".toList
      (exDiverged "A".toList "A".toList "BB".toList)).2 = MergeOut.merged (hx 154) := by decide
  rw [h2] at hm
  rw [← MergeOut.merged.inj hm]
  decide

end MiniGit
